import Mathlib

/-!
# cusp: dense layout, format conversion guards and transposition

A shallow embedding of `cusp/array2d.h`, `cusp/detail/transpose.inl` and
`cusp/detail/host/convert.h`.

Conventions of the embedding.

* Index types (`int`, `size_t`, `IndexType`) are natural numbers.  The shapes and
  indices the code handles are non-negative, and signed overflow is undefined
  behaviour in the source, so no wrap-around is modelled.
* `cusp::array1d` buffers are lists.
* Template parameters selected at compile time (the orientation of an `array2d`,
  the format tags) are ordinary arguments.
* The `float` arithmetic of the fill guards of `convert.h` is read exactly, over
  the rationals.
* A function taking `Matrix2& dst` returns the new state of `dst`.
-/

namespace cusp

/-! ## `cusp/array2d.h` -/

/-- The orientation tags `row_major` and `column_major`. -/
inductive orientation where
  | row_major
  | column_major
  deriving DecidableEq, Repr

namespace detail

/-- Source: `minor_dimension(num_rows, num_cols, orientation)`. -/
def minor_dimension (num_rows num_cols : Nat) : orientation → Nat
  | .row_major => num_cols
  | .column_major => num_rows

/-- Source: `major_dimension(num_rows, num_cols, orientation)`. -/
def major_dimension (num_rows num_cols : Nat) : orientation → Nat
  | .row_major => num_rows
  | .column_major => num_cols

/-- Source: `linear_index_to_row_index(linear_index, num_rows, num_cols, orientation)`. -/
def linear_index_to_row_index (linear_index num_rows num_cols : Nat) : orientation → Nat
  | .row_major => linear_index / num_cols
  | .column_major => linear_index % num_rows

/-- Source: `linear_index_to_col_index(linear_index, num_rows, num_cols, orientation)`. -/
def linear_index_to_col_index (linear_index num_rows num_cols : Nat) : orientation → Nat
  | .row_major => linear_index % num_cols
  | .column_major => linear_index / num_rows

/-- Source: `index_of(i, j, pitch, orientation)`. -/
def index_of (i j pitch : Nat) : orientation → Nat
  | .row_major => i * pitch + j
  | .column_major => j * pitch + i

/-- Modelled from the spec: the five-argument overload
`index_of(i, j, num_rows, num_cols, orientation)` that `transpose_index` calls.
`array2d.h` declares only the four-argument, pitch-based `index_of`; the overload
taking the two dimensions is not among the sources.  Following the data model
("row-major: `i·pitch + j`; column-major: `j·pitch + i`", pitch at least the minor
dimension), it addresses an array of the given shape without padding: the stride
is the minor dimension of `(num_rows, num_cols)`. -/
def index_of_dims (i j num_rows num_cols : Nat) (o : orientation) : Nat :=
  index_of i j (minor_dimension num_rows num_cols o) o

end detail

/-- Source: `array1d::resize(n)`: the first `n` elements are kept and new elements
are value-initialised. -/
def array1d_resize {α : Type} [Inhabited α] (v : List α) (n : Nat) : List α :=
  v.take n ++ List.replicate (n - v.length) default

/-- Source: `class array2d`; the `Orientation` template parameter is the index `o`,
the fields of `matrix_base` are `num_rows`, `num_cols`, `num_entries`. -/
structure array2d (α : Type) (o : orientation) where
  num_rows : Nat
  num_cols : Nat
  num_entries : Nat
  values : List α
  pitch : Nat
  deriving DecidableEq, Repr

namespace array2d

variable {α : Type} {o : orientation}

/-- Source: `array2d()`, the empty matrix. -/
def empty : array2d α o :=
  { num_rows := 0, num_cols := 0, num_entries := 0, values := [], pitch := 0 }

/-- Source: `array2d(num_rows, num_cols, value)`. -/
def construct_fill (num_rows num_cols : Nat) (value : α) : array2d α o :=
  { num_rows := num_rows, num_cols := num_cols, num_entries := num_rows * num_cols,
    pitch := detail.minor_dimension num_rows num_cols o,
    values := List.replicate (num_rows * num_cols) value }

/-- Source: `array2d(num_rows, num_cols)`. -/
def construct [Inhabited α] (num_rows num_cols : Nat) : array2d α o :=
  construct_fill num_rows num_cols default

/-- Source: `operator()(i, j)`, the element at `index_of(i, j, pitch, orientation())`;
`none` when that position lies outside the buffer. -/
def get (A : array2d α o) (i j : Nat) : Option α :=
  A.values[detail.index_of i j A.pitch o]?

/-- Source: `resize(num_rows, num_cols, pitch)`. -/
def resize_pitch [Inhabited α] (A : array2d α o) (num_rows num_cols pitch : Nat) :
    array2d α o :=
  { values := array1d_resize A.values (pitch * detail.major_dimension num_rows num_cols o),
    num_rows := num_rows, num_cols := num_cols, pitch := pitch,
    num_entries := num_rows * num_cols }

/-- Source: `resize(num_rows, num_cols)`. -/
def resize [Inhabited α] (A : array2d α o) (num_rows num_cols : Nat) : array2d α o :=
  A.resize_pitch num_rows num_cols (detail.minor_dimension num_rows num_cols o)

end array2d

/-! ## Parallel primitives used by `transpose.inl` -/

/-- Contract of `thrust::sequence(first, last)` on a buffer of `n` elements. -/
def sequence (n : Nat) : List Nat := List.range n

/-- Contract of `thrust::gather(map_first, map_last, input, result)`:
`result[k] = input[map[k]]` for every position `k` of the map.  The destination
buffer `result` is an argument: positions the map does not reach keep their old
element.  Reads outside `input` and writes outside `result` are undefined in the
source; here such a read leaves the old element and such a write is dropped. -/
def gather {β : Type} (map_ : List Nat) (input result : List β) : List β :=
  result.enum.map fun kr => ((map_[kr.1]?).bind (fun i => input[i]?)).getD kr.2

/-- Insertion step of the stable sort: `x` is placed before the first element
whose key is not smaller than its own. -/
def insert_by_key {β : Type} (key : β → Nat) (x : β) : List β → List β
  | [] => [x]
  | y :: ys => if key x ≤ key y then x :: y :: ys else y :: insert_by_key key x ys

/-- A stable sort by `key` (insertion sort): elements with equal keys keep their
relative order. -/
def stable_sort {β : Type} (key : β → Nat) : List β → List β
  | [] => []
  | x :: xs => insert_by_key key x (stable_sort key xs)

/-- Contract of `thrust::stable_sort_by_key(keys_first, keys_last, values_first)`:
the keys are sorted in non-decreasing order, stably, and the values are permuted
along with them.  Both buffers keep their length; the source requires the value
buffer to be at least as long as the key buffer, and elements past the common
length are left in place. -/
def stable_sort_by_key {β : Type} (keys : List Nat) (values : List β) : List Nat × List β :=
  let s := stable_sort Prod.fst (keys.zip values)
  (s.map Prod.fst ++ keys.drop values.length, s.map Prod.snd ++ values.drop keys.length)

/-! ## `cusp/detail/transpose.inl`: dense arrays -/

namespace detail

/-- Source: `transpose_index<T, SourceOrientation, DestinationOrientation>(m, n)`
applied to `linear_index`; `m`, `n` are the destination dimensions. -/
def transpose_index (so dor : orientation) (m n : Nat) (linear_index : Nat) : Nat :=
  let i := linear_index_to_row_index linear_index m n dor
  let j := linear_index_to_col_index linear_index m n dor
  index_of_dims j i n m so

/-- Source: `transpose(A, At, array2d_format, array2d_format)`. -/
def transpose_array2d {α : Type} [Inhabited α] {so dor : orientation}
    (A : array2d α so) (At : array2d α dor) : array2d α dor :=
  let At1 := At.resize A.num_cols A.num_rows
  { At1 with
    values := gather ((List.range A.values.length).map
        (transpose_index so dor At1.num_rows At1.num_cols)) A.values At1.values }

end detail

/-! ## `cusp/detail/transpose.inl`: COO -/

/-- Modelled from the spec: `cusp::coo_matrix` (`cusp/coo_matrix.h` is not among the
sources): "parallel arrays `row_indices`, `col_indices`, `values`, each length
`num_entries`", with the shared `num_rows`, `num_cols`, `num_entries`. -/
structure coo_matrix (α : Type) where
  num_rows : Nat
  num_cols : Nat
  num_entries : Nat
  row_indices : List Nat
  column_indices : List Nat
  values : List α
  deriving DecidableEq, Repr

/-- Modelled from the spec: the constructor `coo_matrix(num_rows, num_cols, num_entries)`
(`cusp/coo_matrix.h` is not among the sources): a matrix of the given shape whose
three arrays have length `num_entries`, value-initialised. -/
def coo_matrix.construct {α : Type} [Inhabited α] (num_rows num_cols num_entries : Nat) :
    coo_matrix α :=
  { num_rows := num_rows, num_cols := num_cols, num_entries := num_entries,
    row_indices := List.replicate num_entries default,
    column_indices := List.replicate num_entries default,
    values := List.replicate num_entries default }

namespace detail

/-- Source: `transpose(A, At, coo_format, coo_format)`.  The final `At.swap(temp)`
makes `temp` the new state of `At`. -/
def transpose_coo {α : Type} [Inhabited α] (A : coo_matrix α) (_At : coo_matrix α) :
    coo_matrix α :=
  let temp : coo_matrix α := coo_matrix.construct A.num_cols A.num_rows A.num_entries
  let permutation := sequence A.num_entries
  let temp := { temp with row_indices := A.column_indices }
  let sorted := stable_sort_by_key temp.row_indices permutation
  let temp := { temp with row_indices := sorted.1 }
  let permutation := sorted.2
  { temp with
    column_indices := gather permutation A.row_indices temp.column_indices
    values := gather permutation A.values temp.values }

end detail

/-- The stored entries of a COO matrix as (row, column, value) triples, in
storage order. -/
def coo_matrix.entries {α : Type} (A : coo_matrix α) : List (Nat × Nat × α) :=
  A.row_indices.zip (A.column_indices.zip A.values)

/-- The values stored at coordinate `(i, j)`, in storage order. -/
def coo_matrix.values_at {α : Type} (A : coo_matrix α) (i j : Nat) : List α :=
  (A.entries.filter fun e => e.1 = i ∧ e.2.1 = j).map fun e => e.2.2

/-! ## `cusp/detail/transpose.inl`: CSR -/

/-- Modelled from the spec: `cusp::csr_matrix` (`cusp/csr_matrix.h` is not among the
sources): "`row_offsets` (length `num_rows+1`, ...), `col_indices` and `values`
(length `num_entries`)", with the shared `num_rows`, `num_cols`, `num_entries`. -/
structure csr_matrix (α : Type) where
  num_rows : Nat
  num_cols : Nat
  num_entries : Nat
  row_offsets : List Nat
  column_indices : List Nat
  values : List α
  deriving DecidableEq, Repr

/-- Modelled from the spec: the constructor `csr_matrix(num_rows, num_cols, num_entries)`
(`cusp/csr_matrix.h` is not among the sources): `row_offsets` of length
`num_rows + 1`, `column_indices` and `values` of length `num_entries`,
value-initialised. -/
def csr_matrix.construct {α : Type} [Inhabited α] (num_rows num_cols num_entries : Nat) :
    csr_matrix α :=
  { num_rows := num_rows, num_cols := num_cols, num_entries := num_entries,
    row_offsets := List.replicate (num_rows + 1) default,
    column_indices := List.replicate num_entries default,
    values := List.replicate num_entries default }

/-- Modelled from the spec: the default constructor `csr_matrix()`
(`cusp/csr_matrix.h` is not among the sources), an empty matrix. -/
def csr_matrix.empty {α : Type} : csr_matrix α :=
  { num_rows := 0, num_cols := 0, num_entries := 0,
    row_offsets := [], column_indices := [], values := [] }

namespace detail

/-- Modelled from the spec: `cusp::detail::indices_to_offsets(indices, offsets)`
(`cusp/detail/format_utils.h` is not among the sources): "a counting/offset
construction (histogram of occurrences per key, prefix-summed into offsets of
length `rows+1`)".  The destination buffer `offsets` fixes the length: one bucket
per row, `rows = offsets.length - 1`. -/
def indices_to_offsets (indices offsets : List Nat) : List Nat :=
  let histogram := (List.range (offsets.length - 1)).map fun key => indices.count key
  (histogram.scanl (· + ·) 0).take offsets.length

/-- The row index of every entry of the first `rows` rows of an offset array:
row `i` contributes `offsets[i+1] - offsets[i]` copies of `i`. -/
def expand_offsets (offsets : List Nat) (rows : Nat) : List Nat :=
  (List.range rows).flatMap fun i =>
    List.replicate (offsets.getD (i + 1) 0 - offsets.getD i 0) i

/-- Modelled from the spec: `cusp::detail::offsets_to_indices(offsets, indices)`
(`cusp/detail/format_utils.h` is not among the sources): "expand source
`row_offsets` back into one row-index per entry (the per-entry source row)":
row `i` contributes `offsets[i+1] - offsets[i]` copies of `i`.  The result is
written over the buffer `indices`, whose length does not change. -/
def offsets_to_indices (offsets indices : List Nat) : List Nat :=
  let expanded := expand_offsets offsets (offsets.length - 1)
  expanded.take indices.length ++ indices.drop expanded.length

/-- Source: `transpose(A, At, csr_format, csr_format)`.  The final `At.swap(temp)`
makes `temp` the new state of `At`. -/
def transpose_csr {α : Type} [Inhabited α] (A : csr_matrix α) (_At : csr_matrix α) :
    csr_matrix α :=
  let temp : csr_matrix α := csr_matrix.construct A.num_cols A.num_rows A.num_entries
  let permutation := sequence A.num_entries
  let indices := A.column_indices
  let sorted := stable_sort_by_key indices permutation
  let indices := sorted.1
  let permutation := sorted.2
  let temp := { temp with row_offsets := indices_to_offsets indices temp.row_offsets }
  let indices := offsets_to_indices A.row_offsets indices
  { temp with
    column_indices := gather permutation indices temp.column_indices
    values := gather permutation A.values temp.values }

end detail

/-- The entries of row `i` of a CSR matrix, as (column index, value) pairs in
storage order: the positions `row_offsets[i] .. row_offsets[i+1] - 1`. -/
def csr_matrix.row {α : Type} (A : csr_matrix α) (i : Nat) : List (Nat × α) :=
  ((A.column_indices.zip A.values).drop (A.row_offsets.getD i 0)).take
    (A.row_offsets.getD (i + 1) 0 - A.row_offsets.getD i 0)

/-- The stored entries of a CSR matrix as (row, column, value) triples, in
storage order; the row of an entry is read off `row_offsets`. -/
def csr_matrix.entries {α : Type} (A : csr_matrix α) : List (Nat × Nat × α) :=
  (detail.expand_offsets A.row_offsets A.num_rows).zip (A.column_indices.zip A.values)

/-- The values stored in row `i` under column index `j`, in storage order. -/
def csr_matrix.values_at {α : Type} (A : csr_matrix α) (i j : Nat) : List α :=
  ((A.row i).filter fun e => e.1 = j).map Prod.snd

/-- The data-model invariants of a CSR matrix: `row_offsets` has length
`num_rows + 1`, is non-decreasing, starts at 0 and ends at `num_entries`; the
column-index and value arrays have length `num_entries`; every column index lies
in `[0, num_cols)`. -/
structure csr_matrix.valid {α : Type} (A : csr_matrix α) : Prop where
  offsets_length : A.row_offsets.length = A.num_rows + 1
  offsets_sorted : A.row_offsets.Sorted (· ≤ ·)
  offsets_first : A.row_offsets.getD 0 0 = 0
  offsets_last : A.row_offsets.getD A.num_rows 0 = A.num_entries
  columns_length : A.column_indices.length = A.num_entries
  values_length : A.values.length = A.num_entries
  columns_bound : ∀ c ∈ A.column_indices, c < A.num_cols

/-! ## Example matrices -/

/-- The 2×3 row-major array `[[1,2,3],[4,5,6]]`. -/
def example_2x3 : array2d Nat orientation.row_major :=
  { num_rows := 2, num_cols := 3, num_entries := 6, values := [1, 2, 3, 4, 5, 6], pitch := 3 }

/-- The 2×2 COO matrix with entries `(0,1,5)`, `(1,0,7)`. -/
def example_coo : coo_matrix Nat :=
  { num_rows := 2, num_cols := 2, num_entries := 2,
    row_indices := [0, 1], column_indices := [1, 0], values := [5, 7] }

/-- A 3×3 CSR matrix with rows `[(2,10),(0,20)]`, `[]`, `[(1,30),(1,40),(0,50)]`:
unsorted rows, an empty row and a duplicated coordinate. -/
def example_csr : csr_matrix Nat :=
  { num_rows := 3, num_cols := 3, num_entries := 5,
    row_offsets := [0, 2, 2, 5], column_indices := [2, 0, 1, 1, 0],
    values := [10, 20, 30, 40, 50] }

/-- A 3×3 CSR matrix with column-sorted rows `[(0,20),(2,10)]`, `[]`,
`[(0,50),(1,30),(1,40)]`. -/
def example_csr_sorted : csr_matrix Nat :=
  { num_rows := 3, num_cols := 3, num_entries := 5,
    row_offsets := [0, 2, 2, 5], column_indices := [0, 2, 0, 1, 1],
    values := [20, 10, 50, 30, 40] }

/-- The `n × n` CSR matrix with one entry per row, on the anti-diagonal: row `i`
stores the value 1 at column `n - 1 - i`, so all `n` occupied diagonals are
distinct. -/
def anti_diagonal (n : Nat) : csr_matrix Nat :=
  { num_rows := n, num_cols := n, num_entries := n,
    row_offsets := List.range (n + 1),
    column_indices := (List.range n).map fun i => n - 1 - i,
    values := List.replicate n 1 }

/-- The `n × n` CSR matrix with no stored entry. -/
def zero_csr (n : Nat) : csr_matrix Nat :=
  { num_rows := n, num_cols := n, num_entries := 0,
    row_offsets := List.replicate (n + 1) 0, column_indices := [], values := [] }

/-- The `n × n` CSR matrix whose single stored row, row 0, is full: it holds the
value 1 in every column. -/
def full_first_row (n : Nat) : csr_matrix Nat :=
  { num_rows := n, num_cols := n, num_entries := n,
    row_offsets := 0 :: List.replicate n n,
    column_indices := List.range n,
    values := List.replicate n 1 }

/-! ## `cusp/detail/host/convert.h` -/

/-- Source: `cusp::format_conversion_exception`, carrying its message. -/
structure format_conversion_exception where
  message : String
  deriving DecidableEq, Repr

/-- The state a call `convert(src, dst)` ends in: the state of `dst`, and the
exception when one was thrown.  `src` is taken by reference to const and is not
part of the state the call can change. -/
structure outcome (δ : Type) where
  dst : δ
  raised : Option format_conversion_exception

/-- A matrix of any of the six formats.  `cusp/dia_matrix.h`, `cusp/ell_matrix.h`
and `cusp/hyb_matrix.h` are not among the sources: the DIA, ELL and HYB
containers are the type parameters `Dia`, `Ell`, `Hyb`. -/
inductive matrix (α Dia Ell Hyb : Type) where
  | coo (A : coo_matrix α)
  | csr (A : csr_matrix α)
  | dia (A : Dia)
  | ell (A : Ell)
  | hyb (A : Hyb)
  | array2d (o : orientation) (A : cusp.array2d α o)

namespace detail
namespace host

/-- The routines of `cusp/detail/host/conversion.h` and
`cusp/detail/host/conversion_utils.h`, which are not among the sources, taken as
parameters.  A routine `f(src, dst, ...)` maps the source, the prior state of
`dst` and its further arguments to the new state of `dst`. -/
structure conversions (α Dia Ell Hyb : Type) where
  csr_to_coo : csr_matrix α → coo_matrix α → coo_matrix α
  ell_to_coo : Ell → coo_matrix α → coo_matrix α
  hyb_to_coo : Hyb → coo_matrix α → coo_matrix α
  array_to_coo : (o : orientation) → array2d α o → coo_matrix α → coo_matrix α
  coo_to_csr : coo_matrix α → csr_matrix α → csr_matrix α
  dia_to_csr : Dia → csr_matrix α → csr_matrix α
  ell_to_csr : Ell → csr_matrix α → csr_matrix α
  hyb_to_csr : Hyb → csr_matrix α → csr_matrix α
  array_to_csr : (o : orientation) → array2d α o → csr_matrix α → csr_matrix α
  count_diagonals : csr_matrix α → Nat
  csr_to_dia : csr_matrix α → Dia → Nat → Dia
  compute_max_entries_per_row : csr_matrix α → Nat
  csr_to_ell : csr_matrix α → Ell → Nat → Nat → Ell
  compute_optimal_entries_per_row : csr_matrix α → ℚ → Nat → Nat
  csr_to_hyb : csr_matrix α → Hyb → Nat → Hyb
  csr_to_array : (o : orientation) → csr_matrix α → array2d α o → array2d α o
  coo_to_array : (o : orientation) → coo_matrix α → array2d α o → array2d α o
  array_to_array : (o₁ o₂ : orientation) → array2d α o₁ → array2d α o₂ → array2d α o₂

variable {α Dia Ell Hyb : Type}

/-- Source: the default argument `max_fill = 3.0`. -/
def default_max_fill : ℚ := 3

/-- Source: the default argument `alignment = 32`. -/
def default_alignment : Nat := 32

/-- Source: `convert(src, dst, coo_format, csr_format)`. -/
def convert_coo_csr (P : conversions α Dia Ell Hyb) (src : coo_matrix α)
    (dst : csr_matrix α) : csr_matrix α :=
  P.coo_to_csr src dst

/-- Source: `convert(src, dst, dia_format, csr_format)`. -/
def convert_dia_csr (P : conversions α Dia Ell Hyb) (src : Dia)
    (dst : csr_matrix α) : csr_matrix α :=
  P.dia_to_csr src dst

/-- Source: `convert(src, dst, ell_format, csr_format)`. -/
def convert_ell_csr (P : conversions α Dia Ell Hyb) (src : Ell)
    (dst : csr_matrix α) : csr_matrix α :=
  P.ell_to_csr src dst

/-- Source: `convert(src, dst, hyb_format, csr_format)`. -/
def convert_hyb_csr (P : conversions α Dia Ell Hyb) (src : Hyb)
    (dst : csr_matrix α) : csr_matrix α :=
  P.hyb_to_csr src dst

/-- Source: `convert(src, dst, array2d_format, csr_format)`. -/
def convert_array2d_csr (P : conversions α Dia Ell Hyb) {o : orientation}
    (src : array2d α o) (dst : csr_matrix α) : csr_matrix α :=
  P.array_to_csr o src dst

/-- Source: `convert(src, dst, csr_format, dia_format, max_fill, alignment)`. -/
def convert_csr_dia (P : conversions α Dia Ell Hyb) (src : csr_matrix α) (dst : Dia)
    (max_fill : ℚ) (alignment : Nat) : outcome Dia :=
  let occupied_diagonals := P.count_diagonals src
  let threshold : ℚ := 1000000
  let size : ℚ := (occupied_diagonals : ℚ) * (src.num_rows : ℚ)
  let fill_ratio : ℚ := size / max 1 (src.num_entries : ℚ)
  if max_fill < fill_ratio ∧ size > threshold then
    { dst := dst,
      raised := some ⟨"dia_matrix fill-in would exceed maximum tolerance"⟩ }
  else
    { dst := P.csr_to_dia src dst alignment, raised := none }

/-- Source: `convert(src, dst, csr_format, ell_format, max_fill, alignment)`. -/
def convert_csr_ell (P : conversions α Dia Ell Hyb) (src : csr_matrix α) (dst : Ell)
    (max_fill : ℚ) (alignment : Nat) : outcome Ell :=
  let max_entries_per_row := P.compute_max_entries_per_row src
  let threshold : ℚ := 1000000
  let size : ℚ := (max_entries_per_row : ℚ) * (src.num_rows : ℚ)
  let fill_ratio : ℚ := size / max 1 (src.num_entries : ℚ)
  if max_fill < fill_ratio ∧ size > threshold then
    { dst := dst,
      raised := some ⟨"ell_matrix fill-in would exceed maximum tolerance"⟩ }
  else
    { dst := P.csr_to_ell src dst max_entries_per_row alignment, raised := none }

/-- Modelled from the spec: the two calls `cusp::detail::convert(src, csr)` and
`cusp::detail::convert(csr, dst)` of the overload
`convert(src, dst, MatrixFormat1, dia_format)`; `cusp/detail/convert.inl` is not
among the sources.  "Any pair without a direct converter is serviced by a two-hop
path through CSR: `convert(src, csr_tmp); convert(csr_tmp, dst)`": each hop is
resolved by its tag pair among the overloads of `convert.h`, the second one to
`convert(src, dst, csr_format, dia_format)` with its default arguments.  The
argument `csr` is the temporary after the first hop. -/
def convert_via_csr_dia (P : conversions α Dia Ell Hyb) (csr : csr_matrix α) (dst : Dia) :
    outcome Dia :=
  convert_csr_dia P csr dst default_max_fill default_alignment

/-- Modelled from the spec: the two calls `cusp::detail::convert(src, csr)` and
`cusp::detail::convert(csr, dst)` of the overload
`convert(src, dst, MatrixFormat1, ell_format)`; `cusp/detail/convert.inl` is not
among the sources.  As for DIA, the second hop is resolved to
`convert(src, dst, csr_format, ell_format)` with its default arguments.  The
argument `csr` is the temporary after the first hop. -/
def convert_via_csr_ell (P : conversions α Dia Ell Hyb) (csr : csr_matrix α) (dst : Ell) :
    outcome Ell :=
  convert_csr_ell P csr dst default_max_fill default_alignment

/-- Source: the entry point `convert(src, dst)` for a DIA destination.  A CSR
source selects `convert(src, dst, csr_format, dia_format)` with the default
arguments; every other source selects `convert(src, dst, MatrixFormat1, dia_format)`,
which default-constructs a CSR temporary, converts `src` into it and converts the
temporary into `dst`. -/
def convert_dia (P : conversions α Dia Ell Hyb) (src : matrix α Dia Ell Hyb) (dst : Dia) :
    outcome Dia :=
  match src with
  | .csr A => convert_csr_dia P A dst default_max_fill default_alignment
  | .coo A => convert_via_csr_dia P (convert_coo_csr P A csr_matrix.empty) dst
  | .dia A => convert_via_csr_dia P (convert_dia_csr P A csr_matrix.empty) dst
  | .ell A => convert_via_csr_dia P (convert_ell_csr P A csr_matrix.empty) dst
  | .hyb A => convert_via_csr_dia P (convert_hyb_csr P A csr_matrix.empty) dst
  | .array2d _ A => convert_via_csr_dia P (convert_array2d_csr P A csr_matrix.empty) dst

/-- Source: the entry point `convert(src, dst)` for an ELL destination.  A CSR
source selects `convert(src, dst, csr_format, ell_format)` with the default
arguments; every other source selects `convert(src, dst, MatrixFormat1, ell_format)`,
which default-constructs a CSR temporary, converts `src` into it and converts the
temporary into `dst`. -/
def convert_ell (P : conversions α Dia Ell Hyb) (src : matrix α Dia Ell Hyb) (dst : Ell) :
    outcome Ell :=
  match src with
  | .csr A => convert_csr_ell P A dst default_max_fill default_alignment
  | .coo A => convert_via_csr_ell P (convert_coo_csr P A csr_matrix.empty) dst
  | .dia A => convert_via_csr_ell P (convert_dia_csr P A csr_matrix.empty) dst
  | .ell A => convert_via_csr_ell P (convert_ell_csr P A csr_matrix.empty) dst
  | .hyb A => convert_via_csr_ell P (convert_hyb_csr P A csr_matrix.empty) dst
  | .array2d _ A => convert_via_csr_ell P (convert_array2d_csr P A csr_matrix.empty) dst

/-- Modelled from the spec: `count_diagonals(csr)` of
`cusp/detail/host/conversion_utils.h` (not among the sources): "the number of
distinct occupied diagonals `d`", the diagonal of an entry being its column index
minus its row index. -/
def count_diagonals {α : Type} (A : csr_matrix α) : Nat :=
  ((A.entries.map fun e => (e.2.1 : Int) - (e.1 : Int)).dedup).length

/-- Modelled from the spec: `compute_max_entries_per_row(csr)` of
`cusp/detail/host/conversion_utils.h` (not among the sources): "`R` = maximum
entries in any row". -/
def compute_max_entries_per_row {α : Type} (A : csr_matrix α) : Nat :=
  ((List.range A.num_rows).map fun i =>
    A.row_offsets.getD (i + 1) 0 - A.row_offsets.getD i 0).foldl max 0

/-- The rejection condition as the spec states it, over naturals and exact
rationals: `count·num_rows / max(1, num_entries) > max_fill` and
`count·num_rows > 1,000,000`, where `count` is the number of occupied diagonals
(DIA) or the longest row (ELL). -/
def spec_fill_guard (count num_rows num_entries : Nat) (max_fill : ℚ) : Prop :=
  max_fill < ((count * num_rows : Nat) : ℚ) / ((max 1 num_entries : Nat) : ℚ) ∧
    1000000 < count * num_rows

/-- An instance of the conversion routines for evaluating the guards on examples.
The two counting routines follow the spec.  The layouts of the DIA, ELL and HYB
containers are not modelled: such a container is represented by the CSR matrix
of its entries, and converting to or from it copies that matrix.  The routines
between CSR and the COO and dense containers leave the destination as it is. -/
def example_conversions :
    conversions Nat (csr_matrix Nat) (csr_matrix Nat) (csr_matrix Nat) where
  csr_to_coo := fun _ dst => dst
  ell_to_coo := fun _ dst => dst
  hyb_to_coo := fun _ dst => dst
  array_to_coo := fun _ _ dst => dst
  coo_to_csr := fun _ dst => dst
  dia_to_csr := fun src _ => src
  ell_to_csr := fun src _ => src
  hyb_to_csr := fun src _ => src
  array_to_csr := fun _ _ dst => dst
  count_diagonals := count_diagonals
  csr_to_dia := fun src _ _ => src
  compute_max_entries_per_row := compute_max_entries_per_row
  csr_to_ell := fun src _ _ _ => src
  compute_optimal_entries_per_row := fun _ _ _ => 0
  csr_to_hyb := fun src _ _ => src
  csr_to_array := fun _ _ dst => dst
  coo_to_array := fun _ _ dst => dst
  array_to_array := fun _ _ _ dst => dst

end host
end detail

end cusp

namespace cusp

/-! ## `cusp/array2d.h`: element access and views -/

namespace array2d

variable {α : Type} {o : orientation}

/-- Source: the non-const `operator()(i, j)` used as the target of an assignment:
the reference it returns is `values[index_of(i, j, pitch, orientation())]`, and
the assignment overwrites that element.  A position outside the buffer is
undefined in the source; here such a write changes nothing. -/
def set (A : array2d α o) (i j : Nat) (v : α) : array2d α o :=
  { A with values := A.values.set (detail.index_of i j A.pitch o) v }

end array2d

/-- Source: `class array2d_view`; the `Orientation` template parameter is the index
`o`, the fields of `matrix_base` are `num_rows`, `num_cols`, `num_entries`. -/
structure array2d_view (α : Type) (o : orientation) where
  num_rows : Nat
  num_cols : Nat
  num_entries : Nat
  values : List α
  pitch : Nat
  deriving DecidableEq, Repr

namespace array2d_view

variable {α : Type} {o : orientation}

/-- Source: `array2d_view(array2d& a)`, the view of a container. -/
def of_array2d (a : array2d α o) : array2d_view α o :=
  { num_rows := a.num_rows, num_cols := a.num_cols, num_entries := a.num_entries,
    values := a.values, pitch := a.pitch }

/-- Source: the const `operator()(i, j)` of `array2d_view`. -/
def get (A : array2d_view α o) (i j : Nat) : Option α :=
  A.values[detail.index_of i j A.pitch o]?

/-- Source: the non-const `operator()(i, j)` of `array2d_view` used as the target
of an assignment. -/
def set (A : array2d_view α o) (i j : Nat) (v : α) : array2d_view α o :=
  { A with values := A.values.set (detail.index_of i j A.pitch o) v }

end array2d_view

/-! ## `cusp/detail/transpose.inl`: the range of the dense gather -/

namespace detail

/-- Source: the range `[begin, end)` of `transpose(A, At, array2d_format,
array2d_format)`, `counting_iterator<size_t> begin(0)` and `end(A.values.size())`:
the linear positions the gather visits, each written in the destination buffer. -/
def transpose_array2d_positions {α : Type} {so : orientation} (A : array2d α so) :
    List Nat :=
  List.range A.values.length

/-- Source: the divisor of the `/` and `%` in `linear_index_to_row_index` and
`linear_index_to_col_index`. -/
def linear_index_divisor (num_rows num_cols : Nat) : orientation → Nat
  | .row_major => num_cols
  | .column_major => num_rows

/-- Source: the source positions the gather of `transpose(A, At, array2d_format,
array2d_format)` reads: `transpose_index(At.num_rows, At.num_cols)` applied to
every visited position, with `At` already resized to `A.num_cols × A.num_rows`. -/
def transpose_array2d_sources {α : Type} (so dor : orientation) (A : array2d α so) :
    List Nat :=
  (transpose_array2d_positions A).map (transpose_index so dor A.num_cols A.num_rows)

end detail

/-! ## Example arrays with padding -/

/-- The 2×2 row-major array `[[1,2],[3,4]]` stored with pitch 3, as left by
`resize(2, 2, 3)`: the buffer is `[1, 2, 9, 3, 4, 9]`, the 9s being padding. -/
def example_padded : array2d Nat orientation.row_major :=
  { num_rows := 2, num_cols := 2, num_entries := 4, values := [1, 2, 9, 3, 4, 9], pitch := 3 }

/-- The 0×3 column-major array stored with pitch 2, as left by `resize(0, 3, 2)`:
it has no element and a buffer of `2 × 3` padding positions. -/
def example_padded_empty : array2d Nat orientation.column_major :=
  { num_rows := 0, num_cols := 3, num_entries := 0, values := [0, 0, 0, 0, 0, 0], pitch := 2 }

/-- The CSR matrix with rows `[(0,1)]`, `[(0,2),(1,3),(2,4)]`, `[(1,5),(2,6)]`: row
sizes 1, 3, 2. -/
def example_rows_132 : csr_matrix Nat :=
  { num_rows := 3, num_cols := 3, num_entries := 6,
    row_offsets := [0, 1, 4, 6], column_indices := [0, 0, 1, 2, 1, 2],
    values := [1, 2, 3, 4, 5, 6] }

/-! ## `cusp/detail/host/convert.h`: the full dispatch -/

/-- The six format tags (`cusp/format.h` is not among the sources; the tags are
named in `convert.h` and `transpose.inl`). -/
inductive format where
  | coo
  | csr
  | dia
  | ell
  | hyb
  | array2d
  deriving DecidableEq, Repr

/-- The format tag of a matrix, `typename Matrix::format`. -/
def matrix.format {α Dia Ell Hyb : Type} : matrix α Dia Ell Hyb → format
  | .coo _ => .coo
  | .csr _ => .csr
  | .dia _ => .dia
  | .ell _ => .ell
  | .hyb _ => .hyb
  | .array2d _ _ => .array2d

namespace detail
namespace host

variable {α Dia Ell Hyb : Type}

/-- Source: the default argument `relative_speed = 3.0`. -/
def default_relative_speed : ℚ := 3

/-- Source: the default argument `breakeven_threshold = 4096`. -/
def default_breakeven_threshold : Nat := 4096

/-- Source: `convert(src, dst, csr_format, coo_format)`. -/
def convert_csr_coo (P : conversions α Dia Ell Hyb) (src : csr_matrix α)
    (dst : coo_matrix α) : coo_matrix α :=
  P.csr_to_coo src dst

/-- Source: `convert(src, dst, ell_format, coo_format)`. -/
def convert_ell_coo (P : conversions α Dia Ell Hyb) (src : Ell)
    (dst : coo_matrix α) : coo_matrix α :=
  P.ell_to_coo src dst

/-- Source: `convert(src, dst, hyb_format, coo_format)`. -/
def convert_hyb_coo (P : conversions α Dia Ell Hyb) (src : Hyb)
    (dst : coo_matrix α) : coo_matrix α :=
  P.hyb_to_coo src dst

/-- Source: `convert(src, dst, array2d_format, coo_format)`. -/
def convert_array2d_coo (P : conversions α Dia Ell Hyb) {o : orientation}
    (src : array2d α o) (dst : coo_matrix α) : coo_matrix α :=
  P.array_to_coo o src dst

/-- Source: `convert(src, dst, csr_format, hyb_format, relative_speed,
breakeven_threshold)`. -/
def convert_csr_hyb (P : conversions α Dia Ell Hyb) (src : csr_matrix α) (dst : Hyb)
    (relative_speed : ℚ) (breakeven_threshold : Nat) : Hyb :=
  let num_entries_per_row :=
    P.compute_optimal_entries_per_row src relative_speed breakeven_threshold
  P.csr_to_hyb src dst num_entries_per_row

/-- Source: `convert(src, dst, csr_format, array2d_format)`. -/
def convert_csr_array2d (P : conversions α Dia Ell Hyb) {o : orientation}
    (src : csr_matrix α) (dst : array2d α o) : array2d α o :=
  P.csr_to_array o src dst

/-- Source: `convert(src, dst, coo_format, array2d_format)`. -/
def convert_coo_array2d (P : conversions α Dia Ell Hyb) {o : orientation}
    (src : coo_matrix α) (dst : array2d α o) : array2d α o :=
  P.coo_to_array o src dst

/-- Source: `convert(src, dst, array2d_format, array2d_format)`. -/
def convert_array2d_array2d (P : conversions α Dia Ell Hyb) {o₁ o₂ : orientation}
    (src : array2d α o₁) (dst : array2d α o₂) : array2d α o₂ :=
  P.array_to_array o₁ o₂ src dst

/-- The state after a call that returned normally with `dst` in the given state. -/
def returned (dst : matrix α Dia Ell Hyb) : Option (outcome (matrix α Dia Ell Hyb)) :=
  some { dst := dst, raised := none }

/-- The outcome of a call on a container of one format, as an outcome on matrices
of any format. -/
def lift_outcome {δ : Type} (tag : δ → matrix α Dia Ell Hyb) (r : outcome δ) :
    Option (outcome (matrix α Dia Ell Hyb)) :=
  some { dst := tag r.dst, raised := r.raised }

/-- Source: the body shared by the overloads `convert(src, dst, MatrixFormat1, F)`
for `F` one of `coo_format`, `dia_format`, `ell_format`, `hyb_format`,
`array2d_format`: a default-constructed CSR temporary, `cusp::detail::convert(src,
csr)`, then `cusp::detail::convert(csr, dst)`.  `inner` stands for
`cusp::detail::convert`, with `none` when it gives no result; an exception thrown
by the first call propagates before the second call, with `dst` untouched. -/
def convert_through_csr
    (inner : matrix α Dia Ell Hyb → matrix α Dia Ell Hyb →
      Option (outcome (matrix α Dia Ell Hyb)))
    (src dst : matrix α Dia Ell Hyb) : Option (outcome (matrix α Dia Ell Hyb)) :=
  match inner src (.csr csr_matrix.empty) with
  | none => none
  | some first =>
    match first.raised with
    | some e => some { dst := dst, raised := some e }
    | none => inner first.dst dst

/-- Source: the entry point `convert(src, dst)`: the overload selected for the tag
pair `(Matrix1::format, Matrix2::format)`.  The overload naming both tags is
selected when there is one; otherwise the overload generic in the source tag,
which exists for every destination except CSR.  No overload matches a CSR source
with a CSR destination: the result is `none`.  `inner` stands for
`cusp::detail::convert`, called by the generic overloads. -/
def convert_with (P : conversions α Dia Ell Hyb)
    (inner : matrix α Dia Ell Hyb → matrix α Dia Ell Hyb →
      Option (outcome (matrix α Dia Ell Hyb)))
    (src dst : matrix α Dia Ell Hyb) : Option (outcome (matrix α Dia Ell Hyb)) :=
  match src, dst with
  | .csr A, .coo D => returned (.coo (convert_csr_coo P A D))
  | .ell A, .coo D => returned (.coo (convert_ell_coo P A D))
  | .hyb A, .coo D => returned (.coo (convert_hyb_coo P A D))
  | .array2d _ A, .coo D => returned (.coo (convert_array2d_coo P A D))
  | s, .coo D => convert_through_csr inner s (.coo D)
  | .coo A, .csr D => returned (.csr (convert_coo_csr P A D))
  | .dia A, .csr D => returned (.csr (convert_dia_csr P A D))
  | .ell A, .csr D => returned (.csr (convert_ell_csr P A D))
  | .hyb A, .csr D => returned (.csr (convert_hyb_csr P A D))
  | .array2d _ A, .csr D => returned (.csr (convert_array2d_csr P A D))
  | .csr _, .csr _ => none
  | .csr A, .dia D =>
    lift_outcome .dia (convert_csr_dia P A D default_max_fill default_alignment)
  | s, .dia D => convert_through_csr inner s (.dia D)
  | .csr A, .ell D =>
    lift_outcome .ell (convert_csr_ell P A D default_max_fill default_alignment)
  | s, .ell D => convert_through_csr inner s (.ell D)
  | .csr A, .hyb D =>
    returned (.hyb (convert_csr_hyb P A D default_relative_speed default_breakeven_threshold))
  | s, .hyb D => convert_through_csr inner s (.hyb D)
  | .csr A, .array2d o D => returned (.array2d o (convert_csr_array2d P A D))
  | .coo A, .array2d o D => returned (.array2d o (convert_coo_array2d P A D))
  | .array2d _ A, .array2d o D => returned (.array2d o (convert_array2d_array2d P A D))
  | s, .array2d o D => convert_through_csr inner s (.array2d o D)

end host

/-- Modelled from the spec: `cusp::detail::convert(src, dst)` of
`cusp/detail/convert.inl`, which is not among the sources.  "Any pair without a
direct converter is serviced by a two-hop path through CSR: `convert(src,
csr_tmp); convert(csr_tmp, dst)`": the call is resolved by its tag pair through
the entry point of `convert.h`.  The first argument bounds the depth of nested
calls; `none` is returned when it is exhausted. -/
def convert_nested {α Dia Ell Hyb : Type} (P : host.conversions α Dia Ell Hyb) :
    Nat → matrix α Dia Ell Hyb → matrix α Dia Ell Hyb →
      Option (outcome (matrix α Dia Ell Hyb))
  | 0 => fun _ _ => none
  | fuel + 1 => host.convert_with P (convert_nested P fuel)

namespace host

variable {α Dia Ell Hyb : Type}

/-- Source: the entry point `convert(src, dst)`, its calls to
`cusp::detail::convert` nested at most `fuel` deep. -/
def convert (P : conversions α Dia Ell Hyb) (fuel : Nat)
    (src dst : matrix α Dia Ell Hyb) : Option (outcome (matrix α Dia Ell Hyb)) :=
  convert_with P (convert_nested P fuel) src dst

/-- The ordered pairs (source, destination) for which the spec lists a direct
converter: "COO←{CSR, ELL, HYB, Dense2D}; CSR←{COO, DIA, ELL, HYB, Dense2D};
DIA←CSR; ELL←CSR; HYB←CSR; Dense2D←{COO, CSR, Dense2D}". -/
def direct_pairs : List (format × format) :=
  [(.csr, .coo), (.ell, .coo), (.hyb, .coo), (.array2d, .coo),
   (.coo, .csr), (.dia, .csr), (.ell, .csr), (.hyb, .csr), (.array2d, .csr),
   (.csr, .dia), (.csr, .ell), (.csr, .hyb),
   (.coo, .array2d), (.csr, .array2d), (.array2d, .array2d)]

/-- The direct converter of a pair, as the spec lists them: the result of one
direct conversion, `none` for a pair without a direct converter. -/
def direct_converter (P : conversions α Dia Ell Hyb)
    (src dst : matrix α Dia Ell Hyb) : Option (outcome (matrix α Dia Ell Hyb)) :=
  match src, dst with
  | .csr A, .coo D => returned (.coo (P.csr_to_coo A D))
  | .ell A, .coo D => returned (.coo (P.ell_to_coo A D))
  | .hyb A, .coo D => returned (.coo (P.hyb_to_coo A D))
  | .array2d o A, .coo D => returned (.coo (P.array_to_coo o A D))
  | .coo A, .csr D => returned (.csr (P.coo_to_csr A D))
  | .dia A, .csr D => returned (.csr (P.dia_to_csr A D))
  | .ell A, .csr D => returned (.csr (P.ell_to_csr A D))
  | .hyb A, .csr D => returned (.csr (P.hyb_to_csr A D))
  | .array2d o A, .csr D => returned (.csr (P.array_to_csr o A D))
  | .csr A, .dia D =>
    lift_outcome .dia (convert_csr_dia P A D default_max_fill default_alignment)
  | .csr A, .ell D =>
    lift_outcome .ell (convert_csr_ell P A D default_max_fill default_alignment)
  | .csr A, .hyb D =>
    returned (.hyb (P.csr_to_hyb A D (P.compute_optimal_entries_per_row A 3 4096)))
  | .coo A, .array2d o D => returned (.array2d o (P.coo_to_array o A D))
  | .csr A, .array2d o D => returned (.array2d o (P.csr_to_array o A D))
  | .array2d o₁ A, .array2d o₂ D => returned (.array2d o₂ (P.array_to_array o₁ o₂ A D))
  | _, _ => none

/-- The conversion as the spec describes it: the direct converter when the pair
has one, and otherwise the two-hop path through a temporary CSR, each hop a
direct converter. -/
def spec_convert (P : conversions α Dia Ell Hyb)
    (src dst : matrix α Dia Ell Hyb) : Option (outcome (matrix α Dia Ell Hyb)) :=
  match direct_converter P src dst with
  | some r => some r
  | none => convert_through_csr (direct_converter P) src dst

end host
end detail

end cusp

namespace cusp

/-! ## `cusp/detail/transpose.inl`: dispatch and the generic overload -/

namespace detail

variable {α Dia Ell Hyb : Type}

/-- Modelled from the spec: the converting constructor
`cusp::csr_matrix<...> A_csr(A)` (`cusp/csr_matrix.h` and its implementation are
not among the sources): "construct a CSR view of the source (converting if
necessary)".  A CSR source is copied; any other source is converted into a
default-constructed CSR matrix by the converter of its format. -/
def csr_of_matrix (P : host.conversions α Dia Ell Hyb) :
    matrix α Dia Ell Hyb → csr_matrix α
  | .csr A => A
  | .coo A => host.convert_coo_csr P A csr_matrix.empty
  | .dia A => host.convert_dia_csr P A csr_matrix.empty
  | .ell A => host.convert_ell_csr P A csr_matrix.empty
  | .hyb A => host.convert_hyb_csr P A csr_matrix.empty
  | .array2d _ A => host.convert_array2d_csr P A csr_matrix.empty

/-- Modelled from the spec: the converting assignment `At = At_csr` (the
assignment operators of the containers are not among the sources; `array2d.h`
only declares its own): "convert the CSR transpose result into the destination's
native format.  Assignment into `At` replaces its prior contents".  A CSR
destination becomes a copy of `At_csr`; any other destination is the target of
the conversion from CSR into its format, which for DIA and ELL is the guarded
one with its default arguments. -/
def assign_csr (P : host.conversions α Dia Ell Hyb) (At : matrix α Dia Ell Hyb)
    (At_csr : csr_matrix α) : outcome (matrix α Dia Ell Hyb) :=
  match At with
  | .csr _ => { dst := .csr At_csr, raised := none }
  | .coo D => { dst := .coo (host.convert_csr_coo P At_csr D), raised := none }
  | .dia D =>
    let r := host.convert_csr_dia P At_csr D host.default_max_fill host.default_alignment
    { dst := .dia r.dst, raised := r.raised }
  | .ell D =>
    let r := host.convert_csr_ell P At_csr D host.default_max_fill host.default_alignment
    { dst := .ell r.dst, raised := r.raised }
  | .hyb D =>
    { dst := .hyb (host.convert_csr_hyb P At_csr D host.default_relative_speed
        host.default_breakeven_threshold),
      raised := none }
  | .array2d o D => { dst := .array2d o (host.convert_csr_array2d P At_csr D), raised := none }

/-- Source: `transpose(A, At, MatrixFormat1, MatrixFormat2)`, the default case:
`A_csr(A)`, a default-constructed `At_csr`, `cusp::transpose(A_csr, At_csr)`,
which selects the CSR overload, and `At = At_csr`. -/
def transpose_generic [Inhabited α] (P : host.conversions α Dia Ell Hyb)
    (A At : matrix α Dia Ell Hyb) : outcome (matrix α Dia Ell Hyb) :=
  let A_csr := csr_of_matrix P A
  let At_csr : csr_matrix α := csr_matrix.empty
  let At_csr := transpose_csr A_csr At_csr
  assign_csr P At At_csr

end detail

/-- Source: the entry point `transpose(A, At)`: the overload of
`cusp::detail::transpose` selected for the tag pair `(MatrixType1::format,
MatrixType2::format)`: the COO, CSR and dense overloads when both tags are that
format, the default case otherwise. -/
def transpose {α Dia Ell Hyb : Type} [Inhabited α] (P : detail.host.conversions α Dia Ell Hyb)
    (A At : matrix α Dia Ell Hyb) : outcome (matrix α Dia Ell Hyb) :=
  match A, At with
  | .coo A, .coo At => { dst := .coo (detail.transpose_coo A At), raised := none }
  | .csr A, .csr At => { dst := .csr (detail.transpose_csr A At), raised := none }
  | .array2d _ A, .array2d dor At =>
    { dst := .array2d dor (detail.transpose_array2d A At), raised := none }
  | A, At => detail.transpose_generic P A At

/-- The CSR matrix the spec's fallback starts from: "convert `A` to a CSR
matrix", the source itself when it is already CSR, the result of `convert` into
a temporary CSR otherwise. -/
def spec_to_csr {α Dia Ell Hyb : Type} (P : detail.host.conversions α Dia Ell Hyb)
    (A : matrix α Dia Ell Hyb) : Option (csr_matrix α) :=
  match A with
  | .csr A => some A
  | other =>
    match detail.host.convert P 1 other (.csr csr_matrix.empty) with
    | some { dst := .csr T, raised := none } => some T
    | _ => none

/-- The generic transpose as the spec describes it: "convert to CSR, transpose
CSR, convert back": convert `A` to a CSR matrix, apply the CSR transpose
algorithm, and convert the result into the format of `At` (a copy when `At` is
CSR). -/
def spec_transpose_via_csr {α Dia Ell Hyb : Type} [Inhabited α]
    (P : detail.host.conversions α Dia Ell Hyb) (A At : matrix α Dia Ell Hyb) :
    Option (outcome (matrix α Dia Ell Hyb)) :=
  match spec_to_csr P A with
  | none => none
  | some A_csr =>
    let At_csr := detail.transpose_csr A_csr csr_matrix.empty
    match At with
    | .csr _ => some { dst := .csr At_csr, raised := none }
    | other => detail.host.convert P 1 (.csr At_csr) other

/-- The tag pairs with a format-specific transpose. -/
def specific_transpose_pairs : List (format × format) :=
  [(.coo, .coo), (.csr, .csr), (.array2d, .array2d)]

/-- The 2×2 COO matrix with entries `(0,1,5)`, `(1,1,6)`, `(1,0,7)`: two entries in
column 1. -/
def example_coo_dup : coo_matrix Nat :=
  { num_rows := 2, num_cols := 2, num_entries := 3,
    row_indices := [0, 1, 1], column_indices := [1, 1, 0], values := [5, 6, 7] }

/-! ## The ELL container -/

/-- Modelled from the spec: `cusp::ell_matrix` (`cusp/ell_matrix.h` is not among
the sources): "per-row capacity `max_entries_per_row`; `col_indices`/`values`
sized `num_rows × max_entries_per_row`; unused slots carry a sentinel column
index (outside `[0,num_cols)`) and zero value".  The two tables are kept row by
row; the sentinel is `-1`. -/
structure ell_matrix (α : Type) where
  num_rows : Nat
  num_cols : Nat
  num_entries : Nat
  max_entries_per_row : Nat
  column_indices : List (List Int)
  values : List (List α)
  deriving DecidableEq, Repr

/-- The number of slots of an ELL matrix that hold a real entry, that is, a
column index other than the sentinel. -/
def ell_matrix.real_entries {α : Type} (E : ell_matrix α) : Nat :=
  (E.column_indices.map fun row => row.countP fun c => decide (0 ≤ c)).sum

/-- One row of an ELL table: the first `width` elements of the row, then the
padding element up to `width`. -/
def ell_row {β : Type} (width : Nat) (pad : β) (row : List β) : List β :=
  row.take width ++ List.replicate (width - row.length) pad

/-- Modelled from the spec: `csr_to_ell(src, dst, max_entries_per_row, alignment)`
of `cusp/detail/host/conversion.h` (not among the sources): "rows are padded to
width `R` ... with the sentinel/zero convention".  The per-row capacity of the
result is the width handed in: the testable property of the spec (rows of size
1, 3, 2 give `max_entries_per_row = 3` under the default alignment 32) excludes
rounding the capacity up to the alignment, which is left to the physical stride
of the tables and is not represented here. -/
def csr_to_ell {α : Type} [Inhabited α] (src : csr_matrix α) (_dst : ell_matrix α)
    (max_entries_per_row _alignment : Nat) : ell_matrix α :=
  let rows := (List.range src.num_rows).map fun i => src.row i
  { num_rows := src.num_rows, num_cols := src.num_cols,
    num_entries := (rows.map fun row => min row.length max_entries_per_row).sum,
    max_entries_per_row := max_entries_per_row,
    column_indices := rows.map fun row =>
      ell_row max_entries_per_row (-1) (row.map fun e => (e.1 : Int)),
    values := rows.map fun row => ell_row max_entries_per_row default (row.map Prod.snd) }

/-- Modelled from the spec: the default constructor `ell_matrix()`, an empty
matrix. -/
def ell_matrix.empty {α : Type} : ell_matrix α :=
  { num_rows := 0, num_cols := 0, num_entries := 0, max_entries_per_row := 0,
    column_indices := [], values := [] }

/-- An instance of the conversion routines with the ELL container modelled from
the spec: `compute_max_entries_per_row` and `csr_to_ell` follow the spec; the
DIA and HYB containers are represented by the CSR matrix of their entries as in
`example_conversions`, and the routines out of ELL and between CSR and the COO
and dense containers leave the destination as it is. -/
def example_ell_conversions :
    detail.host.conversions Nat (csr_matrix Nat) (ell_matrix Nat) (csr_matrix Nat) where
  csr_to_coo := fun _ dst => dst
  ell_to_coo := fun _ dst => dst
  hyb_to_coo := fun _ dst => dst
  array_to_coo := fun _ _ dst => dst
  coo_to_csr := fun _ dst => dst
  dia_to_csr := fun src _ => src
  ell_to_csr := fun _ dst => dst
  hyb_to_csr := fun src _ => src
  array_to_csr := fun _ _ dst => dst
  count_diagonals := detail.host.count_diagonals
  csr_to_dia := fun src _ _ => src
  compute_max_entries_per_row := detail.host.compute_max_entries_per_row
  csr_to_ell := csr_to_ell
  compute_optimal_entries_per_row := fun _ _ _ => 0
  csr_to_hyb := fun src _ _ => src
  csr_to_array := fun _ _ dst => dst
  coo_to_array := fun _ _ dst => dst
  array_to_array := fun _ _ _ dst => dst

end cusp

namespace cusp

/-! ## Lexicographic order of entries -/

/-- The lexicographic order on (row, column) pairs: `a` comes no later than `b`. -/
def lex_le (a b : Nat × Nat) : Prop :=
  a.1 < b.1 ∨ (a.1 = b.1 ∧ a.2 ≤ b.2)

/-- Insertion step of the stable sort by two keys: `x` is placed before the first
element whose pair of keys is not lexicographically smaller than its own. -/
def insert_by_keys {β : Type} (key₁ key₂ : β → Nat) (x : β) : List β → List β
  | [] => [x]
  | y :: ys =>
    if key₁ x < key₁ y ∨ (key₁ x = key₁ y ∧ key₂ x ≤ key₂ y) then x :: y :: ys
    else y :: insert_by_keys key₁ key₂ x ys

/-- A stable sort by `key₁`, then `key₂` (insertion sort under the lexicographic
order): elements with both keys equal keep their relative order. -/
def stable_sort_lex {β : Type} (key₁ key₂ : β → Nat) : List β → List β
  | [] => []
  | x :: xs => insert_by_keys key₁ key₂ x (stable_sort_lex key₁ key₂ xs)

/-- The entries of a COO matrix stably sorted by row index, then column index. -/
def coo_matrix.sorted_entries {α : Type} (A : coo_matrix α) : List (Nat × Nat × α) :=
  stable_sort_lex (fun e => e.1) (fun e => e.2.1) A.entries

/-- The entries of a COO matrix are in non-decreasing lexicographic (row, column)
order. -/
def coo_matrix.lex_sorted {α : Type} (A : coo_matrix α) : Prop :=
  A.entries.Pairwise fun a b => lex_le (a.1, a.2.1) (b.1, b.2.1)

/-- The coordinates (row, column) of the stored entries of a CSR matrix, in
storage order. -/
def csr_matrix.coordinates {α : Type} (A : csr_matrix α) : List (Nat × Nat) :=
  A.entries.map fun e => (e.1, e.2.1)

/-- The 2×3 column-major array `[[1,2,3],[4,5,6]]`, with buffer `[1,4,2,5,3,6]`. -/
def example_2x3_column : array2d Nat orientation.column_major :=
  { num_rows := 2, num_cols := 3, num_entries := 6, values := [1, 4, 2, 5, 3, 6], pitch := 2 }

end cusp

/-! # Lemmas -/

open cusp cusp.detail

namespace cusp

/-! ## The gather primitive -/

theorem length_gather {β : Type} (m : List Nat) (input result : List β) :
    (gather m input result).length = result.length := by
  simp [gather]

theorem getElem?_gather {β : Type} (m : List Nat) (input result : List β) (k : Nat) :
    (gather m input result)[k]? =
      (result[k]?).map fun r => ((m[k]?).bind (fun i => input[i]?)).getD r := by
  simp [gather, List.getElem?_map, List.getElem?_enum, Option.map_map, Function.comp_def]

theorem getElem?_gather_of_lt {β : Type} {m : List Nat} {input result : List β} {k i : Nat}
    (hk : k < result.length) (hm : m[k]? = some i) (hi : i < input.length) :
    (gather m input result)[k]? = input[i]? := by
  rw [getElem?_gather, hm, List.getElem?_eq_getElem hk]
  simp [List.getElem?_eq_getElem hi]

/-- When the map covers the whole destination and stays inside the input, the
gather is the input read through the map. -/
theorem map_some_gather {β : Type} {m : List Nat} {input result : List β}
    (hlen : m.length = result.length) (hin : ∀ i ∈ m, i < input.length) :
    (gather m input result).map some = m.map fun i => input[i]? := by
  apply List.ext_getElem?
  intro k
  simp only [List.getElem?_map, getElem?_gather]
  by_cases hk : k < m.length
  · have hi := hin _ (List.getElem_mem hk)
    rw [List.getElem?_eq_getElem hk, List.getElem?_eq_getElem (hlen ▸ hk)]
    simp [List.getElem?_eq_getElem hi]
  · have h1 : m[k]? = none := List.getElem?_eq_none (by omega)
    have h2 : result[k]? = none := List.getElem?_eq_none (by omega)
    simp [h1, h2]

end cusp

open cusp cusp.detail

namespace cusp

/-! ## Dense addressing -/

theorem minor_mul_major (m n : Nat) (o : orientation) :
    minor_dimension m n o * major_dimension m n o = m * n := by
  cases o <;> simp [minor_dimension, major_dimension, Nat.mul_comm]

/-- Coordinates of an address: the address of a valid coordinate lies in the
buffer and the two index functions recover the coordinate. -/
theorem coords_index_of {m n a b : Nat} (o : orientation) (ha : a < m) (hb : b < n) :
    index_of a b (minor_dimension m n o) o < m * n ∧
    linear_index_to_row_index (index_of a b (minor_dimension m n o) o) m n o = a ∧
    linear_index_to_col_index (index_of a b (minor_dimension m n o) o) m n o = b := by
  cases o
  · simp only [index_of, minor_dimension, linear_index_to_row_index, linear_index_to_col_index]
    refine ⟨?_, ?_, ?_⟩
    · calc a * n + b < a * n + n := by omega
        _ = (a + 1) * n := by ring
        _ ≤ m * n := Nat.mul_le_mul_right n ha
    · rw [Nat.add_comm, Nat.add_mul_div_right _ _ (by omega), Nat.div_eq_of_lt hb]; simp
    · rw [Nat.add_comm, Nat.add_mul_mod_self_right, Nat.mod_eq_of_lt hb]
  · simp only [index_of, minor_dimension, linear_index_to_row_index, linear_index_to_col_index]
    refine ⟨?_, ?_, ?_⟩
    · calc b * m + a < b * m + m := by omega
        _ = m * (b + 1) := by ring
        _ ≤ m * n := Nat.mul_le_mul_left m hb
    · rw [Nat.add_comm, Nat.add_mul_mod_self_right, Nat.mod_eq_of_lt ha]
    · rw [Nat.add_comm, Nat.add_mul_div_right _ _ (by omega), Nat.div_eq_of_lt ha]; simp

/-- Every position of an unpadded buffer is the address of a valid coordinate. -/
theorem index_of_coords {m n l : Nat} (o : orientation) (hl : l < m * n) :
    linear_index_to_row_index l m n o < m ∧
    linear_index_to_col_index l m n o < n ∧
    index_of (linear_index_to_row_index l m n o) (linear_index_to_col_index l m n o)
      (minor_dimension m n o) o = l := by
  have hm : 0 < m := Nat.pos_of_ne_zero (by rintro rfl; simp at hl)
  have hn : 0 < n := Nat.pos_of_ne_zero (by rintro rfl; simp at hl)
  cases o
  · simp only [index_of, minor_dimension, linear_index_to_row_index, linear_index_to_col_index]
    refine ⟨?_, Nat.mod_lt _ hn, ?_⟩
    · exact Nat.div_lt_of_lt_mul (by rwa [Nat.mul_comm])
    · rw [Nat.mul_comm]; exact Nat.div_add_mod l n
  · simp only [index_of, minor_dimension, linear_index_to_row_index, linear_index_to_col_index]
    refine ⟨Nat.mod_lt _ hm, ?_, ?_⟩
    · exact Nat.div_lt_of_lt_mul hl
    · rw [Nat.mul_comm]; exact Nat.div_add_mod l m

/-- The index transform sends the destination address of `(j, i)` to the source
address of `(i, j)`; `r`, `c` are the source dimensions. -/
theorem transpose_index_mirror (so dor : orientation) {r c i j : Nat}
    (hi : i < r) (hj : j < c) :
    transpose_index so dor c r (index_of j i (minor_dimension c r dor) dor) =
      index_of i j (minor_dimension r c so) so := by
  obtain ⟨-, h1, h2⟩ := @coords_index_of c r j i dor hj hi
  simp only [transpose_index, index_of_dims, h1, h2]

theorem length_array1d_resize {α : Type} [Inhabited α] (v : List α) (n : Nat) :
    (array1d_resize v n).length = n := by
  simp [array1d_resize]; omega

theorem length_values_resize {α : Type} [Inhabited α] {o : orientation} (A : array2d α o)
    (r c : Nat) : (A.resize r c).values.length = r * c := by
  simp [array2d.resize, array2d.resize_pitch, length_array1d_resize, minor_mul_major]

theorem length_values_transpose_array2d {α : Type} [Inhabited α] {so dor : orientation}
    (A : array2d α so) (At : array2d α dor) :
    (transpose_array2d A At).values.length = A.num_cols * A.num_rows := by
  simp [transpose_array2d, length_gather, length_values_resize]

/-- Each position of the transposed buffer holds the source element the index
transform points at. -/
theorem getElem?_values_transpose_array2d {α : Type} [Inhabited α] {so dor : orientation}
    (A : array2d α so) (At : array2d α dor) (l : Nat)
    (hl : l < A.num_cols * A.num_rows) (hv : A.values.length = A.num_rows * A.num_cols)
    (hs : transpose_index so dor A.num_cols A.num_rows l < A.num_rows * A.num_cols) :
    (transpose_array2d A At).values[l]? =
      A.values[transpose_index so dor A.num_cols A.num_rows l]? := by
  have hl2 : l < A.values.length := by rw [hv, Nat.mul_comm]; exact hl
  simp only [transpose_array2d]
  apply getElem?_gather_of_lt
  · rw [length_values_resize]; exact hl
  · simp [List.getElem?_map, List.getElem?_range hl2, array2d.resize, array2d.resize_pitch]
  · rw [hv]; exact hs

theorem transpose_index_lt (so dor : orientation) {r c l : Nat} (hl : l < c * r) :
    transpose_index so dor c r l < r * c := by
  obtain ⟨h1, h2, -⟩ := index_of_coords dor hl
  exact (coords_index_of so h2 h1).1

/-- Transposing back and forth maps every position to itself. -/
theorem transpose_index_involutive (o₁ o₂ : orientation) {r c l : Nat} (hl : l < r * c) :
    transpose_index o₁ o₂ c r (transpose_index o₂ o₁ r c l) = l := by
  obtain ⟨h1, h2, h3⟩ := index_of_coords o₁ hl
  have := transpose_index_mirror o₁ o₂ h1 h2
  simp only [transpose_index, index_of_dims] at this ⊢
  rw [this, h3]

end cusp

open cusp cusp.detail

namespace cusp

/-! ## The stable sort -/

section stable_sort

variable {β γ : Type} (key : β → Nat)

theorem perm_insert_by_key (x : β) (l : List β) : (insert_by_key key x l).Perm (x :: l) := by
  induction l with
  | nil => simp [insert_by_key]
  | cons y ys ih =>
    simp only [insert_by_key]
    split
    · exact List.Perm.refl _
    · exact (List.Perm.cons y ih).trans (List.Perm.swap x y ys)

theorem perm_stable_sort (l : List β) : (stable_sort key l).Perm l := by
  induction l with
  | nil => simp [stable_sort]
  | cons x xs ih =>
    simp only [stable_sort]
    exact (perm_insert_by_key key x _).trans (List.Perm.cons x ih)

theorem length_stable_sort (l : List β) : (stable_sort key l).length = l.length :=
  (perm_stable_sort key l).length_eq

theorem sorted_insert_by_key (x : β) (l : List β)
    (h : l.Pairwise fun a b => key a ≤ key b) :
    (insert_by_key key x l).Pairwise fun a b => key a ≤ key b := by
  induction l with
  | nil => simp [insert_by_key]
  | cons y ys ih =>
    rw [List.pairwise_cons] at h
    simp only [insert_by_key]
    split
    · rename_i hxy
      refine List.Pairwise.cons ?_ (List.Pairwise.cons h.1 h.2)
      intro b hb
      rcases List.mem_cons.1 hb with rfl | hb
      · exact hxy
      · exact Nat.le_trans hxy (h.1 b hb)
    · rename_i hxy
      refine List.Pairwise.cons ?_ (ih h.2)
      intro b hb
      rcases List.mem_cons.1 ((perm_insert_by_key key x ys).subset hb) with rfl | hb
      · omega
      · exact h.1 b hb

theorem sorted_stable_sort (l : List β) :
    (stable_sort key l).Pairwise fun a b => key a ≤ key b := by
  induction l with
  | nil => simp [stable_sort]
  | cons x xs ih => exact sorted_insert_by_key key x _ ih

/-- Stability: the elements carrying a given key come out in their input order. -/
theorem filter_insert_by_key (c : Nat) (x : β) (l : List β) :
    (insert_by_key key x l).filter (fun e => key e = c) =
      (x :: l).filter (fun e => key e = c) := by
  induction l with
  | nil => simp [insert_by_key]
  | cons y ys ih =>
    simp only [insert_by_key]
    split
    · rfl
    · rename_i hxy
      rw [List.filter_cons, ih]
      by_cases hx : key x = c
      · have hy : ¬ key y = c := by omega
        simp [List.filter_cons, hx, hy]
      · simp [List.filter_cons, hx]

theorem filter_stable_sort (c : Nat) (l : List β) :
    (stable_sort key l).filter (fun e => key e = c) = l.filter (fun e => key e = c) := by
  induction l with
  | nil => simp [stable_sort]
  | cons x xs ih =>
    simp only [stable_sort]
    rw [filter_insert_by_key, List.filter_cons, List.filter_cons, ih]

/-- The sort commutes with a map that preserves keys. -/
theorem insert_by_key_map (key' : γ → Nat) (f : β → γ) (hf : ∀ x, key' (f x) = key x)
    (x : β) (l : List β) :
    insert_by_key key' (f x) (l.map f) = (insert_by_key key x l).map f := by
  induction l with
  | nil => simp [insert_by_key]
  | cons y ys ih =>
    simp only [insert_by_key, List.map_cons, hf]
    split
    · simp
    · simp [ih]

theorem stable_sort_map (key' : γ → Nat) (f : β → γ) (hf : ∀ x, key' (f x) = key x)
    (l : List β) : stable_sort key' (l.map f) = (stable_sort key l).map f := by
  induction l with
  | nil => simp [stable_sort]
  | cons x xs ih =>
    simp only [stable_sort, List.map_cons]
    rw [ih, insert_by_key_map key key' f hf]

/-- A list already in key order is left as it is. -/
theorem stable_sort_of_sorted (l : List β) (h : l.Pairwise fun a b => key a ≤ key b) :
    stable_sort key l = l := by
  induction l with
  | nil => simp [stable_sort]
  | cons x xs ih =>
    rw [List.pairwise_cons] at h
    simp only [stable_sort]
    rw [ih h.2]
    cases xs with
    | nil => simp [insert_by_key]
    | cons y ys => simp [insert_by_key, h.1 y (List.mem_cons_self _ _)]

theorem insert_by_key_of_le (x : β) (l : List β) (h : ∀ b ∈ l, key x ≤ key b) :
    insert_by_key key x l = x :: l := by
  cases l with
  | nil => simp [insert_by_key]
  | cons y ys => simp [insert_by_key, h y (List.mem_cons_self _ _)]

/-- Filtering an insertion into a sorted list. -/
theorem filter_insert_by_key_of_pos (p : β → Bool) (x : β) (l : List β) (hx : p x = true)
    (hl : l.Pairwise fun a b => key a ≤ key b) :
    (insert_by_key key x l).filter p = insert_by_key key x (l.filter p) := by
  induction l with
  | nil => simp [insert_by_key, hx]
  | cons y ys ih =>
    rw [List.pairwise_cons] at hl
    simp only [insert_by_key]
    split
    · rename_i hxy
      by_cases hy : p y = true
      · simp [List.filter_cons, hx, hy, insert_by_key, hxy]
      · rw [List.filter_cons_of_pos hx, List.filter_cons_of_neg hy, insert_by_key_of_le]
        intro b hb
        exact Nat.le_trans hxy (hl.1 b (List.mem_of_mem_filter hb))
    · rename_i hxy
      by_cases hy : p y = true
      · rw [List.filter_cons_of_pos hy, List.filter_cons_of_pos hy, ih hl.2]
        simp [insert_by_key, hxy]
      · rw [List.filter_cons_of_neg hy, List.filter_cons_of_neg hy, ih hl.2]

theorem filter_insert_by_key_of_neg (p : β → Bool) (x : β) (l : List β) (hx : ¬ p x = true) :
    (insert_by_key key x l).filter p = l.filter p := by
  induction l with
  | nil => simp [insert_by_key, hx]
  | cons y ys ih =>
    simp only [insert_by_key]
    split
    · rw [List.filter_cons_of_neg hx]
    · rw [List.filter_cons, ih, List.filter_cons]

/-- The sort commutes with filtering. -/
theorem stable_sort_filter (p : β → Bool) (l : List β) :
    (stable_sort key l).filter p = stable_sort key (l.filter p) := by
  induction l with
  | nil => simp [stable_sort]
  | cons x xs ih =>
    simp only [stable_sort]
    by_cases hx : p x = true
    · rw [filter_insert_by_key_of_pos key p x _ hx (sorted_stable_sort key xs), ih,
        List.filter_cons_of_pos hx]
      rfl
    · rw [filter_insert_by_key_of_neg key p x _ hx, ih, List.filter_cons_of_neg hx]

/-! ### Lists in key order -/

/-- In a list in key order the elements with key below `c` form a prefix. -/
theorem take_drop_of_sorted (c : Nat) (s : List β)
    (h : s.Pairwise fun a b => key a ≤ key b) :
    s.take (s.countP fun e => key e < c) = s.filter (fun e => key e < c) ∧
    s.drop (s.countP fun e => key e < c) = s.filter (fun e => c ≤ key e) := by
  induction s with
  | nil => simp
  | cons x t ih =>
    rw [List.pairwise_cons] at h
    by_cases hx : key x < c
    · have hx' : ¬ c ≤ key x := by omega
      obtain ⟨h1, h2⟩ := ih h.2
      simp [List.countP_cons, List.filter_cons, hx, hx', h1, h2]
    · have hall : ∀ b ∈ t, ¬ key b < c := fun b hb => by have := h.1 b hb; omega
      have hc : (t.countP fun e => key e < c) = 0 := by
        rw [List.countP_eq_zero]; simpa using hall
      have hf1 : t.filter (fun e => key e < c) = [] := by
        rw [List.filter_eq_nil_iff]; simpa using hall
      have hf2 : t.filter (fun e => c ≤ key e) = t := by
        rw [List.filter_eq_self]; intro b hb; have := hall b hb; simp; omega
      have hx' : c ≤ key x := by omega
      simp [List.countP_cons, List.filter_cons, hx, hx', hc, hf1, hf2]

theorem countP_lt_mono (c d : Nat) (hcd : c ≤ d) (s : List β) :
    (s.countP fun e => key e < c) ≤ (s.countP fun e => key e < d) := by
  apply List.countP_mono_left
  intro e _ he
  simp only [decide_eq_true_eq] at he ⊢
  omega

theorem countP_lt_succ (c : Nat) (s : List β) :
    (s.countP fun e => key e < c + 1) =
      (s.countP fun e => key e < c) + (s.countP fun e => key e = c) := by
  induction s with
  | nil => simp
  | cons x t ih =>
    simp only [List.countP_cons, ih]
    by_cases h1 : key x < c
    · have h2 : key x < c + 1 := by omega
      have h3 : ¬ key x = c := by omega
      simp [h1, h2, h3]; omega
    · by_cases h3 : key x = c
      · have h2 : key x < c + 1 := by omega
        simp [h1, h2, h3]; omega
      · have h2 : ¬ key x < c + 1 := by omega
        simp [h1, h2, h3]

/-- In a list in key order, the positions between the number of keys below `c`
and the number of keys below `c + 1` hold exactly the elements with key `c`. -/
theorem slice_of_sorted (c : Nat) (s : List β)
    (h : s.Pairwise fun a b => key a ≤ key b) :
    (s.drop (s.countP fun e => key e < c)).take
        ((s.countP fun e => key e < c + 1) - (s.countP fun e => key e < c)) =
      s.filter (fun e => key e = c) := by
  rw [(take_drop_of_sorted key c s h).2]
  have hs' : (s.filter fun e => c ≤ key e).Pairwise fun a b => key a ≤ key b :=
    h.sublist (List.filter_sublist _)
  have hcnt : ((s.filter fun e => c ≤ key e).countP fun e => key e < c + 1) =
      (s.countP fun e => key e < c + 1) - (s.countP fun e => key e < c) := by
    have h1 : ((s.filter fun e => c ≤ key e).countP fun e => key e < c + 1) =
        s.countP fun e => key e = c := by
      rw [List.countP_filter]
      apply List.countP_congr
      intro e _
      simp only [Bool.and_eq_true, decide_eq_true_eq]
      omega
    have h2 := countP_lt_succ key c s
    omega
  rw [← hcnt, (take_drop_of_sorted key (c + 1) _ hs').1, List.filter_filter]
  apply List.filter_congr
  intro e _
  rw [Bool.eq_iff_iff]
  simp only [Bool.and_eq_true, decide_eq_true_eq]
  omega

/-- A list in key order with keys below `m` is the concatenation of its key
classes. -/
theorem filter_lt_eq_flatMap (m : Nat) (s : List β)
    (h : s.Pairwise fun a b => key a ≤ key b) :
    s.filter (fun e => key e < m) =
      (List.range m).flatMap fun i => s.filter (fun e => key e = i) := by
  induction m with
  | zero => simp
  | succ m ih =>
    rw [List.range_succ, List.flatMap_append, ← ih]
    simp only [List.flatMap_cons, List.flatMap_nil, List.append_nil]
    have h1 := take_drop_of_sorted key m _ (h.sublist (List.filter_sublist
      (p := fun e => decide (key e < m + 1)) (l := s)))
    have h2 := List.take_append_drop
      ((s.filter fun e => key e < m + 1).countP fun e => key e < m)
      (s.filter fun e => key e < m + 1)
    rw [h1.1, h1.2, List.filter_filter, List.filter_filter] at h2
    rw [← h2]
    congr 1
    · apply List.filter_congr
      intro e _
      rw [Bool.eq_iff_iff]
      simp only [Bool.and_eq_true, decide_eq_true_eq]
      omega
    · apply List.filter_congr
      intro e _
      rw [Bool.eq_iff_iff]
      simp only [Bool.and_eq_true, decide_eq_true_eq]
      omega

theorem eq_flatMap_of_sorted (m : Nat) (s : List β)
    (h : s.Pairwise fun a b => key a ≤ key b) (hm : ∀ e ∈ s, key e < m) :
    s = (List.range m).flatMap fun i => s.filter (fun e => key e = i) := by
  rw [← filter_lt_eq_flatMap key m s h, List.filter_eq_self.2]
  intro e he
  simpa using hm e he

end stable_sort

end cusp

open cusp cusp.detail

namespace cusp

/-! ## Sorting by key with a payload, and gathering through the sorted permutation -/

section sort_by_key

variable {β γ : Type}

theorem stable_sort_by_key_fst (keys : List Nat) (values : List β)
    (h : keys.length = values.length) :
    (stable_sort_by_key keys values).1 = (stable_sort Prod.fst (keys.zip values)).map Prod.fst := by
  simp [stable_sort_by_key, h]

theorem stable_sort_by_key_snd (keys : List Nat) (values : List β)
    (h : keys.length = values.length) :
    (stable_sort_by_key keys values).2 = (stable_sort Prod.fst (keys.zip values)).map Prod.snd := by
  simp [stable_sort_by_key, h]

/-- The sorted keys do not depend on the payload. -/
theorem stable_sort_by_key_fst_eq (keys : List Nat) (values : List β)
    (h : keys.length = values.length) :
    (stable_sort_by_key keys values).1 = stable_sort id keys := by
  rw [stable_sort_by_key_fst keys values h,
    ← stable_sort_map Prod.fst id Prod.fst (fun _ => rfl), List.map_fst_zip _ _ (by omega)]

/-- Sorting a mapped payload is mapping the sorted payload. -/
theorem stable_sort_by_key_snd_map (keys : List Nat) (values : List β) (g : β → γ)
    (h : keys.length = values.length) :
    (stable_sort_by_key keys (values.map g)).2 = (stable_sort_by_key keys values).2.map g := by
  rw [stable_sort_by_key_snd keys values h, stable_sort_by_key_snd keys _ (by simpa using h)]
  have hz : keys.zip (values.map g) = (keys.zip values).map (Prod.map id g) := by
    rw [List.zip_map_right]
  rw [hz, stable_sort_map Prod.fst Prod.fst (Prod.map id g) (fun _ => rfl)]
  simp [List.map_map, Function.comp_def]

theorem length_stable_sort_by_key_snd (keys : List Nat) (values : List β)
    (h : keys.length = values.length) :
    (stable_sort_by_key keys values).2.length = values.length := by
  rw [stable_sort_by_key_snd keys values h]
  simp [length_stable_sort, h]

theorem length_stable_sort_by_key_fst (keys : List Nat) (values : List β)
    (h : keys.length = values.length) :
    (stable_sort_by_key keys values).1.length = keys.length := by
  rw [stable_sort_by_key_fst keys values h]
  simp [length_stable_sort, h]

/-- The payload of a sort is a permutation of the payload put in. -/
theorem perm_stable_sort_by_key_snd (keys : List Nat) (values : List β)
    (h : keys.length = values.length) :
    (stable_sort_by_key keys values).2.Perm values := by
  rw [stable_sort_by_key_snd keys values h]
  have := (perm_stable_sort Prod.fst (keys.zip values)).map Prod.snd
  rwa [List.map_snd_zip _ _ (by omega)] at this

theorem map_some_eq_map_range (X : List β) :
    X.map some = (List.range X.length).map fun i => X[i]? := by
  apply List.ext_getElem?
  intro k
  by_cases hk : k < X.length
  · simp [List.getElem?_map, List.getElem?_range hk, List.getElem?_eq_getElem hk]
  · have h1 : X[k]? = none := List.getElem?_eq_none (by omega)
    have h2 : (List.range X.length)[k]? = none := List.getElem?_eq_none (by simp; omega)
    simp [List.getElem?_map, h1, h2]

/-- Gathering a buffer through the permutation obtained by sorting the identity
sequence is sorting the buffer along with the keys. -/
theorem gather_sorted_sequence (keys : List Nat) (X buf : List β) (n : Nat)
    (hk : keys.length = n) (hX : X.length = n) (hbuf : buf.length = n) :
    gather (stable_sort_by_key keys (sequence n)).2 X buf = (stable_sort_by_key keys X).2 := by
  have hr : keys.length = (sequence n).length := by simp [sequence, hk]
  apply List.map_injective_iff.mpr (Option.some_injective β)
  rw [map_some_gather, ← stable_sort_by_key_snd_map keys X some (by omega),
    map_some_eq_map_range, hX, stable_sort_by_key_snd_map keys (List.range n) _ (by simpa using hk)]
  · rfl
  · rw [length_stable_sort_by_key_snd _ _ hr, hbuf]; simp [sequence]
  · intro i hi
    have := (perm_stable_sort_by_key_snd keys (sequence n) hr).subset hi
    rw [hX]
    simpa [sequence] using this

/-- Three buffers sorted along one key array are the three components of the
sorted list of triples. -/
theorem stable_sort_by_key_zip (keys : List Nat) (X : List β) (Y : List γ)
    (hX : keys.length = X.length) (hY : keys.length = Y.length) :
    (stable_sort_by_key keys X).2 =
      (stable_sort Prod.fst (keys.zip (X.zip Y))).map (fun e => e.2.1) ∧
    (stable_sort_by_key keys Y).2 =
      (stable_sort Prod.fst (keys.zip (X.zip Y))).map (fun e => e.2.2) ∧
    (stable_sort_by_key keys X).1 =
      (stable_sort Prod.fst (keys.zip (X.zip Y))).map Prod.fst := by
  have hl : keys.length = (X.zip Y).length := by simp; omega
  refine ⟨?_, ?_, ?_⟩
  · have := stable_sort_by_key_snd_map keys (X.zip Y) Prod.fst hl
    rw [List.map_fst_zip _ _ (by omega), stable_sort_by_key_snd keys _ hl] at this
    rw [this]; simp [List.map_map, Function.comp_def]
  · have := stable_sort_by_key_snd_map keys (X.zip Y) Prod.snd hl
    rw [List.map_snd_zip _ _ (by omega), stable_sort_by_key_snd keys _ hl] at this
    rw [this]; simp [List.map_map, Function.comp_def]
  · rw [stable_sort_by_key_fst_eq keys X hX, ← stable_sort_by_key_fst_eq keys (X.zip Y) hl,
      stable_sort_by_key_fst keys _ hl]

/-- Every pair of the sorted (key, index) list still pairs an index with its key. -/
theorem getElem?_sorted_sequence (keys : List Nat) (n k : Nat) (hk : keys.length = n)
    (hkn : k < n) :
    ∃ pk, (stable_sort_by_key keys (sequence n)).2[k]? = some pk ∧ pk < n ∧
      (stable_sort_by_key keys (sequence n)).1[k]? = keys[pk]? := by
  have hr : keys.length = (sequence n).length := by simp [sequence, hk]
  have hlen : (stable_sort Prod.fst (keys.zip (sequence n))).length = n := by
    simp [length_stable_sort, sequence, hk]
  have hmem : ∀ x ∈ stable_sort Prod.fst (keys.zip (sequence n)),
      x.2 < n ∧ keys[x.2]? = some x.1 := by
    intro x hx
    have hx' := (perm_stable_sort Prod.fst _).subset hx
    obtain ⟨i, hi, rfl⟩ := List.mem_iff_getElem.1 hx'
    simp only [List.length_zip, sequence, List.length_range] at hi
    simp only [List.getElem_zip, sequence, List.getElem_range]
    exact ⟨by omega, List.getElem?_eq_getElem _⟩
  have hk' : k < (stable_sort Prod.fst (keys.zip (sequence n))).length := by omega
  obtain ⟨h1, h2⟩ := hmem _ (List.getElem_mem hk')
  refine ⟨((stable_sort Prod.fst (keys.zip (sequence n)))[k]).2, ?_, h1, ?_⟩
  · rw [stable_sort_by_key_snd keys _ hr, List.getElem?_map, List.getElem?_eq_getElem hk']
    rfl
  · rw [stable_sort_by_key_fst keys _ hr, List.getElem?_map, List.getElem?_eq_getElem hk', h2]
    rfl

end sort_by_key

end cusp

open cusp cusp.detail

namespace cusp

/-! ## Offset arrays -/

section offsets

theorem sum_map_count_range (l : List Nat) (c : Nat) :
    ((List.range c).map fun key => l.count key).sum = l.countP fun x => x < c := by
  induction c with
  | zero => simp
  | succ c ih =>
    have h := countP_lt_succ id c l
    simp only [id] at h
    rw [List.range_succ, List.map_append, List.sum_append, ih, h]
    simp only [List.map_cons, List.map_nil, List.sum_cons, List.sum_nil, Nat.add_zero,
      List.count_eq_countP]
    congr 1

theorem getElem?_scanl_add (f : Nat → Nat) (m c : Nat) (hc : c ≤ m) :
    (List.scanl (· + ·) 0 ((List.range m).map f))[c]? = some ((List.range c).map f).sum := by
  induction c with
  | zero => simp [List.getElem?_scanl_zero]
  | succ c ih =>
    have h1 : c + 1 < (List.scanl (· + ·) 0 ((List.range m).map f)).length := by
      simp [List.length_scanl]; omega
    have h0 : c < (List.scanl (· + ·) 0 ((List.range m).map f)).length := by omega
    rw [List.getElem?_eq_getElem h1, List.getElem_succ_scanl]
    have ih' := ih (by omega)
    rw [List.getElem?_eq_getElem h0] at ih'
    rw [Option.some.inj ih', List.range_succ, List.map_append, List.sum_append]
    simp

theorem length_indices_to_offsets (indices offsets : List Nat) :
    (indices_to_offsets indices offsets).length = offsets.length := by
  simp [indices_to_offsets, List.length_scanl]
  omega

/-- Entry `c` of the offset array is the number of indices below `c`. -/
theorem getElem?_indices_to_offsets (indices offsets : List Nat) (c : Nat)
    (hc : c < offsets.length) :
    (indices_to_offsets indices offsets)[c]? = some (indices.countP fun x => x < c) := by
  simp only [indices_to_offsets]
  rw [List.getElem?_take_of_lt hc, getElem?_scanl_add _ _ _ (by omega), sum_map_count_range]

theorem getD_indices_to_offsets (indices offsets : List Nat) (c : Nat)
    (hc : c < offsets.length) :
    (indices_to_offsets indices offsets).getD c 0 = indices.countP fun x => x < c := by
  rw [List.getD_eq_getElem?_getD, getElem?_indices_to_offsets _ _ _ hc]
  rfl

theorem expand_offsets_succ (offs : List Nat) (m : Nat) :
    expand_offsets offs (m + 1) =
      expand_offsets offs m ++ List.replicate (offs.getD (m + 1) 0 - offs.getD m 0) m := by
  simp [expand_offsets, List.range_succ, List.flatMap_append]

theorem mem_expand_offsets (offs : List Nat) (m x : Nat) (hx : x ∈ expand_offsets offs m) :
    x < m := by
  simp only [expand_offsets, List.mem_flatMap, List.mem_range, List.mem_replicate] at hx
  obtain ⟨i, hi, -, rfl⟩ := hx
  exact hi

theorem sorted_expand_offsets (offs : List Nat) (m : Nat) :
    (expand_offsets offs m).Pairwise (· ≤ ·) := by
  induction m with
  | zero => simp [expand_offsets]
  | succ m ih =>
    rw [expand_offsets_succ, List.pairwise_append]
    refine ⟨ih, ?_, ?_⟩
    · rw [List.pairwise_replicate]
      exact Or.inr (Nat.le_refl _)
    · intro a ha b hb
      rw [List.mem_replicate] at hb
      have := mem_expand_offsets _ _ _ ha
      omega

/-- Over non-decreasing offsets, the number of expanded row indices below `i` is
the offset of row `i` (relative to the first offset). -/
theorem countP_expand_offsets (offs : List Nat) (m : Nat)
    (hmono : ∀ i, i < m → offs.getD i 0 ≤ offs.getD (i + 1) 0) (i : Nat) :
    ((expand_offsets offs m).countP fun x => x < i) =
      offs.getD (min i m) 0 - offs.getD 0 0 := by
  induction m with
  | zero => simp [expand_offsets]
  | succ m ih =>
    have ih' := ih (fun k hk => hmono k (by omega))
    have hchain : ∀ k, k ≤ m + 1 → offs.getD 0 0 ≤ offs.getD k 0 := by
      intro k hk
      induction k with
      | zero => exact Nat.le_refl _
      | succ k ihk => exact Nat.le_trans (ihk (by omega)) (hmono k (by omega))
    rw [expand_offsets_succ, List.countP_append, ih']
    by_cases him : i ≤ m
    · have h0 : ((List.replicate (offs.getD (m + 1) 0 - offs.getD m 0) m).countP
          fun x => x < i) = 0 := by
        rw [List.countP_eq_zero]
        intro a ha
        rw [List.mem_replicate] at ha
        simp; omega
      rw [h0, Nat.min_eq_left him, Nat.min_eq_left (by omega)]
      rfl
    · have h1 : ((List.replicate (offs.getD (m + 1) 0 - offs.getD m 0) m).countP
          fun x => x < i) = offs.getD (m + 1) 0 - offs.getD m 0 := by
        rw [List.countP_eq_length.2, List.length_replicate]
        intro a ha
        rw [List.mem_replicate] at ha
        simp; omega
      rw [h1, Nat.min_eq_right (by omega), Nat.min_eq_right (by omega)]
      have := hmono m (by omega)
      have := hchain m (by omega)
      omega

theorem length_expand_offsets (offs : List Nat) (m : Nat)
    (hmono : ∀ i, i < m → offs.getD i 0 ≤ offs.getD (i + 1) 0) :
    (expand_offsets offs m).length = offs.getD m 0 - offs.getD 0 0 := by
  have h := countP_expand_offsets offs m hmono m
  rw [Nat.min_self, List.countP_eq_length.2] at h
  · exact h
  · intro a ha
    have := mem_expand_offsets _ _ _ ha
    simpa using this

theorem getD_mono_of_sorted (offs : List Nat) (h : offs.Sorted (· ≤ ·)) (i : Nat)
    (hi : i + 1 < offs.length) : offs.getD i 0 ≤ offs.getD (i + 1) 0 := by
  rw [List.getD_eq_getElem _ _ (by omega), List.getD_eq_getElem _ _ hi]
  exact (List.pairwise_iff_getElem.1 h) i (i + 1) (by omega) hi (by omega)

/-- Expanding the offsets built from a sorted index array gives the array back. -/
theorem expand_indices_to_offsets (s buf : List Nat) (m : Nat) (hbuf : buf.length = m + 1)
    (hs : s.Pairwise (· ≤ ·)) (hm : ∀ x ∈ s, x < m) :
    expand_offsets (indices_to_offsets s buf) m = s := by
  have h := eq_flatMap_of_sorted id m s hs hm
  simp only [id] at h
  conv => rhs; rw [h]
  simp only [expand_offsets]
  apply List.flatMap_congr
  intro i hi
  rw [List.mem_range] at hi
  have h2 := countP_lt_succ id i s
  simp only [id] at h2
  rw [getD_indices_to_offsets _ _ _ (by omega), getD_indices_to_offsets _ _ _ (by omega), h2]
  simp only [Nat.add_sub_cancel_left]
  rw [List.countP_eq_length_filter]
  symm
  rw [List.eq_replicate_iff]
  refine ⟨rfl, ?_⟩
  intro b hb
  simpa using (List.mem_filter.1 hb).2

end offsets

end cusp

open cusp cusp.detail

namespace cusp

/-! ## Lists of triples -/

theorem map_swap_zip {β γ δ : Type} (a : List β) (b : List γ) (c : List δ) :
    (a.zip (b.zip c)).map (fun e => (e.2.1, e.1, e.2.2)) = b.zip (a.zip c) := by
  induction a generalizing b c with
  | nil => cases b <;> simp
  | cons x xs ih =>
    cases b with
    | nil => simp
    | cons y ys =>
      cases c with
      | nil => simp
      | cons z zs => simp [ih]

theorem zip_map_components {β γ δ ε : Type} (S : List ε) (f : ε → β) (g : ε → γ) (h : ε → δ) :
    (S.map f).zip ((S.map g).zip (S.map h)) = S.map fun e => (f e, g e, h e) := by
  induction S with
  | nil => simp
  | cons x xs ih => simp [ih]

theorem map_swap_swap {β γ δ : Type} (L : List (β × γ × δ)) :
    (L.map fun e => (e.2.1, e.1, e.2.2)).map (fun e => (e.2.1, e.1, e.2.2)) = L := by
  simp [List.map_map, Function.comp_def]

/-- Selecting a row and then a column of a list of (row, column, value) triples. -/
theorem filter_row_col {δ : Type} (L : List (Nat × Nat × δ)) (i j : Nat) :
    (((L.filter fun e => e.1 = i).map Prod.snd).filter fun e => e.1 = j).map Prod.snd =
      (L.filter fun e => e.1 = i ∧ e.2.1 = j).map fun e => e.2.2 := by
  induction L with
  | nil => simp
  | cons x xs ih =>
    by_cases h1 : x.1 = i <;> by_cases h2 : x.2.1 = j <;>
      simp [List.filter_cons, h1, h2, ih]

/-- Selecting a column and then a row of the swapped triples. -/
theorem filter_col_row_swap {δ : Type} (L : List (Nat × Nat × δ)) (i j : Nat) :
    ((((L.map fun e => (e.2.1, e.1, e.2.2)).filter fun e => e.1 = j).map Prod.snd).filter
        fun e => e.1 = i).map Prod.snd =
      (L.filter fun e => e.1 = i ∧ e.2.1 = j).map fun e => e.2.2 := by
  induction L with
  | nil => simp
  | cons x xs ih =>
    by_cases h1 : x.1 = i <;> by_cases h2 : x.2.1 = j <;>
      simp [List.filter_cons, h1, h2, ih]

/-! ## CSR matrices -/

theorem csr_matrix_ext {α : Type} (X Y : csr_matrix α) (h1 : X.num_rows = Y.num_rows)
    (h2 : X.num_cols = Y.num_cols) (h3 : X.num_entries = Y.num_entries)
    (h4 : X.row_offsets = Y.row_offsets) (h5 : X.column_indices = Y.column_indices)
    (h6 : X.values = Y.values) : X = Y := by
  cases X; cases Y; simp_all

section csr

variable {α : Type}

theorem valid_mono (A : csr_matrix α) (hA : A.valid) (i : Nat) (hi : i < A.num_rows) :
    A.row_offsets.getD i 0 ≤ A.row_offsets.getD (i + 1) 0 :=
  getD_mono_of_sorted _ hA.offsets_sorted i (by rw [hA.offsets_length]; omega)

theorem length_expand_valid (A : csr_matrix α) (hA : A.valid) :
    (expand_offsets A.row_offsets A.num_rows).length = A.num_entries := by
  rw [length_expand_offsets _ _ (valid_mono A hA), hA.offsets_first, hA.offsets_last]
  rfl

theorem offsets_to_indices_valid (A : csr_matrix α) (hA : A.valid) (buf : List Nat)
    (hbuf : buf.length = A.num_entries) :
    offsets_to_indices A.row_offsets buf = expand_offsets A.row_offsets A.num_rows := by
  have h := length_expand_valid A hA
  simp only [offsets_to_indices, hA.offsets_length, Nat.add_sub_cancel]
  rw [h, hbuf, ← h, List.take_length, List.drop_eq_nil_of_le (by omega), List.append_nil]

theorem map_fst_entries (A : csr_matrix α) (hA : A.valid) :
    A.entries.map Prod.fst = expand_offsets A.row_offsets A.num_rows := by
  rw [csr_matrix.entries, List.map_fst_zip]
  simp [length_expand_valid A hA, hA.columns_length, hA.values_length]

theorem map_snd_entries (A : csr_matrix α) (hA : A.valid) :
    A.entries.map Prod.snd = A.column_indices.zip A.values := by
  rw [csr_matrix.entries, List.map_snd_zip]
  simp [length_expand_valid A hA, hA.columns_length, hA.values_length]

theorem sorted_entries (A : csr_matrix α) (hA : A.valid) :
    A.entries.Pairwise fun a b => a.1 ≤ b.1 := by
  have h := sorted_expand_offsets A.row_offsets A.num_rows
  rw [← map_fst_entries A hA, List.pairwise_map] at h
  exact h

theorem fst_lt_of_mem_entries (A : csr_matrix α) (hA : A.valid) (e : Nat × Nat × α)
    (he : e ∈ A.entries) : e.1 < A.num_rows := by
  apply mem_expand_offsets A.row_offsets
  rw [← map_fst_entries A hA]
  exact List.mem_map_of_mem _ he

theorem countP_entries (A : csr_matrix α) (hA : A.valid) (i : Nat) (hi : i ≤ A.num_rows) :
    (A.entries.countP fun e => e.1 < i) = A.row_offsets.getD i 0 := by
  have h := countP_expand_offsets A.row_offsets A.num_rows (valid_mono A hA) i
  rw [← map_fst_entries A hA, List.countP_map, Nat.min_eq_left hi, hA.offsets_first] at h
  exact h

/-- Row `i` of a valid CSR matrix consists of the entries whose row index is `i`. -/
theorem row_eq_filter_entries (A : csr_matrix α) (hA : A.valid) (i : Nat)
    (hi : i < A.num_rows) :
    A.row i = (A.entries.filter fun e => e.1 = i).map Prod.snd := by
  rw [csr_matrix.row, ← map_snd_entries A hA, ← countP_entries A hA i (by omega),
    ← countP_entries A hA (i + 1) (by omega), ← List.map_drop, ← List.map_take,
    slice_of_sorted Prod.fst i _ (sorted_entries A hA)]

end csr

end cusp

open cusp cusp.detail

namespace cusp

/-! ## CSR transposition -/

section transpose_csr

variable {α : Type}

theorem countP_lt_num_cols (A : csr_matrix α) (hA : A.valid) :
    (A.column_indices.countP fun x => x < A.num_cols) = A.num_entries := by
  rw [List.countP_eq_length.2, hA.columns_length]
  intro x hx
  simpa using hA.columns_bound x hx

theorem stable_sort_map_swap (L : List (Nat × Nat × α)) :
    stable_sort Prod.fst (L.map fun e => (e.2.1, e.1, e.2.2)) =
      (stable_sort (fun e => e.2.1) L).map fun e => (e.2.1, e.1, e.2.2) :=
  stable_sort_map (fun e : Nat × Nat × α => e.2.1) Prod.fst
    (fun e => (e.2.1, e.1, e.2.2)) (fun _ => rfl) L

variable [Inhabited α]

theorem transpose_csr_row_offsets_eq (A At : csr_matrix α)
    (hA : A.valid) :
    (transpose_csr A At).row_offsets =
      indices_to_offsets (stable_sort id A.column_indices)
        (List.replicate (A.num_cols + 1) 0) := by
  simp only [transpose_csr, csr_matrix.construct]
  rw [stable_sort_by_key_fst_eq _ _ (by simp [sequence, hA.columns_length])]
  rfl

theorem transpose_csr_column_indices_eq (A At : csr_matrix α) (hA : A.valid) :
    (transpose_csr A At).column_indices =
      (stable_sort_by_key A.column_indices (expand_offsets A.row_offsets A.num_rows)).2 := by
  simp only [transpose_csr, csr_matrix.construct]
  rw [offsets_to_indices_valid A hA _ (by
    rw [length_stable_sort_by_key_fst _ _ (by simp [sequence, hA.columns_length]),
      hA.columns_length])]
  exact gather_sorted_sequence _ _ _ _ hA.columns_length (length_expand_valid A hA) (by simp)

theorem transpose_csr_values_eq (A At : csr_matrix α) (hA : A.valid) :
    (transpose_csr A At).values = (stable_sort_by_key A.column_indices A.values).2 := by
  simp only [transpose_csr, csr_matrix.construct]
  exact gather_sorted_sequence _ _ _ _ hA.columns_length hA.values_length (by simp)

theorem sorted_stable_sort_id (l : List Nat) : (stable_sort id l).Pairwise (· ≤ ·) :=
  sorted_stable_sort id l

theorem countP_stable_sort_id (l : List Nat) (c : Nat) :
    ((stable_sort id l).countP fun x => x < c) = l.countP fun x => x < c :=
  (perm_stable_sort id l).countP_eq _

/-- Entry `c` of the offsets of the transpose counts the column indices below `c`. -/
theorem getElem?_row_offsets_transpose_csr (A At : csr_matrix α) (hA : A.valid) (c : Nat)
    (hc : c ≤ A.num_cols) :
    (transpose_csr A At).row_offsets[c]? = some (A.column_indices.countP fun x => x < c) := by
  rw [transpose_csr_row_offsets_eq A At hA, getElem?_indices_to_offsets _ _ _ (by simp; omega),
    countP_stable_sort_id]

/-- The transpose of a valid CSR matrix is a valid CSR matrix. -/
theorem valid_transpose_csr (A At : csr_matrix α) (hA : A.valid) :
    (transpose_csr A At).valid := by
  have hlen : (transpose_csr A At).row_offsets.length = A.num_cols + 1 := by
    rw [transpose_csr_row_offsets_eq A At hA, length_indices_to_offsets]; simp
  have hget : ∀ c, c ≤ A.num_cols → (transpose_csr A At).row_offsets.getD c 0 =
      A.column_indices.countP fun x => x < c := by
    intro c hc
    rw [List.getD_eq_getElem?_getD, getElem?_row_offsets_transpose_csr A At hA c hc]
    rfl
  refine ⟨hlen, ?_, ?_, ?_, ?_, ?_, ?_⟩
  · rw [List.Sorted, List.pairwise_iff_getElem]
    intro i j hi hj hij
    have h1 := hget i (by omega)
    have h2 := hget j (by omega)
    rw [List.getD_eq_getElem _ _ hi] at h1
    rw [List.getD_eq_getElem _ _ hj] at h2
    rw [h1, h2]
    exact countP_lt_mono id i j (by omega) A.column_indices
  · rw [hget 0 (by omega)]; simp
  · exact (hget A.num_cols (Nat.le_refl _)).trans (countP_lt_num_cols A hA)
  · rw [transpose_csr_column_indices_eq A At hA, length_stable_sort_by_key_snd _ _ (by
      rw [hA.columns_length, length_expand_valid A hA]), length_expand_valid A hA]
    rfl
  · rw [transpose_csr_values_eq A At hA, length_stable_sort_by_key_snd _ _ (by
      rw [hA.columns_length, hA.values_length]), hA.values_length]
    rfl
  · intro c hc
    rw [transpose_csr_column_indices_eq A At hA] at hc
    have := (perm_stable_sort_by_key_snd _ _ (by
      rw [hA.columns_length, length_expand_valid A hA])).subset hc
    exact mem_expand_offsets _ _ _ this

/-- The entries of the transpose are the swapped entries of the source, stably
sorted by their new row. -/
theorem entries_transpose_csr (A At : csr_matrix α) (hA : A.valid) :
    (transpose_csr A At).entries =
      stable_sort Prod.fst (A.entries.map fun e => (e.2.1, e.1, e.2.2)) := by
  have hR := length_expand_valid A hA
  obtain ⟨h1, h2, h3⟩ := stable_sort_by_key_zip A.column_indices
    (expand_offsets A.row_offsets A.num_rows) A.values
    (by rw [hA.columns_length, hR]) (by rw [hA.columns_length, hA.values_length])
  have hkeys : stable_sort id A.column_indices =
      (stable_sort Prod.fst (A.column_indices.zip
        ((expand_offsets A.row_offsets A.num_rows).zip A.values))).map Prod.fst := by
    rw [← h3, stable_sort_by_key_fst_eq _ _ (by rw [hA.columns_length, hR])]
  have hexp : expand_offsets (transpose_csr A At).row_offsets (transpose_csr A At).num_rows =
      stable_sort id A.column_indices := by
    have hn : (transpose_csr A At).num_rows = A.num_cols := rfl
    rw [transpose_csr_row_offsets_eq A At hA, hn]
    apply expand_indices_to_offsets _ _ _ (by simp) (sorted_stable_sort_id _)
    intro x hx
    exact hA.columns_bound x ((perm_stable_sort id _).subset hx)
  rw [csr_matrix.entries, hexp, transpose_csr_column_indices_eq A At hA,
    transpose_csr_values_eq A At hA, h1, h2, hkeys, zip_map_components, csr_matrix.entries,
    map_swap_zip]
  simp

/-- The entries of the double transpose are the entries of the source, stably
sorted by column and then by row. -/
theorem entries_transpose_transpose_csr (A B C : csr_matrix α) (hA : A.valid) :
    (transpose_csr (transpose_csr A B) C).entries =
      stable_sort Prod.fst (stable_sort (fun e => e.2.1) A.entries) := by
  rw [entries_transpose_csr _ C (valid_transpose_csr A B hA), entries_transpose_csr A B hA,
    stable_sort_map_swap A.entries, map_swap_swap]

theorem row_offsets_transpose_transpose_csr (A B C : csr_matrix α) (hA : A.valid) :
    (transpose_csr (transpose_csr A B) C).row_offsets = A.row_offsets := by
  have hT := valid_transpose_csr A B hA
  have hTT := valid_transpose_csr (transpose_csr A B) C hT
  have hR := length_expand_valid A hA
  apply List.ext_getElem?
  intro c
  by_cases hc : c ≤ A.num_rows
  · rw [getElem?_row_offsets_transpose_csr _ C hT c hc, transpose_csr_column_indices_eq A B hA,
      (perm_stable_sort_by_key_snd _ _ (by rw [hA.columns_length, hR])).countP_eq,
      countP_expand_offsets _ _ (valid_mono A hA), Nat.min_eq_left hc, hA.offsets_first,
      List.getElem?_eq_getElem (by rw [hA.offsets_length]; omega),
      List.getD_eq_getElem _ _ (by rw [hA.offsets_length]; omega)]
    rfl
  · rw [List.getElem?_eq_none, List.getElem?_eq_none]
    · rw [hA.offsets_length]; omega
    · rw [hTT.offsets_length]
      show A.num_rows + 1 ≤ c
      omega

end transpose_csr

end cusp

open cusp cusp.detail cusp.detail.host

namespace cusp

/-! ## The fill guards of `convert.h` -/

section guards

/-- The guard computed by the source is the condition the spec states. -/
theorem guard_iff_spec (count num_rows num_entries : Nat) (max_fill : ℚ) :
    (max_fill < ((count : ℚ) * (num_rows : ℚ)) / max 1 (num_entries : ℚ) ∧
      ((count : ℚ) * (num_rows : ℚ)) > 1000000) ↔
    spec_fill_guard count num_rows num_entries max_fill := by
  unfold spec_fill_guard
  have h1 : ((count * num_rows : Nat) : ℚ) = (count : ℚ) * (num_rows : ℚ) := by push_cast; rfl
  have h2 : ((max 1 num_entries : Nat) : ℚ) = max 1 (num_entries : ℚ) := by push_cast; rfl
  have h3 : ((count : ℚ) * (num_rows : ℚ) > 1000000) ↔ 1000000 < count * num_rows := by
    rw [gt_iff_lt, ← h1]
    exact_mod_cast Iff.rfl
  rw [h1, h2, h3]

theorem expand_offsets_range (n m : Nat) (hm : m ≤ n) :
    expand_offsets (List.range (n + 1)) m = List.range m := by
  induction m with
  | zero => simp [expand_offsets]
  | succ m ih =>
    have h1 : (List.range (n + 1)).getD (m + 1) 0 = m + 1 := by
      rw [List.getD_eq_getElem _ _ (by simp; omega)]; simp
    have h2 : (List.range (n + 1)).getD m 0 = m := by
      rw [List.getD_eq_getElem _ _ (by simp; omega)]; simp
    rw [expand_offsets_succ, ih (by omega), h1, h2, List.range_succ m]
    simp

theorem entries_anti_diagonal (n : Nat) :
    (anti_diagonal n).entries = (List.range n).map fun i => (i, n - 1 - i, 1) := by
  have h1 : List.replicate n 1 = (List.range n).map fun _ => 1 := by
    apply List.ext_getElem <;> simp
  have h2 : List.range n = (List.range n).map fun i => i := by simp
  simp only [csr_matrix.entries, anti_diagonal]
  rw [expand_offsets_range n n (Nat.le_refl _), h1]
  conv => lhs; arg 1; rw [h2]
  rw [zip_map_components]

/-- The anti-diagonal matrix of order `n` occupies `n` diagonals. -/
theorem count_diagonals_anti_diagonal (n : Nat) : count_diagonals (anti_diagonal n) = n := by
  simp only [count_diagonals, entries_anti_diagonal, List.map_map]
  rw [List.Nodup.dedup]
  · simp
  · apply List.Nodup.map_on _ (List.nodup_range n)
    intro x hx y hy hxy
    simp only [List.mem_range] at hx hy
    simp only [Function.comp] at hxy
    omega

theorem foldl_max_le (L : List Nat) (b n : Nat) (hb : b ≤ n) (hL : ∀ x ∈ L, x ≤ n) :
    L.foldl max b ≤ n := by
  induction L generalizing b with
  | nil => simpa
  | cons x xs ih =>
    simp only [List.foldl_cons]
    exact ih _ (Nat.max_le.2 ⟨hb, hL x (List.mem_cons_self _ _)⟩)
      (fun y hy => hL y (List.mem_cons_of_mem _ hy))

theorem le_foldl_max (L : List Nat) (b : Nat) :
    b ≤ L.foldl max b ∧ ∀ x ∈ L, x ≤ L.foldl max b := by
  induction L generalizing b with
  | nil => simp
  | cons x xs ih =>
    simp only [List.foldl_cons]
    obtain ⟨h1, h2⟩ := ih (max b x)
    refine ⟨Nat.le_trans (Nat.le_max_left _ _) h1, ?_⟩
    intro y hy
    rcases List.mem_cons.1 hy with rfl | hy
    · exact Nat.le_trans (Nat.le_max_right _ _) h1
    · exact h2 y hy

/-- The longest row of the matrix with a full first row has `n` entries. -/
theorem compute_max_entries_per_row_full_first_row (n : Nat) :
    compute_max_entries_per_row (full_first_row n) = n := by
  simp only [compute_max_entries_per_row, full_first_row]
  apply Nat.le_antisymm
  · apply foldl_max_le _ _ _ (Nat.zero_le _)
    intro x hx
    simp only [List.mem_map, List.mem_range] at hx
    obtain ⟨i, hi, rfl⟩ := hx
    have : (0 :: List.replicate n n).getD (i + 1) 0 = n := by
      rw [List.getD_eq_getElem _ _ (by simp; omega)]; simp
    omega
  · rcases Nat.eq_zero_or_pos n with rfl | hn
    · simp
    · apply (le_foldl_max _ 0).2
      simp only [List.mem_map, List.mem_range]
      refine ⟨0, hn, ?_⟩
      rw [List.getD_eq_getElem _ _ (by simp; omega)]; simp

end guards

end cusp

open cusp cusp.detail

namespace cusp

/-! ## COO transposition -/

section coo

variable {α : Type} [Inhabited α]

theorem transpose_coo_row_indices (A At : coo_matrix α) :
    (transpose_coo A At).row_indices =
      (stable_sort_by_key A.column_indices (sequence A.num_entries)).1 := rfl

theorem transpose_coo_column_indices (A At : coo_matrix α)
    (hr : A.row_indices.length = A.num_entries)
    (hc : A.column_indices.length = A.num_entries) :
    (transpose_coo A At).column_indices =
      (stable_sort_by_key A.column_indices A.row_indices).2 := by
  simp only [transpose_coo, coo_matrix.construct]
  exact gather_sorted_sequence _ _ _ _ hc hr (by simp)

theorem transpose_coo_values (A At : coo_matrix α)
    (hc : A.column_indices.length = A.num_entries)
    (hv : A.values.length = A.num_entries) :
    (transpose_coo A At).values = (stable_sort_by_key A.column_indices A.values).2 := by
  simp only [transpose_coo, coo_matrix.construct]
  exact gather_sorted_sequence _ _ _ _ hc hv (by simp)

/-- The entries of the transpose are the (column, row, value) triples of the
source, stably sorted by column. -/
theorem entries_transpose_coo (A At : coo_matrix α)
    (hr : A.row_indices.length = A.num_entries)
    (hc : A.column_indices.length = A.num_entries)
    (hv : A.values.length = A.num_entries) :
    (transpose_coo A At).entries =
      stable_sort Prod.fst (A.column_indices.zip (A.row_indices.zip A.values)) := by
  obtain ⟨h1, h2, h3⟩ := stable_sort_by_key_zip A.column_indices A.row_indices A.values
    (by omega) (by omega)
  rw [coo_matrix.entries, transpose_coo_row_indices, transpose_coo_column_indices A At hr hc,
    transpose_coo_values A At hc hv,
    stable_sort_by_key_fst_eq _ _ (by simp [sequence, hc]),
    ← stable_sort_by_key_fst_eq _ A.row_indices (by omega), h1, h2, h3, zip_map_components]
  simp

theorem transpose_coo_lengths (A At : coo_matrix α)
    (hc : A.column_indices.length = A.num_entries) :
    (transpose_coo A At).row_indices.length = A.num_entries ∧
    (transpose_coo A At).column_indices.length = A.num_entries ∧
    (transpose_coo A At).values.length = A.num_entries := by
  refine ⟨?_, ?_, ?_⟩
  · rw [transpose_coo_row_indices,
      length_stable_sort_by_key_fst _ _ (by simp [sequence, hc]), hc]
  · simp [transpose_coo, length_gather, coo_matrix.construct]
  · simp [transpose_coo, length_gather, coo_matrix.construct]

theorem perm_entries_transpose_coo (A At : coo_matrix α)
    (hr : A.row_indices.length = A.num_entries)
    (hc : A.column_indices.length = A.num_entries)
    (hv : A.values.length = A.num_entries) :
    (transpose_coo A At).entries.Perm
      (A.column_indices.zip (A.row_indices.zip A.values)) := by
  rw [entries_transpose_coo A At hr hc hv]
  exact perm_stable_sort _ _

end coo

end cusp

open cusp cusp.detail

namespace cusp

/-! ## The stable sort by two keys -/

section lex

variable {β : Type} (key₁ key₂ : β → Nat)

theorem lex_le_trans {a b c : Nat × Nat} (h1 : lex_le a b) (h2 : lex_le b c) : lex_le a c := by
  unfold lex_le at *
  omega

theorem lex_le_antisymm {a b : Nat × Nat} (h1 : lex_le a b) (h2 : lex_le b a) : a = b := by
  unfold lex_le at *
  apply Prod.ext <;> omega

theorem lex_le_of_not {a b : Nat × Nat} (h : ¬ lex_le a b) : lex_le b a := by
  unfold lex_le at *
  omega

theorem perm_insert_by_keys (x : β) (l : List β) :
    (insert_by_keys key₁ key₂ x l).Perm (x :: l) := by
  induction l with
  | nil => simp [insert_by_keys]
  | cons y ys ih =>
    simp only [insert_by_keys]
    split
    · exact List.Perm.refl _
    · exact (List.Perm.cons y ih).trans (List.Perm.swap x y ys)

theorem perm_stable_sort_lex (l : List β) : (stable_sort_lex key₁ key₂ l).Perm l := by
  induction l with
  | nil => simp [stable_sort_lex]
  | cons x xs ih =>
    simp only [stable_sort_lex]
    exact (perm_insert_by_keys key₁ key₂ x _).trans (List.Perm.cons x ih)

theorem sorted_insert_by_keys (x : β) (l : List β)
    (h : l.Pairwise fun a b => lex_le (key₁ a, key₂ a) (key₁ b, key₂ b)) :
    (insert_by_keys key₁ key₂ x l).Pairwise
      fun a b => lex_le (key₁ a, key₂ a) (key₁ b, key₂ b) := by
  induction l with
  | nil => simp [insert_by_keys]
  | cons y ys ih =>
    rw [List.pairwise_cons] at h
    simp only [insert_by_keys]
    split
    · rename_i hxy
      have hxy' : lex_le (key₁ x, key₂ x) (key₁ y, key₂ y) := hxy
      refine List.Pairwise.cons ?_ (List.Pairwise.cons h.1 h.2)
      intro b hb
      rcases List.mem_cons.1 hb with rfl | hb
      · exact hxy'
      · exact lex_le_trans hxy' (h.1 b hb)
    · rename_i hxy
      have hyx : lex_le (key₁ y, key₂ y) (key₁ x, key₂ x) := lex_le_of_not hxy
      refine List.Pairwise.cons ?_ (ih h.2)
      intro b hb
      rcases List.mem_cons.1 ((perm_insert_by_keys key₁ key₂ x ys).subset hb) with rfl | hb
      · exact hyx
      · exact h.1 b hb

theorem sorted_stable_sort_lex (l : List β) :
    (stable_sort_lex key₁ key₂ l).Pairwise
      fun a b => lex_le (key₁ a, key₂ a) (key₁ b, key₂ b) := by
  induction l with
  | nil => simp [stable_sort_lex]
  | cons x xs ih => exact sorted_insert_by_keys key₁ key₂ x _ ih

/-- Stability: the elements carrying a given pair of keys come out in their input
order. -/
theorem filter_insert_by_keys (k : Nat × Nat) (x : β) (l : List β) :
    (insert_by_keys key₁ key₂ x l).filter (fun e => (key₁ e, key₂ e) = k) =
      (x :: l).filter (fun e => (key₁ e, key₂ e) = k) := by
  induction l with
  | nil => simp [insert_by_keys]
  | cons y ys ih =>
    simp only [insert_by_keys]
    split
    · rfl
    · rename_i hxy
      rw [List.filter_cons, ih]
      by_cases hx : (key₁ x, key₂ x) = k
      · have hy : ¬ (key₁ y, key₂ y) = k := by
          intro hy
          have h1 := congrArg Prod.fst (hx.trans hy.symm)
          have h2 := congrArg Prod.snd (hx.trans hy.symm)
          simp only at h1 h2
          omega
        simp [List.filter_cons, hx, hy]
      · simp [List.filter_cons, hx]

theorem filter_stable_sort_lex (k : Nat × Nat) (l : List β) :
    (stable_sort_lex key₁ key₂ l).filter (fun e => (key₁ e, key₂ e) = k) =
      l.filter (fun e => (key₁ e, key₂ e) = k) := by
  induction l with
  | nil => simp [stable_sort_lex]
  | cons x xs ih =>
    simp only [stable_sort_lex]
    rw [filter_insert_by_keys, List.filter_cons, List.filter_cons, ih]

/-- Two lists in lexicographic order whose key classes agree are equal. -/
theorem eq_of_lex_sorted_of_filter_eq (L₁ L₂ : List β)
    (h₁ : L₁.Pairwise fun a b => lex_le (key₁ a, key₂ a) (key₁ b, key₂ b))
    (h₂ : L₂.Pairwise fun a b => lex_le (key₁ a, key₂ a) (key₁ b, key₂ b))
    (hf : ∀ k, L₁.filter (fun e => (key₁ e, key₂ e) = k) =
      L₂.filter (fun e => (key₁ e, key₂ e) = k)) : L₁ = L₂ := by
  induction L₁ generalizing L₂ with
  | nil =>
    cases L₂ with
    | nil => rfl
    | cons y t₂ =>
      have := hf (key₁ y, key₂ y)
      simp [List.filter_cons] at this
  | cons x t₁ ih =>
    cases L₂ with
    | nil =>
      have := hf (key₁ x, key₂ x)
      simp [List.filter_cons] at this
    | cons y t₂ =>
      rw [List.pairwise_cons] at h₁ h₂
      have hxy : lex_le (key₁ x, key₂ x) (key₁ y, key₂ y) := by
        have hy : y ∈ (x :: t₁).filter (fun e => (key₁ e, key₂ e) = (key₁ y, key₂ y)) := by
          rw [hf]; simp [List.filter_cons]
        have hy' := List.mem_filter.1 hy
        have hk : (key₁ y, key₂ y) = (key₁ y, key₂ y) := rfl
        rcases List.mem_cons.1 hy'.1 with h | h
        · rw [h]; unfold lex_le; omega
        · exact h₁.1 y h
      have hyx : lex_le (key₁ y, key₂ y) (key₁ x, key₂ x) := by
        have hx : x ∈ (y :: t₂).filter (fun e => (key₁ e, key₂ e) = (key₁ x, key₂ x)) := by
          rw [← hf]; simp [List.filter_cons]
        have hx' := List.mem_filter.1 hx
        rcases List.mem_cons.1 hx'.1 with h | h
        · rw [h]; unfold lex_le; omega
        · exact h₂.1 x h
      have hkey := lex_le_antisymm hxy hyx
      have hhead := hf (key₁ x, key₂ x)
      rw [List.filter_cons_of_pos (by simp), List.filter_cons_of_pos (by simp [hkey])] at hhead
      have hxy_eq : x = y := (List.cons.inj hhead).1
      subst hxy_eq
      congr 1
      apply ih t₂ h₁.2 h₂.2
      intro k
      have := hf k
      by_cases hk : (key₁ x, key₂ x) = k
      · rw [List.filter_cons_of_pos (by simpa using hk),
          List.filter_cons_of_pos (by simpa using hk)] at this
        exact (List.cons.inj this).2
      · rw [List.filter_cons_of_neg (by simpa using hk),
          List.filter_cons_of_neg (by simpa using hk)] at this
        exact this

/-- Inserting by the first key into a list in lexicographic order an element whose
second key is minimal keeps the lexicographic order. -/
theorem lex_sorted_insert_by_key (x : β) (R : List β)
    (hR : R.Pairwise fun a b => lex_le (key₁ a, key₂ a) (key₁ b, key₂ b))
    (hx : ∀ y ∈ R, key₂ x ≤ key₂ y) :
    (insert_by_key key₁ x R).Pairwise
      fun a b => lex_le (key₁ a, key₂ a) (key₁ b, key₂ b) := by
  induction R with
  | nil => simp [insert_by_key]
  | cons y ys ih =>
    rw [List.pairwise_cons] at hR
    simp only [insert_by_key]
    split
    · rename_i hxy
      refine List.Pairwise.cons ?_ (List.Pairwise.cons hR.1 hR.2)
      intro b hb
      have hb2 := hx b hb
      have hyb : key₁ y ≤ key₁ b := by
        rcases List.mem_cons.1 hb with rfl | hb'
        · exact Nat.le_refl _
        · have := hR.1 b hb'
          unfold lex_le at this
          simp only at this
          omega
      unfold lex_le
      simp only
      omega
    · rename_i hxy
      refine List.Pairwise.cons ?_ (ih hR.2 (fun z hz => hx z (List.mem_cons_of_mem _ hz)))
      intro b hb
      rcases List.mem_cons.1 ((perm_insert_by_key key₁ x ys).subset hb) with rfl | hb
      · unfold lex_le
        simp only
        omega
      · exact hR.1 b hb

/-- Sorting stably by the second key and then by the first gives a list in
lexicographic order. -/
theorem lex_sorted_stable_sort_stable_sort (l : List β) :
    (stable_sort key₁ (stable_sort key₂ l)).Pairwise
      fun a b => lex_le (key₁ a, key₂ a) (key₁ b, key₂ b) := by
  have hgen : ∀ S : List β, (S.Pairwise fun a b => key₂ a ≤ key₂ b) →
      (stable_sort key₁ S).Pairwise
        fun a b => lex_le (key₁ a, key₂ a) (key₁ b, key₂ b) := by
    intro S hS
    induction S with
    | nil => simp [stable_sort]
    | cons x t ih =>
      rw [List.pairwise_cons] at hS
      simp only [stable_sort]
      apply lex_sorted_insert_by_key key₁ key₂ x _ (ih hS.2)
      intro y hy
      exact hS.1 y ((perm_stable_sort key₁ t).subset hy)
  exact hgen _ (sorted_stable_sort key₂ l)

/-- Two stable passes, by the second key and then by the first, are the stable
sort by the first key, then the second. -/
theorem stable_sort_stable_sort_eq_lex (l : List β) :
    stable_sort key₁ (stable_sort key₂ l) = stable_sort_lex key₁ key₂ l := by
  apply eq_of_lex_sorted_of_filter_eq key₁ key₂ _ _
    (lex_sorted_stable_sort_stable_sort key₁ key₂ l) (sorted_stable_sort_lex key₁ key₂ l)
  intro k
  rw [filter_stable_sort_lex]
  have hsplit : ∀ L : List β, L.filter (fun e => (key₁ e, key₂ e) = k) =
      (L.filter (fun e => key₂ e = k.2)).filter (fun e => key₁ e = k.1) := by
    intro L
    rw [List.filter_filter]
    apply List.filter_congr
    intro e _
    rw [Bool.eq_iff_iff]
    simp only [Bool.and_eq_true, decide_eq_true_eq]
    constructor
    · intro h; rw [← h]; exact ⟨rfl, rfl⟩
    · intro h; exact Prod.ext h.1 h.2
  have hcomm : ∀ L : List β, (L.filter (fun e => key₂ e = k.2)).filter (fun e => key₁ e = k.1) =
      (L.filter (fun e => key₁ e = k.1)).filter (fun e => key₂ e = k.2) := by
    intro L
    rw [List.filter_filter, List.filter_filter]
    apply List.filter_congr
    intro e _
    rw [Bool.and_comm]
  rw [hsplit, hcomm, filter_stable_sort key₁, ← hcomm, filter_stable_sort key₂, ← hsplit]

/-- A list in lexicographic order is left as it is by the sort. -/
theorem stable_sort_lex_of_sorted (l : List β)
    (h : l.Pairwise fun a b => lex_le (key₁ a, key₂ a) (key₁ b, key₂ b)) :
    stable_sort_lex key₁ key₂ l = l :=
  eq_of_lex_sorted_of_filter_eq key₁ key₂ _ _ (sorted_stable_sort_lex key₁ key₂ l) h
    (fun k => filter_stable_sort_lex key₁ key₂ k l)

end lex

end cusp

/-! # Theorems -/

open cusp cusp.detail

namespace cusp

/-- C1. Dense transpose is correct for all four orientation combinations: for an
unpadded source `A` (pitch = minor dimension, buffer length = rows × cols) and any
prior state of the destination, `transpose(A, At)` leaves `At` with
`num_rows = A.num_cols`, `num_cols = A.num_rows`, `num_entries = rows × cols`,
pitch = the minor dimension of the transposed shape under the destination
orientation; `transpose_index` maps the destination address of `(j, i)` to the
source address of `(i, j)`; and `At(j, i) = A(i, j)` for every valid `(i, j)`,
both being stored elements. -/
theorem transpose_array2d_correct {α : Type} [Inhabited α] (so dor : orientation)
    (A : array2d α so) (At : array2d α dor)
    (hp : A.pitch = minor_dimension A.num_rows A.num_cols so)
    (hv : A.values.length = A.num_rows * A.num_cols) :
    (transpose_array2d A At).num_rows = A.num_cols ∧
    (transpose_array2d A At).num_cols = A.num_rows ∧
    (transpose_array2d A At).num_entries = A.num_rows * A.num_cols ∧
    (transpose_array2d A At).pitch = minor_dimension A.num_cols A.num_rows dor ∧
    ∀ i j, i < A.num_rows → j < A.num_cols →
      transpose_index so dor A.num_cols A.num_rows
          (index_of j i (transpose_array2d A At).pitch dor) = index_of i j A.pitch so ∧
      ∃ v, A.get i j = some v ∧ (transpose_array2d A At).get j i = some v := by
  refine ⟨rfl, rfl, ?_, rfl, ?_⟩
  · simp [transpose_array2d, array2d.resize, array2d.resize_pitch, Nat.mul_comm]
  · intro i j hi hj
    have hpT : (transpose_array2d A At).pitch = minor_dimension A.num_cols A.num_rows dor := rfl
    have hmir := transpose_index_mirror so dor hi hj
    obtain ⟨hlt, -, -⟩ := @coords_index_of A.num_cols A.num_rows j i dor hj hi
    obtain ⟨hsrc, -, -⟩ := @coords_index_of A.num_rows A.num_cols i j so hi hj
    rw [hpT, hp]
    obtain ⟨v, hvv⟩ : ∃ v, A.values[index_of i j
        (minor_dimension A.num_rows A.num_cols so) so]? = some v :=
      ⟨_, List.getElem?_eq_getElem (by rw [hv]; exact hsrc)⟩
    refine ⟨hmir, v, ?_, ?_⟩
    · simp only [array2d.get, hp]
      exact hvv
    · simp only [array2d.get, hpT]
      rw [getElem?_values_transpose_array2d A At _ hlt hv (by rw [hmir]; exact hsrc), hmir]
      exact hvv

/-- Witness of C1: the 2×3 row-major array `[[1,2,3],[4,5,6]]` transposes into the
3×2 row-major array `[[1,4],[2,5],[3,6]]`. -/
theorem transpose_array2d_correct_witness :
    example_2x3.pitch = minor_dimension example_2x3.num_rows example_2x3.num_cols
      orientation.row_major ∧
    example_2x3.values.length = example_2x3.num_rows * example_2x3.num_cols ∧
    transpose_array2d example_2x3 (array2d.empty : array2d Nat orientation.row_major) =
      { num_rows := 3, num_cols := 2, num_entries := 6, values := [1, 4, 2, 5, 3, 6],
        pitch := 2 } ∧
    (transpose_array2d example_2x3
      (array2d.empty : array2d Nat orientation.row_major)).get 2 1 = example_2x3.get 1 2 := by
  obtain ⟨-, -, -, -, h⟩ := transpose_array2d_correct orientation.row_major
    orientation.row_major example_2x3 (array2d.empty : array2d Nat orientation.row_major)
    rfl rfl
  obtain ⟨-, v, h1, h2⟩ := h 1 2 (by decide) (by decide)
  exact ⟨rfl, rfl, by decide, by rw [h1, h2]⟩

/-- C8. Dense transpose is an involution: transposing an unpadded `A` of
orientation `o₁` into `B` of orientation `o₂` and `B` into `C` of orientation `o₁`
(whatever `B` and `C` held before) gives `C` with the shape and pitch of `A`, the
same buffer element for element, and `C(i, j) = A(i, j)` for every valid `(i, j)`. -/
theorem transpose_array2d_involution {α : Type} [Inhabited α] (o₁ o₂ : orientation)
    (A : array2d α o₁) (B : array2d α o₂) (C : array2d α o₁)
    (hp : A.pitch = minor_dimension A.num_rows A.num_cols o₁)
    (hv : A.values.length = A.num_rows * A.num_cols) :
    (transpose_array2d (transpose_array2d A B) C).num_rows = A.num_rows ∧
    (transpose_array2d (transpose_array2d A B) C).num_cols = A.num_cols ∧
    (transpose_array2d (transpose_array2d A B) C).pitch = A.pitch ∧
    (transpose_array2d (transpose_array2d A B) C).values = A.values ∧
    ∀ i j, i < A.num_rows → j < A.num_cols →
      ∃ v, A.get i j = some v ∧
        (transpose_array2d (transpose_array2d A B) C).get i j = some v := by
  have hvB : (transpose_array2d A B).values.length =
      (transpose_array2d A B).num_rows * (transpose_array2d A B).num_cols :=
    length_values_transpose_array2d A B
  have hvals : (transpose_array2d (transpose_array2d A B) C).values = A.values := by
    apply List.ext_getElem?
    intro l
    by_cases hl : l < A.num_rows * A.num_cols
    · have h1 := getElem?_values_transpose_array2d (transpose_array2d A B) C
        l hl hvB (transpose_index_lt _ _ hl)
      have h2 := getElem?_values_transpose_array2d A B
        (transpose_index o₂ o₁ A.num_rows A.num_cols l)
        (transpose_index_lt _ _ hl) hv
        (by rw [transpose_index_involutive o₁ o₂ hl]; exact hl)
      rw [transpose_index_involutive o₁ o₂ hl] at h2
      rw [h1]
      exact h2
    · rw [List.getElem?_eq_none, List.getElem?_eq_none]
      · omega
      · rw [length_values_transpose_array2d]
        exact Nat.le_of_not_lt hl
  have hpC : (transpose_array2d (transpose_array2d A B) C).pitch = A.pitch := by
    rw [hp]; rfl
  refine ⟨rfl, rfl, hpC, hvals, ?_⟩
  intro i j hi hj
  obtain ⟨hsrc, -, -⟩ := @coords_index_of A.num_rows A.num_cols i j o₁ hi hj
  obtain ⟨v, hvv⟩ : ∃ v, A.values[index_of i j
      (minor_dimension A.num_rows A.num_cols o₁) o₁]? = some v :=
    ⟨_, List.getElem?_eq_getElem (by rw [hv]; exact hsrc)⟩
  refine ⟨v, ?_, ?_⟩
  · simp only [array2d.get, hp]
    exact hvv
  · simp only [array2d.get, hpC, hvals, hp]
    exact hvv

/-- Witness of C8: the 2×3 row-major array `[[1,2,3],[4,5,6]]`, transposed into a
column-major array and back into a row-major one, is recovered. -/
theorem transpose_array2d_involution_witness :
    example_2x3.pitch = minor_dimension example_2x3.num_rows example_2x3.num_cols
      orientation.row_major ∧
    example_2x3.values.length = example_2x3.num_rows * example_2x3.num_cols ∧
    (transpose_array2d (transpose_array2d example_2x3
      (array2d.empty : array2d Nat orientation.column_major))
      (array2d.empty : array2d Nat orientation.row_major)).values = [1, 2, 3, 4, 5, 6] :=
  ⟨rfl, rfl, (transpose_array2d_involution orientation.row_major orientation.column_major
    example_2x3 array2d.empty array2d.empty rfl rfl).2.2.2.1⟩

end cusp

open cusp cusp.detail

namespace cusp

/-- C2. COO transpose is correct: for a COO matrix whose three arrays have length
`num_entries` (entries in any order, duplicates allowed) and any prior state of
the destination, `transpose(A, At)` yields the transposed shape, the same
`num_entries`, arrays of that length, and the permutation `p` produced by stably
sorting `A.column_indices` along the identity sequence is a permutation of
`[0, num_entries)` with `At.row_indices[k] = A.column_indices[p k]`,
`At.column_indices[k] = A.row_indices[p k]`, `At.values[k] = A.values[p k]` for
every `k`; hence the (row, col, value) triples of `At` are, as a multiset, the
(col, row, value) triples of `A`. -/
theorem transpose_coo_correct {α : Type} [Inhabited α] (A At : coo_matrix α)
    (hr : A.row_indices.length = A.num_entries)
    (hc : A.column_indices.length = A.num_entries)
    (hv : A.values.length = A.num_entries) :
    (transpose_coo A At).num_rows = A.num_cols ∧
    (transpose_coo A At).num_cols = A.num_rows ∧
    (transpose_coo A At).num_entries = A.num_entries ∧
    (transpose_coo A At).row_indices.length = A.num_entries ∧
    (transpose_coo A At).column_indices.length = A.num_entries ∧
    (transpose_coo A At).values.length = A.num_entries ∧
    ((stable_sort_by_key A.column_indices (sequence A.num_entries)).2.Perm
        (List.range A.num_entries) ∧
      ∀ k, k < A.num_entries →
        ∃ pk, (stable_sort_by_key A.column_indices (sequence A.num_entries)).2[k]? = some pk ∧
          pk < A.num_entries ∧
          (transpose_coo A At).row_indices[k]? = A.column_indices[pk]? ∧
          (transpose_coo A At).column_indices[k]? = A.row_indices[pk]? ∧
          (transpose_coo A At).values[k]? = A.values[pk]?) ∧
    (transpose_coo A At).entries.Perm
      (A.column_indices.zip (A.row_indices.zip A.values)) := by
  have hs : A.column_indices.length = (sequence A.num_entries).length := by
    simp [sequence, hc]
  obtain ⟨hl1, hl2, hl3⟩ := transpose_coo_lengths A At hc
  refine ⟨rfl, rfl, rfl, hl1, hl2, hl3, ⟨?_, ?_⟩, ?_⟩
  · exact perm_stable_sort_by_key_snd _ _ hs
  · intro k hk
    obtain ⟨pk, h1, h2, h3⟩ := getElem?_sorted_sequence A.column_indices A.num_entries k hc hk
    refine ⟨pk, h1, h2, h3, ?_, ?_⟩
    · simp only [transpose_coo]
      exact getElem?_gather_of_lt (by simp [coo_matrix.construct]; exact hk) h1 (by omega)
    · simp only [transpose_coo]
      exact getElem?_gather_of_lt (by simp [coo_matrix.construct]; exact hk) h1 (by omega)
  · exact perm_entries_transpose_coo A At hr hc hv

/-- Witness of C2: the entries `(0,1,5)`, `(1,0,7)` over a 2×2 shape transpose to
`(0,1,7)`, `(1,0,5)`, in that order. -/
theorem transpose_coo_correct_witness :
    example_coo.row_indices.length = example_coo.num_entries ∧
    example_coo.column_indices.length = example_coo.num_entries ∧
    example_coo.values.length = example_coo.num_entries ∧
    (transpose_coo example_coo example_coo).entries = [(0, 1, 7), (1, 0, 5)] ∧
    (transpose_coo example_coo example_coo).entries.Perm
      (example_coo.column_indices.zip (example_coo.row_indices.zip example_coo.values)) :=
  ⟨rfl, rfl, rfl, by decide,
    (transpose_coo_correct example_coo example_coo rfl rfl rfl).2.2.2.2.2.2.2⟩

/-- C9. COO transpose is an involution entrywise: for a COO matrix whose arrays
have length `num_entries` (any entry order, duplicates allowed),
`transpose(transpose(A))` has the shape and `num_entries` of `A` and the same
multiset of (row, col, value) triples, so at every `(i, j)` the stored values are
the same multiset in both. -/
theorem transpose_coo_involution {α : Type} [Inhabited α] (A B C : coo_matrix α)
    (hr : A.row_indices.length = A.num_entries)
    (hc : A.column_indices.length = A.num_entries)
    (hv : A.values.length = A.num_entries) :
    (transpose_coo (transpose_coo A B) C).num_rows = A.num_rows ∧
    (transpose_coo (transpose_coo A B) C).num_cols = A.num_cols ∧
    (transpose_coo (transpose_coo A B) C).num_entries = A.num_entries ∧
    (transpose_coo (transpose_coo A B) C).entries.Perm A.entries ∧
    ∀ i j, ((transpose_coo (transpose_coo A B) C).values_at i j).Perm (A.values_at i j) := by
  obtain ⟨hr1, hc1, hv1⟩ := transpose_coo_lengths A B hc
  have hp1 := perm_entries_transpose_coo A B hr hc hv
  have hp2 := perm_entries_transpose_coo (transpose_coo A B) C hr1 hc1 hv1
  have hp : (transpose_coo (transpose_coo A B) C).entries.Perm A.entries := by
    refine hp2.trans ?_
    have := hp1.map fun e => (e.2.1, e.1, e.2.2)
    rwa [coo_matrix.entries, map_swap_zip, map_swap_zip] at this
  refine ⟨rfl, rfl, rfl, hp, ?_⟩
  intro i j
  exact (hp.filter _).map _

/-- Witness of C9: transposing the entries `(0,1,5)`, `(1,0,7)` twice gives them
back. -/
theorem transpose_coo_involution_witness :
    example_coo.row_indices.length = example_coo.num_entries ∧
    example_coo.column_indices.length = example_coo.num_entries ∧
    example_coo.values.length = example_coo.num_entries ∧
    (transpose_coo (transpose_coo example_coo example_coo) example_coo).entries.Perm
      example_coo.entries :=
  ⟨rfl, rfl, rfl, (transpose_coo_involution example_coo example_coo example_coo
    rfl rfl rfl).2.2.2.1⟩

end cusp

open cusp cusp.detail

namespace cusp

theorem valid_example_csr : example_csr.valid :=
  ⟨rfl, by decide, rfl, rfl, rfl, rfl, by decide⟩

theorem valid_example_csr_sorted : example_csr_sorted.valid :=
  ⟨rfl, by decide, rfl, rfl, rfl, rfl, by decide⟩

/-- C3. CSR transpose is correct: for a valid CSR matrix `A` and any prior state of
the destination, with `indices_to_offsets` and `offsets_to_indices` modelled by
their contracts, `transpose(A, At)` yields the transposed shape, the same
`num_entries`, and for every `i < A.num_rows`, `j < A.num_cols` the list of values
stored in row `j` of `At` under column index `i` equals the list of values stored
in row `i` of `A` under column index `j` (same values, same order). -/
theorem transpose_csr_correct {α : Type} [Inhabited α] (A At : csr_matrix α)
    (hA : A.valid) :
    (transpose_csr A At).num_rows = A.num_cols ∧
    (transpose_csr A At).num_cols = A.num_rows ∧
    (transpose_csr A At).num_entries = A.num_entries ∧
    ∀ i j, i < A.num_rows → j < A.num_cols →
      (transpose_csr A At).values_at j i = A.values_at i j := by
  refine ⟨rfl, rfl, rfl, ?_⟩
  intro i j hi hj
  rw [csr_matrix.values_at, csr_matrix.values_at,
    row_eq_filter_entries _ (valid_transpose_csr A At hA) j hj,
    row_eq_filter_entries A hA i hi, entries_transpose_csr A At hA, filter_stable_sort,
    filter_col_row_swap, filter_row_col]

/-- Witness of C3: in the 3×3 example, row 1 of the transpose holds under column 2
the values `[30, 40]` that row 2 of the source holds under column 1. -/
theorem transpose_csr_correct_witness :
    example_csr.valid ∧
    (transpose_csr example_csr example_csr).values_at 1 2 = [30, 40] ∧
    (transpose_csr example_csr example_csr).values_at 1 2 = example_csr.values_at 2 1 :=
  ⟨valid_example_csr, by decide,
    (transpose_csr_correct example_csr example_csr valid_example_csr).2.2.2 2 1
      (by decide) (by decide)⟩

/-- C4. The CSR transpose produces a valid offset array: for a valid CSR matrix
`A`, `At.row_offsets` has length `A.num_cols + 1`; its entry `c` is the number of
stored entries of `A` with column index below `c`, for every `c ≤ A.num_cols`; so
it starts at 0, is non-decreasing, and ends at
`A.num_entries = At.column_indices.length = At.values.length`. -/
theorem transpose_csr_row_offsets {α : Type} [Inhabited α] (A At : csr_matrix α)
    (hA : A.valid) :
    (transpose_csr A At).row_offsets.length = A.num_cols + 1 ∧
    (∀ c, c ≤ A.num_cols →
      (transpose_csr A At).row_offsets[c]? =
        some (A.column_indices.countP fun x => x < c)) ∧
    (transpose_csr A At).row_offsets[0]? = some 0 ∧
    (transpose_csr A At).row_offsets.Sorted (· ≤ ·) ∧
    (transpose_csr A At).row_offsets[A.num_cols]? = some A.num_entries ∧
    (transpose_csr A At).column_indices.length = A.num_entries ∧
    (transpose_csr A At).values.length = A.num_entries := by
  have hT := valid_transpose_csr A At hA
  refine ⟨hT.offsets_length, fun c hc => getElem?_row_offsets_transpose_csr A At hA c hc,
    ?_, hT.offsets_sorted, ?_, hT.columns_length, hT.values_length⟩
  · rw [getElem?_row_offsets_transpose_csr A At hA 0 (Nat.zero_le _)]
    simp
  · rw [getElem?_row_offsets_transpose_csr A At hA _ (Nat.le_refl _),
      countP_lt_num_cols A hA]

/-- Witness of C4: the offsets of the transpose of the 3×3 example are
`[0, 2, 4, 5]`. -/
theorem transpose_csr_row_offsets_witness :
    example_csr.valid ∧
    (transpose_csr example_csr example_csr).row_offsets = [0, 2, 4, 5] ∧
    (transpose_csr example_csr example_csr).row_offsets[example_csr.num_cols]? =
      some example_csr.num_entries :=
  ⟨valid_example_csr, by decide,
    (transpose_csr_row_offsets example_csr example_csr valid_example_csr).2.2.2.2.1⟩

/-- C10. CSR transpose is an involution entrywise: for a valid CSR matrix `A`,
`transpose(transpose(A))` has the shape and `num_entries` of `A`, the same
`row_offsets` element for element, and in every row the same multiset of
(column index, value) pairs; it equals `A` array for array whenever every row of
`A` has its column indices in non-decreasing order. -/
theorem transpose_csr_involution {α : Type} [Inhabited α] (A B C : csr_matrix α)
    (hA : A.valid) :
    (transpose_csr (transpose_csr A B) C).num_rows = A.num_rows ∧
    (transpose_csr (transpose_csr A B) C).num_cols = A.num_cols ∧
    (transpose_csr (transpose_csr A B) C).num_entries = A.num_entries ∧
    (transpose_csr (transpose_csr A B) C).row_offsets = A.row_offsets ∧
    (∀ i, i < A.num_rows → ((transpose_csr (transpose_csr A B) C).row i).Perm (A.row i)) ∧
    ((∀ i, i < A.num_rows → ((A.row i).map Prod.fst).Sorted (· ≤ ·)) →
      transpose_csr (transpose_csr A B) C = A) := by
  have hT := valid_transpose_csr A B hA
  have hTT := valid_transpose_csr (transpose_csr A B) C hT
  have hoff := row_offsets_transpose_transpose_csr A B C hA
  have hent := entries_transpose_transpose_csr A B C hA
  refine ⟨rfl, rfl, rfl, hoff, ?_, ?_⟩
  · intro i hi
    rw [row_eq_filter_entries _ hTT i hi, row_eq_filter_entries A hA i hi, hent,
      filter_stable_sort]
    exact ((perm_stable_sort _ _).filter _).map _
  · intro hsorted
    have hrow : ∀ i, i < A.num_rows →
        (stable_sort (fun e => e.2.1) A.entries).filter (fun e => e.1 = i) =
          A.entries.filter (fun e => e.1 = i) := by
      intro i hi
      rw [stable_sort_filter]
      apply stable_sort_of_sorted
      have h := hsorted i hi
      rw [row_eq_filter_entries A hA i hi, List.map_map, List.Sorted, List.pairwise_map] at h
      exact h
    have hent' : (transpose_csr (transpose_csr A B) C).entries = A.entries := by
      have hbound : ∀ e ∈ (transpose_csr (transpose_csr A B) C).entries, e.1 < A.num_rows :=
        fun e he => fst_lt_of_mem_entries _ hTT e he
      rw [eq_flatMap_of_sorted Prod.fst A.num_rows _ (sorted_entries _ hTT) hbound,
        eq_flatMap_of_sorted Prod.fst A.num_rows A.entries (sorted_entries A hA)
          (fun e he => fst_lt_of_mem_entries A hA e he)]
      apply List.flatMap_congr
      intro i hi
      rw [List.mem_range] at hi
      rw [hent, filter_stable_sort, hrow i hi]
    have hzip := congrArg (List.map Prod.snd) hent'
    rw [map_snd_entries _ hTT, map_snd_entries A hA] at hzip
    have hunzip := congrArg List.unzip hzip
    rw [List.unzip_zip (by rw [hTT.columns_length, hTT.values_length]),
      List.unzip_zip (by rw [hA.columns_length, hA.values_length])] at hunzip
    exact csr_matrix_ext _ _ rfl rfl rfl hoff (congrArg Prod.fst hunzip)
      (congrArg Prod.snd hunzip)

/-- Witness of C10: the example with unsorted rows keeps its rows up to order, and
the example with sorted rows is recovered array for array. -/
theorem transpose_csr_involution_witness :
    example_csr.valid ∧ example_csr_sorted.valid ∧
    (transpose_csr (transpose_csr example_csr example_csr) example_csr).row_offsets =
      example_csr.row_offsets ∧
    (∀ i, i < example_csr_sorted.num_rows →
      ((example_csr_sorted.row i).map Prod.fst).Sorted (· ≤ ·)) ∧
    transpose_csr (transpose_csr example_csr_sorted example_csr) example_csr =
      example_csr_sorted :=
  ⟨valid_example_csr, valid_example_csr_sorted,
    (transpose_csr_involution example_csr example_csr example_csr
      valid_example_csr).2.2.2.1,
    by decide,
    (transpose_csr_involution example_csr_sorted example_csr example_csr
      valid_example_csr_sorted).2.2.2.2.2 (by decide)⟩

end cusp

open cusp cusp.detail cusp.detail.host

namespace cusp

section convert

variable {α Dia Ell Hyb : Type}

theorem convert_csr_dia_eq (P : conversions α Dia Ell Hyb) (src : csr_matrix α) (dst : Dia)
    (max_fill : ℚ) (alignment : Nat) [Decidable (spec_fill_guard (P.count_diagonals src)
      src.num_rows src.num_entries max_fill)] :
    convert_csr_dia P src dst max_fill alignment =
      if spec_fill_guard (P.count_diagonals src) src.num_rows src.num_entries max_fill then
        { dst := dst,
          raised := some ⟨"dia_matrix fill-in would exceed maximum tolerance"⟩ }
      else { dst := P.csr_to_dia src dst alignment, raised := none } := by
  simp only [convert_csr_dia]
  split_ifs with h1 h2 h2
  · rfl
  · exact absurd ((guard_iff_spec _ _ _ _).1 h1) h2
  · exact absurd ((guard_iff_spec _ _ _ _).2 h2) h1
  · rfl

theorem convert_csr_ell_eq (P : conversions α Dia Ell Hyb) (src : csr_matrix α) (dst : Ell)
    (max_fill : ℚ) (alignment : Nat) [Decidable (spec_fill_guard
      (P.compute_max_entries_per_row src) src.num_rows src.num_entries max_fill)] :
    convert_csr_ell P src dst max_fill alignment =
      if spec_fill_guard (P.compute_max_entries_per_row src) src.num_rows src.num_entries
          max_fill then
        { dst := dst,
          raised := some ⟨"ell_matrix fill-in would exceed maximum tolerance"⟩ }
      else { dst := P.csr_to_ell src dst (P.compute_max_entries_per_row src) alignment,
             raised := none } := by
  simp only [convert_csr_ell]
  split_ifs with h1 h2 h2
  · rfl
  · exact absurd ((guard_iff_spec _ _ _ _).1 h1) h2
  · exact absurd ((guard_iff_spec _ _ _ _).2 h2) h1
  · rfl

theorem spec_fill_guard_default_2000 : spec_fill_guard 2000 2000 2000 default_max_fill := by
  unfold spec_fill_guard default_max_fill
  norm_num

theorem not_spec_fill_guard_of_le (count num_rows num_entries : Nat) (max_fill : ℚ)
    (h : count * num_rows ≤ 1000000) :
    ¬ spec_fill_guard count num_rows num_entries max_fill := by
  intro hg
  have := hg.2
  omega

end convert

/-- C5. CSR→DIA rejection is exactly the two-part guard (arithmetic read exactly,
over the rationals): with `d` the number of occupied diagonals,
`convert(src, dst)` raises the format-conversion error if and only if
`d·num_rows / max(1, num_entries) > max_fill` and `d·num_rows > 1,000,000`; in
every other case no error is raised and `dst` is the result of
`csr_to_dia(src, dst, alignment)`.  The entry point uses `max_fill = 3.0` and
`alignment = 32`.  A matrix with `num_entries = 0` divides by 1;
`d·num_rows = 1,000,000` is accepted whatever the fill ratio; 2000 rows with 2000
entries on 2000 diagonals are rejected under the defaults. -/
theorem convert_csr_dia_guard {α Dia Ell Hyb : Type} (P : conversions α Dia Ell Hyb)
    (src : csr_matrix α) (dst : Dia) (max_fill : ℚ) (alignment : Nat) :
    ((convert_csr_dia P src dst max_fill alignment).raised.isSome = true ↔
      spec_fill_guard (P.count_diagonals src) src.num_rows src.num_entries max_fill) ∧
    (spec_fill_guard (P.count_diagonals src) src.num_rows src.num_entries max_fill →
      (convert_csr_dia P src dst max_fill alignment).raised =
        some ⟨"dia_matrix fill-in would exceed maximum tolerance"⟩) ∧
    (¬ spec_fill_guard (P.count_diagonals src) src.num_rows src.num_entries max_fill →
      convert_csr_dia P src dst max_fill alignment =
        { dst := P.csr_to_dia src dst alignment, raised := none }) ∧
    convert_dia P (matrix.csr src) dst = convert_csr_dia P src dst 3 32 ∧
    (src.num_entries = 0 →
      ((convert_csr_dia P src dst max_fill alignment).raised.isSome = true ↔
        max_fill < ((P.count_diagonals src * src.num_rows : Nat) : ℚ) / 1 ∧
          1000000 < P.count_diagonals src * src.num_rows)) ∧
    (P.count_diagonals src * src.num_rows = 1000000 →
      (convert_csr_dia P src dst max_fill alignment).raised = none) ∧
    (src.num_rows = 2000 → src.num_entries = 2000 → P.count_diagonals src = 2000 →
      (convert_dia P (matrix.csr src) dst).raised.isSome = true) := by
  classical
  have heq := convert_csr_dia_eq P src dst max_fill alignment
  have hiff : (convert_csr_dia P src dst max_fill alignment).raised.isSome = true ↔
      spec_fill_guard (P.count_diagonals src) src.num_rows src.num_entries max_fill := by
    rw [heq]; split_ifs with h <;> simp [h]
  refine ⟨hiff, ?_, ?_, rfl, ?_, ?_, ?_⟩
  · intro h; rw [heq, if_pos h]
  · intro h; rw [heq, if_neg h]
  · intro h0
    rw [hiff, spec_fill_guard, h0]
    simp
  · intro h
    have hn := not_spec_fill_guard_of_le (P.count_diagonals src) src.num_rows src.num_entries
      max_fill (by omega)
    rw [heq, if_neg hn]
  · intro h1 h2 h3
    have heq' := convert_csr_dia_eq P src dst default_max_fill default_alignment
    have hg : spec_fill_guard (P.count_diagonals src) src.num_rows src.num_entries
        default_max_fill := by
      rw [h1, h2, h3]; exact spec_fill_guard_default_2000
    show (convert_csr_dia P src dst default_max_fill default_alignment).raised.isSome = true
    rw [heq', if_pos hg]
    rfl

/-- Witness of C5: under the defaults the 2000×2000 anti-diagonal matrix (one entry
per row, 2000 occupied diagonals) is rejected; the anti-diagonal matrix of order
1000, with `d·num_rows = 1,000,000`, is accepted; the 3×3 example is converted;
and the guard of an empty matrix divides by 1. -/
theorem convert_csr_dia_guard_witness :
    ((anti_diagonal 2000).num_rows = 2000 ∧ (anti_diagonal 2000).num_entries = 2000 ∧
      example_conversions.count_diagonals (anti_diagonal 2000) = 2000 ∧
      (convert_dia example_conversions (matrix.csr (anti_diagonal 2000))
        example_csr).raised.isSome = true) ∧
    (example_conversions.count_diagonals (anti_diagonal 1000) *
        (anti_diagonal 1000).num_rows = 1000000 ∧
      (convert_csr_dia example_conversions (anti_diagonal 1000) example_csr 3 32).raised
        = none) ∧
    (¬ spec_fill_guard (example_conversions.count_diagonals example_csr)
        example_csr.num_rows example_csr.num_entries 3 ∧
      convert_csr_dia example_conversions example_csr (zero_csr 2) 3 32 =
        { dst := example_csr, raised := none }) ∧
    ((zero_csr 2).num_entries = 0 ∧
      ((convert_csr_dia example_conversions (zero_csr 2) example_csr 3 32).raised.isSome = true ↔
        (3 : ℚ) < ((example_conversions.count_diagonals (zero_csr 2) *
            (zero_csr 2).num_rows : Nat) : ℚ) / 1 ∧
          1000000 < example_conversions.count_diagonals (zero_csr 2) *
            (zero_csr 2).num_rows)) := by
  have hproj : example_conversions.count_diagonals = count_diagonals := rfl
  have hrows : ∀ n, (anti_diagonal n).num_rows = n := fun _ => rfl
  have hc2000 : example_conversions.count_diagonals (anti_diagonal 2000) = 2000 := by
    rw [hproj, count_diagonals_anti_diagonal]
  have hc1000 : example_conversions.count_diagonals (anti_diagonal 1000) *
      (anti_diagonal 1000).num_rows = 1000000 := by
    rw [hproj, count_diagonals_anti_diagonal, hrows]
  have hsmall : ¬ spec_fill_guard (example_conversions.count_diagonals example_csr)
      example_csr.num_rows example_csr.num_entries 3 :=
    not_spec_fill_guard_of_le _ _ _ _ (by decide)
  have e1 := (convert_csr_dia_guard example_conversions (anti_diagonal 2000) example_csr 3 32).2.2.2.2.2.2
        rfl rfl hc2000
  have e2 := (convert_csr_dia_guard example_conversions (anti_diagonal 1000) example_csr 3 32).2.2.2.2.2.1
        hc1000
  have e3 := (convert_csr_dia_guard example_conversions example_csr (zero_csr 2) 3 32).2.2.1 hsmall
  have e4 := (convert_csr_dia_guard example_conversions (zero_csr 2) example_csr 3 32).2.2.2.2.1 rfl
  refine ⟨⟨rfl, rfl, hc2000, ?_⟩, ?_, ?_, ?_⟩
  · exact e1
  · exact ⟨hc1000, e2⟩
  · exact ⟨hsmall, e3⟩
  · exact ⟨rfl, e4⟩

/-- C6. CSR→ELL rejection is the same two-part guard with `R`, the maximum number
of entries in any row, in place of `d` (arithmetic read exactly, over the
rationals): `convert(src, dst)` raises the format-conversion error if and only if
`R·num_rows / max(1, num_entries) > max_fill` and `R·num_rows > 1,000,000`;
otherwise no error is raised and `dst` is the result of
`csr_to_ell(src, dst, R, alignment)`.  The entry point uses `max_fill = 3.0` and
`alignment = 32`. -/
theorem convert_csr_ell_guard {α Dia Ell Hyb : Type} (P : conversions α Dia Ell Hyb)
    (src : csr_matrix α) (dst : Ell) (max_fill : ℚ) (alignment : Nat) :
    ((convert_csr_ell P src dst max_fill alignment).raised.isSome = true ↔
      spec_fill_guard (P.compute_max_entries_per_row src) src.num_rows src.num_entries
        max_fill) ∧
    (spec_fill_guard (P.compute_max_entries_per_row src) src.num_rows src.num_entries
        max_fill →
      (convert_csr_ell P src dst max_fill alignment).raised =
        some ⟨"ell_matrix fill-in would exceed maximum tolerance"⟩) ∧
    (¬ spec_fill_guard (P.compute_max_entries_per_row src) src.num_rows src.num_entries
        max_fill →
      convert_csr_ell P src dst max_fill alignment =
        { dst := P.csr_to_ell src dst (P.compute_max_entries_per_row src) alignment,
          raised := none }) ∧
    convert_ell P (matrix.csr src) dst = convert_csr_ell P src dst 3 32 := by
  classical
  have heq := convert_csr_ell_eq P src dst max_fill alignment
  refine ⟨?_, ?_, ?_, rfl⟩
  · rw [heq]; split_ifs with h <;> simp [h]
  · intro h; rw [heq, if_pos h]
  · intro h; rw [heq, if_neg h]

/-- Witness of C6: under the defaults the 2000×2000 matrix whose only stored row is
full (`R = 2000`) is rejected, and the 3×3 example (`R = 3`) is converted. -/
theorem convert_csr_ell_guard_witness :
    (spec_fill_guard (example_conversions.compute_max_entries_per_row (full_first_row 2000))
        (full_first_row 2000).num_rows (full_first_row 2000).num_entries 3 ∧
      (convert_csr_ell example_conversions (full_first_row 2000) example_csr 3 32).raised =
        some ⟨"ell_matrix fill-in would exceed maximum tolerance"⟩) ∧
    (¬ spec_fill_guard (example_conversions.compute_max_entries_per_row example_csr)
        example_csr.num_rows example_csr.num_entries 3 ∧
      convert_csr_ell example_conversions example_csr (zero_csr 2) 3 32 =
        { dst := example_csr, raised := none }) := by
  have hbig : spec_fill_guard
      (example_conversions.compute_max_entries_per_row (full_first_row 2000))
      (full_first_row 2000).num_rows (full_first_row 2000).num_entries 3 := by
    have hproj : example_conversions.compute_max_entries_per_row =
        compute_max_entries_per_row := rfl
    have hrows : ∀ n, (full_first_row n).num_rows = n := fun _ => rfl
    have hentries : ∀ n, (full_first_row n).num_entries = n := fun _ => rfl
    rw [hproj, compute_max_entries_per_row_full_first_row, hrows, hentries]
    exact spec_fill_guard_default_2000
  have hsmall : ¬ spec_fill_guard (example_conversions.compute_max_entries_per_row example_csr)
      example_csr.num_rows example_csr.num_entries 3 :=
    not_spec_fill_guard_of_le _ _ _ _ (by decide)
  exact ⟨⟨hbig,
      (convert_csr_ell_guard example_conversions (full_first_row 2000) example_csr 3 32).2.1
        hbig⟩,
    ⟨hsmall,
      (convert_csr_ell_guard example_conversions example_csr (zero_csr 2) 3 32).2.2.1 hsmall⟩⟩

end cusp

open cusp cusp.detail cusp.detail.host

namespace cusp

section atomic

variable {α Dia Ell Hyb : Type}

theorem convert_csr_dia_dst_of_raised (P : conversions α Dia Ell Hyb) (src : csr_matrix α)
    (dst : Dia) (max_fill : ℚ) (alignment : Nat)
    (h : (convert_csr_dia P src dst max_fill alignment).raised.isSome = true) :
    (convert_csr_dia P src dst max_fill alignment).dst = dst := by
  simp only [convert_csr_dia] at h ⊢
  split_ifs with hg
  · rfl
  · rw [if_neg hg] at h
    simp at h

theorem convert_csr_ell_dst_of_raised (P : conversions α Dia Ell Hyb) (src : csr_matrix α)
    (dst : Ell) (max_fill : ℚ) (alignment : Nat)
    (h : (convert_csr_ell P src dst max_fill alignment).raised.isSome = true) :
    (convert_csr_ell P src dst max_fill alignment).dst = dst := by
  simp only [convert_csr_ell] at h ⊢
  split_ifs with hg
  · rfl
  · rw [if_neg hg] at h
    simp at h

end atomic

theorem raised_dia_anti_diagonal_2000 (dst : csr_matrix Nat) :
    (convert_csr_dia example_conversions (anti_diagonal 2000) dst default_max_fill
      default_alignment).raised.isSome = true := by
  classical
  have hproj : example_conversions.count_diagonals = count_diagonals := rfl
  have hrows : ∀ n, (anti_diagonal n).num_rows = n := fun _ => rfl
  have hentries : ∀ n, (anti_diagonal n).num_entries = n := fun _ => rfl
  rw [convert_csr_dia_eq, if_pos]
  · rfl
  · rw [hproj, count_diagonals_anti_diagonal, hrows, hentries]
    exact spec_fill_guard_default_2000

theorem raised_ell_full_first_row_2000 (dst : csr_matrix Nat) :
    (convert_csr_ell example_conversions (full_first_row 2000) dst default_max_fill
      default_alignment).raised.isSome = true := by
  classical
  have hproj : example_conversions.compute_max_entries_per_row =
      compute_max_entries_per_row := rfl
  have hrows : ∀ n, (full_first_row n).num_rows = n := fun _ => rfl
  have hentries : ∀ n, (full_first_row n).num_entries = n := fun _ => rfl
  rw [convert_csr_ell_eq, if_pos]
  · rfl
  · rw [hproj, compute_max_entries_per_row_full_first_row, hrows, hentries]
    exact spec_fill_guard_default_2000

/-- C7. Conversion failure is atomic: for a source of any format and a DIA or ELL
destination, whenever `convert(src, dst)` raises the format-conversion error, on
the direct CSR path or on the two-hop path through a temporary CSR, `dst` is in
the state it had before the call.  (`src` is taken by reference to const and is
not part of the state a call changes.) -/
theorem convert_failure_atomic {α Dia Ell Hyb : Type} (P : conversions α Dia Ell Hyb)
    (src : matrix α Dia Ell Hyb) (csr : csr_matrix α) (d : Dia) (e : Ell)
    (max_fill : ℚ) (alignment : Nat) :
    ((convert_dia P src d).raised.isSome = true → (convert_dia P src d).dst = d) ∧
    ((convert_ell P src e).raised.isSome = true → (convert_ell P src e).dst = e) ∧
    ((convert_csr_dia P csr d max_fill alignment).raised.isSome = true →
      (convert_csr_dia P csr d max_fill alignment).dst = d) ∧
    ((convert_csr_ell P csr e max_fill alignment).raised.isSome = true →
      (convert_csr_ell P csr e max_fill alignment).dst = e) := by
  refine ⟨?_, ?_, convert_csr_dia_dst_of_raised P csr d max_fill alignment,
    convert_csr_ell_dst_of_raised P csr e max_fill alignment⟩
  · cases src <;> exact convert_csr_dia_dst_of_raised P _ d _ _
  · cases src <;> exact convert_csr_ell_dst_of_raised P _ e _ _

/-- Witness of C7: under the defaults the 2000×2000 anti-diagonal matrix is
rejected for a DIA destination, as a CSR source and as an ELL source going through
the temporary CSR, and the 2000×2000 matrix with a full first row is rejected for
an ELL destination, as a CSR source and as a HYB source; each time the destination
keeps its prior state. -/
theorem convert_failure_atomic_witness :
    ((convert_dia example_conversions (matrix.csr (anti_diagonal 2000))
        example_csr).raised.isSome = true ∧
      (convert_dia example_conversions (matrix.csr (anti_diagonal 2000))
        example_csr).dst = example_csr) ∧
    ((convert_dia example_conversions (matrix.ell (anti_diagonal 2000))
        example_csr).raised.isSome = true ∧
      (convert_dia example_conversions (matrix.ell (anti_diagonal 2000))
        example_csr).dst = example_csr) ∧
    ((convert_ell example_conversions (matrix.csr (full_first_row 2000))
        example_csr).raised.isSome = true ∧
      (convert_ell example_conversions (matrix.csr (full_first_row 2000))
        example_csr).dst = example_csr) ∧
    ((convert_ell example_conversions (matrix.hyb (full_first_row 2000))
        example_csr).raised.isSome = true ∧
      (convert_ell example_conversions (matrix.hyb (full_first_row 2000))
        example_csr).dst = example_csr) := by
  have h1 : (convert_dia example_conversions (matrix.csr (anti_diagonal 2000))
      example_csr).raised.isSome = true := raised_dia_anti_diagonal_2000 example_csr
  have h2 : (convert_dia example_conversions (matrix.ell (anti_diagonal 2000))
      example_csr).raised.isSome = true := raised_dia_anti_diagonal_2000 example_csr
  have h3 : (convert_ell example_conversions (matrix.csr (full_first_row 2000))
      example_csr).raised.isSome = true := raised_ell_full_first_row_2000 example_csr
  have h4 : (convert_ell example_conversions (matrix.hyb (full_first_row 2000))
      example_csr).raised.isSome = true := raised_ell_full_first_row_2000 example_csr
  exact ⟨⟨h1, (convert_failure_atomic example_conversions (matrix.csr (anti_diagonal 2000))
      example_csr example_csr example_csr 3 32).1 h1⟩,
    ⟨h2, (convert_failure_atomic example_conversions (matrix.ell (anti_diagonal 2000))
      example_csr example_csr example_csr 3 32).1 h2⟩,
    ⟨h3, (convert_failure_atomic example_conversions (matrix.csr (full_first_row 2000))
      example_csr example_csr example_csr 3 32).2.1 h3⟩,
    ⟨h4, (convert_failure_atomic example_conversions (matrix.hyb (full_first_row 2000))
      example_csr example_csr example_csr 3 32).2.1 h4⟩⟩

end cusp

open cusp cusp.detail cusp.detail.host

namespace cusp

section dispatch

variable {α Dia Ell Hyb : Type}

/-- A pair with a direct converter is served by it, whatever stands for the
nested calls. -/
theorem convert_with_of_direct (P : conversions α Dia Ell Hyb)
    (inner : matrix α Dia Ell Hyb → matrix α Dia Ell Hyb →
      Option (outcome (matrix α Dia Ell Hyb)))
    (src dst : matrix α Dia Ell Hyb) (h : (src.format, dst.format) ∈ direct_pairs) :
    convert_with P inner src dst = direct_converter P src dst ∧
      (direct_converter P src dst).isSome = true := by
  cases src <;> cases dst <;> simp only [matrix.format] at h <;>
    first
    | exact ⟨rfl, rfl⟩
    | exact absurd h (by decide)

/-- A pair without a direct converter, other than CSR to CSR, is served by the
generic overload. -/
theorem convert_with_of_not_direct (P : conversions α Dia Ell Hyb)
    (inner : matrix α Dia Ell Hyb → matrix α Dia Ell Hyb →
      Option (outcome (matrix α Dia Ell Hyb)))
    (src dst : matrix α Dia Ell Hyb) (h : (src.format, dst.format) ∉ direct_pairs)
    (hcsr : ¬ (src.format = format.csr ∧ dst.format = format.csr)) :
    convert_with P inner src dst = convert_through_csr inner src dst ∧
      direct_converter P src dst = none ∧
      (src.format, format.csr) ∈ direct_pairs ∧ (format.csr, dst.format) ∈ direct_pairs := by
  cases src <;> cases dst <;> simp only [matrix.format] at h ⊢ <;>
    first
    | exact ⟨rfl, rfl, by decide, by decide⟩
    | exact absurd (by decide) h
    | exact absurd ⟨rfl, rfl⟩ hcsr

/-- The first hop of a pair whose source is not CSR returns a CSR matrix and
raises nothing. -/
theorem direct_converter_into_csr (P : conversions α Dia Ell Hyb)
    (src : matrix α Dia Ell Hyb) (D : csr_matrix α)
    (h : (src.format, format.csr) ∈ direct_pairs) :
    ∃ tmp, direct_converter P src (matrix.csr D) =
      some { dst := matrix.csr tmp, raised := none } := by
  cases src <;> simp only [matrix.format] at h <;>
    first
    | exact ⟨_, rfl⟩
    | exact absurd h (by decide)

theorem convert_succ (P : conversions α Dia Ell Hyb) (fuel : Nat)
    (src dst : matrix α Dia Ell Hyb) :
    convert P (fuel + 1) src dst = convert_with P (convert P fuel) src dst := rfl

/-- The two hops of a pair without a direct converter. -/
theorem convert_two_hops (P : conversions α Dia Ell Hyb) (fuel : Nat)
    (src dst : matrix α Dia Ell Hyb) (h : (src.format, dst.format) ∉ direct_pairs)
    (hcsr : ¬ (src.format = format.csr ∧ dst.format = format.csr)) :
    ∃ tmp, convert P fuel src (matrix.csr csr_matrix.empty) =
        some { dst := matrix.csr tmp, raised := none } ∧
      direct_converter P src (matrix.csr csr_matrix.empty) =
        some { dst := matrix.csr tmp, raised := none } ∧
      convert P (fuel + 1) src dst = direct_converter P (matrix.csr tmp) dst ∧
      convert_through_csr (direct_converter P) src dst =
        direct_converter P (matrix.csr tmp) dst ∧
      (direct_converter P (matrix.csr tmp) dst).isSome = true := by
  obtain ⟨h1, -, h3, h4⟩ := convert_with_of_not_direct P (convert P fuel) src dst h hcsr
  obtain ⟨tmp, htmp⟩ := direct_converter_into_csr P src csr_matrix.empty h3
  have hfirst : convert P fuel src (matrix.csr csr_matrix.empty) =
      some { dst := matrix.csr tmp, raised := none } := by
    rw [← htmp]
    exact (convert_with_of_direct P _ src (matrix.csr csr_matrix.empty) h3).1
  have hsecond := convert_with_of_direct P (convert_nested P fuel) (matrix.csr tmp) dst h4
  refine ⟨tmp, hfirst, htmp, ?_, ?_, hsecond.2⟩
  · rw [convert_succ, h1]
    simp only [convert_through_csr, hfirst]
    exact hsecond.1
  · simp only [convert_through_csr, htmp]

end dispatch

/-- C11. Format-pair dispatch of `convert`: for every ordered pair of format tags
other than CSR→CSR, `convert(src, dst)` is the direct converter when the pair is
one of COO←{CSR, ELL, HYB, Dense2D}, CSR←{COO, DIA, ELL, HYB, Dense2D}, DIA←CSR,
ELL←CSR, HYB←CSR, Dense2D←{COO, CSR, Dense2D}; for every other pair (same-format
pairs included) it is `convert(src, csr_tmp)` followed by `convert(csr_tmp, dst)`,
both hops being pairs with a direct converter, so a conversion completes in at
most two direct conversions: one level of nested calls gives the result, which is
the one the spec describes. -/
theorem convert_dispatch {α Dia Ell Hyb : Type} (P : conversions α Dia Ell Hyb)
    (fuel : Nat) (src dst : matrix α Dia Ell Hyb)
    (hcsr : ¬ (src.format = format.csr ∧ dst.format = format.csr)) :
    ((src.format, dst.format) ∈ direct_pairs →
      convert P fuel src dst = direct_converter P src dst ∧
        (direct_converter P src dst).isSome = true) ∧
    ((src.format, dst.format) ∉ direct_pairs →
      direct_converter P src dst = none ∧
      (src.format, format.csr) ∈ direct_pairs ∧ (format.csr, dst.format) ∈ direct_pairs ∧
      convert P (fuel + 1) src dst = convert_through_csr (convert P fuel) src dst ∧
      ∃ tmp, convert P fuel src (matrix.csr csr_matrix.empty) =
          some { dst := matrix.csr tmp, raised := none } ∧
        direct_converter P src (matrix.csr csr_matrix.empty) =
          some { dst := matrix.csr tmp, raised := none } ∧
        convert P fuel (matrix.csr tmp) dst = direct_converter P (matrix.csr tmp) dst ∧
        convert P (fuel + 1) src dst = direct_converter P (matrix.csr tmp) dst) ∧
    convert P (fuel + 1) src dst = spec_convert P src dst ∧
    (convert P (fuel + 1) src dst).isSome = true := by
  refine ⟨fun h => convert_with_of_direct P _ src dst h, ?_, ?_⟩
  · intro h
    obtain ⟨h1, h2, h3, h4⟩ := convert_with_of_not_direct P (convert P fuel) src dst h hcsr
    obtain ⟨tmp, ht1, ht2, ht3, -, -⟩ := convert_two_hops P fuel src dst h hcsr
    exact ⟨h2, h3, h4, by rw [convert_succ, h1], tmp, ht1, ht2,
      (convert_with_of_direct P _ (matrix.csr tmp) dst h4).1, ht3⟩
  · by_cases h : (src.format, dst.format) ∈ direct_pairs
    · obtain ⟨h1, h2⟩ := convert_with_of_direct P (convert_nested P (fuel + 1)) src dst h
      obtain ⟨r, hr⟩ := Option.isSome_iff_exists.1 h2
      have hc : convert P (fuel + 1) src dst = direct_converter P src dst := h1
      refine ⟨?_, by rw [hc]; exact h2⟩
      rw [hc, spec_convert, hr]
    · obtain ⟨-, h2, -, -⟩ := convert_with_of_not_direct P (convert P fuel) src dst h hcsr
      obtain ⟨tmp, -, -, ht3, ht4, ht5⟩ := convert_two_hops P fuel src dst h hcsr
      refine ⟨?_, by rw [ht3]; exact ht5⟩
      rw [ht3, spec_convert, h2, ht4]

/-- Witness of C11: COO→COO has no direct converter and goes through CSR; CSR→COO
is served by its direct converter. -/
theorem convert_dispatch_witness :
    ¬ ((matrix.coo example_coo :
          matrix Nat (csr_matrix Nat) (csr_matrix Nat) (csr_matrix Nat)).format = format.csr ∧
        (matrix.coo example_coo :
          matrix Nat (csr_matrix Nat) (csr_matrix Nat) (csr_matrix Nat)).format = format.csr) ∧
    (format.coo, format.coo) ∉ direct_pairs ∧
    (format.csr, format.coo) ∈ direct_pairs ∧
    convert example_conversions 1 (matrix.coo example_coo) (matrix.coo example_coo) =
      spec_convert example_conversions (matrix.coo example_coo) (matrix.coo example_coo) ∧
    convert example_conversions 0 (matrix.csr example_csr) (matrix.coo example_coo) =
      direct_converter example_conversions (matrix.csr example_csr) (matrix.coo example_coo) :=
  ⟨by decide, by decide, by decide,
    (convert_dispatch example_conversions 0 (matrix.coo example_coo)
      (matrix.coo example_coo) (by decide)).2.2.1,
    ((convert_dispatch example_conversions 0 (matrix.csr example_csr)
      (matrix.coo example_coo) (by decide)).1 (by decide)).1⟩

end cusp

open cusp cusp.detail cusp.detail.host

namespace cusp

/-- C12. Generic transpose fallback: `transpose(A, At)` uses a format-specific
algorithm exactly for the tag pairs (COO, COO), (CSR, CSR) and (Dense2D,
Dense2D); for every other pair, mixed pairs of special-cased formats included, it
is the default case, whose result is: convert `A` to a CSR matrix (a copy when it
already is one), apply the CSR transpose algorithm, and convert that result into
the format of `At` (a copy when `At` is CSR). -/
theorem transpose_dispatch {α Dia Ell Hyb : Type} [Inhabited α]
    (P : conversions α Dia Ell Hyb) (A At : matrix α Dia Ell Hyb) :
    (∀ C D : coo_matrix α, transpose P (matrix.coo C) (matrix.coo D) =
      { dst := matrix.coo (transpose_coo C D), raised := none }) ∧
    (∀ C D : csr_matrix α, transpose P (matrix.csr C) (matrix.csr D) =
      { dst := matrix.csr (transpose_csr C D), raised := none }) ∧
    (∀ (so dor : orientation) (C : array2d α so) (D : array2d α dor),
      transpose P (matrix.array2d so C) (matrix.array2d dor D) =
        { dst := matrix.array2d dor (transpose_array2d C D), raised := none }) ∧
    ((A.format, At.format) ∉ specific_transpose_pairs →
      transpose P A At = transpose_generic P A At ∧
      transpose P A At =
        assign_csr P At (transpose_csr (csr_of_matrix P A) csr_matrix.empty) ∧
      spec_to_csr P A = some (csr_of_matrix P A) ∧
      spec_transpose_via_csr P A At = some (transpose P A At)) := by
  refine ⟨fun _ _ => rfl, fun _ _ => rfl, fun _ _ _ _ => rfl, ?_⟩
  intro h
  cases A <;> cases At <;> simp only [matrix.format] at h <;>
    first
    | exact ⟨rfl, rfl, rfl, rfl⟩
    | exact absurd (by decide) h

/-- Witness of C12: transposing the COO example into a CSR destination goes
through the default case. -/
theorem transpose_dispatch_witness :
    (format.coo, format.csr) ∉ specific_transpose_pairs ∧
    spec_transpose_via_csr example_conversions (matrix.coo example_coo)
        (matrix.csr example_csr) =
      some (transpose example_conversions (matrix.coo example_coo) (matrix.csr example_csr)) :=
  ⟨by decide,
    ((transpose_dispatch example_conversions (matrix.coo example_coo)
      (matrix.csr example_csr)).2.2.2 (by decide)).2.2.2⟩

end cusp

open cusp cusp.detail cusp.detail.host

namespace cusp

section two_hop

variable {α Dia Ell Hyb : Type}

theorem raised_convert_csr_dia_iff (P : conversions α Dia Ell Hyb) (src : csr_matrix α)
    (dst : Dia) (max_fill : ℚ) (alignment : Nat) :
    (convert_csr_dia P src dst max_fill alignment).raised.isSome = true ↔
      spec_fill_guard (P.count_diagonals src) src.num_rows src.num_entries max_fill := by
  classical
  rw [convert_csr_dia_eq]
  split_ifs with h <;> simp [h]

theorem raised_convert_csr_ell_iff (P : conversions α Dia Ell Hyb) (src : csr_matrix α)
    (dst : Ell) (max_fill : ℚ) (alignment : Nat) :
    (convert_csr_ell P src dst max_fill alignment).raised.isSome = true ↔
      spec_fill_guard (P.compute_max_entries_per_row src) src.num_rows src.num_entries
        max_fill := by
  classical
  rw [convert_csr_ell_eq]
  split_ifs with h <;> simp [h]

/-- The entry point on a DIA destination is `convert_dia`. -/
theorem convert_into_dia (P : conversions α Dia Ell Hyb) (fuel : Nat)
    (src : matrix α Dia Ell Hyb) (d : Dia) (hsrc : src.format ≠ format.csr) :
    convert P (fuel + 1) src (matrix.dia d) = lift_outcome matrix.dia (convert_dia P src d) ∧
    ∃ tmp, convert P fuel src (matrix.csr csr_matrix.empty) =
        some { dst := matrix.csr tmp, raised := none } ∧
      convert_dia P src d = convert_csr_dia P tmp d default_max_fill default_alignment := by
  cases src <;>
    first
    | exact absurd rfl hsrc
    | exact ⟨rfl, _, rfl, rfl⟩

/-- The entry point on an ELL destination is `convert_ell`. -/
theorem convert_into_ell (P : conversions α Dia Ell Hyb) (fuel : Nat)
    (src : matrix α Dia Ell Hyb) (e : Ell) (hsrc : src.format ≠ format.csr) :
    convert P (fuel + 1) src (matrix.ell e) = lift_outcome matrix.ell (convert_ell P src e) ∧
    ∃ tmp, convert P fuel src (matrix.csr csr_matrix.empty) =
        some { dst := matrix.csr tmp, raised := none } ∧
      convert_ell P src e = convert_csr_ell P tmp e default_max_fill default_alignment := by
  cases src <;>
    first
    | exact absurd rfl hsrc
    | exact ⟨rfl, _, rfl, rfl⟩

end two_hop

/-- Counterexample to C13: an ELL source whose temporary CSR is the 2000×2000
anti-diagonal matrix (`d·num_rows = 4,000,000`, fill ratio 2000) is not in CSR
format, and its conversion into a DIA destination raises the format-conversion
error. -/
theorem two_hop_never_raises_counterexample :
    (matrix.ell (anti_diagonal 2000) :
      matrix Nat (csr_matrix Nat) (csr_matrix Nat) (csr_matrix Nat)).format ≠ format.csr ∧
    convert example_conversions 0 (matrix.ell (anti_diagonal 2000))
        (matrix.csr csr_matrix.empty) =
      some { dst := matrix.csr (anti_diagonal 2000), raised := none } ∧
    spec_fill_guard (example_conversions.count_diagonals (anti_diagonal 2000))
      (anti_diagonal 2000).num_rows (anti_diagonal 2000).num_entries 3 ∧
    (convert_dia example_conversions (matrix.ell (anti_diagonal 2000))
      example_csr).raised ≠ none := by
  have hr := raised_dia_anti_diagonal_2000 example_csr
  refine ⟨by decide, rfl, ?_, ?_⟩
  · exact (raised_convert_csr_dia_iff example_conversions (anti_diagonal 2000) example_csr
      3 32).1 hr
  · intro hnone
    have hr' : (convert_dia example_conversions (matrix.ell (anti_diagonal 2000))
        example_csr).raised.isSome = true := hr
    rw [hnone] at hr'
    exact absurd hr' (by decide)

/-- C13, amended. The fill-ratio rejection applies on the generic two-hop fallback
too: for every source in a format other than CSR, `convert(src, dst)` into a DIA
(resp. ELL) destination converts the source into a temporary CSR and raises the
format-conversion error exactly when that temporary has
`d·num_rows / max(1, num_entries) > 3.0` and `d·num_rows > 1,000,000` (resp. with
`R` in place of `d`). -/
theorem two_hop_guard {α Dia Ell Hyb : Type} (P : conversions α Dia Ell Hyb)
    (fuel : Nat) (src : matrix α Dia Ell Hyb) (d : Dia) (e : Ell)
    (hsrc : src.format ≠ format.csr) :
    ∃ tmp, convert P fuel src (matrix.csr csr_matrix.empty) =
        some { dst := matrix.csr tmp, raised := none } ∧
      convert P (fuel + 1) src (matrix.dia d) =
        lift_outcome matrix.dia (convert_csr_dia P tmp d default_max_fill default_alignment) ∧
      convert P (fuel + 1) src (matrix.ell e) =
        lift_outcome matrix.ell (convert_csr_ell P tmp e default_max_fill default_alignment) ∧
      ((convert_dia P src d).raised.isSome = true ↔
        spec_fill_guard (P.count_diagonals tmp) tmp.num_rows tmp.num_entries 3) ∧
      ((convert_ell P src e).raised.isSome = true ↔
        spec_fill_guard (P.compute_max_entries_per_row tmp) tmp.num_rows tmp.num_entries 3) := by
  obtain ⟨h1, tmp, h2, h3⟩ := convert_into_dia P fuel src d hsrc
  obtain ⟨h4, tmp', h5, h6⟩ := convert_into_ell P fuel src e hsrc
  have htmp : tmp' = tmp := by
    rw [h2] at h5
    simpa using h5.symm
  subst htmp
  refine ⟨tmp', h2, ?_, ?_, ?_, ?_⟩
  · rw [h1, h3]
  · rw [h4, h6]
  · rw [h3]; exact raised_convert_csr_dia_iff P tmp' d _ _
  · rw [h6]; exact raised_convert_csr_ell_iff P tmp' e _ _

/-- Witness of C13 amended: the ELL source whose temporary CSR is the 2000×2000
anti-diagonal matrix is rejected on the way to a DIA destination. -/
theorem two_hop_guard_witness :
    (matrix.ell (anti_diagonal 2000) :
      matrix Nat (csr_matrix Nat) (csr_matrix Nat) (csr_matrix Nat)).format ≠ format.csr ∧
    ∃ tmp, convert example_conversions 0 (matrix.ell (anti_diagonal 2000))
        (matrix.csr csr_matrix.empty) = some { dst := matrix.csr tmp, raised := none } ∧
      ((convert_dia example_conversions (matrix.ell (anti_diagonal 2000))
          example_csr).raised.isSome = true ↔
        spec_fill_guard (example_conversions.count_diagonals tmp) tmp.num_rows
          tmp.num_entries 3) := by
  obtain ⟨tmp, h1, -, -, h2, -⟩ := two_hop_guard example_conversions 0
    (matrix.ell (anti_diagonal 2000)) example_csr example_csr (by decide)
  exact ⟨by decide, tmp, h1, h2⟩

end cusp

open cusp cusp.detail cusp.detail.host

namespace cusp

/-- C14, the code at a padded source. For the 2×2 row-major array `[[1,2],[3,4]]`
stored with pitch 3 (pitch above the minor dimension, buffer of pitch × major
dimension elements), transposed into a row-major array: the position gathered for
destination coordinate `(0, 1)` is 2, computed from the dimensions, while the
address of `A(1, 0)` through the pitch is 3; `At(0, 1)` is the padding element 9
and `A(1, 0)` is 3. -/
theorem transpose_array2d_padded_source :
    minor_dimension example_padded.num_rows example_padded.num_cols orientation.row_major <
      example_padded.pitch ∧
    example_padded.values.length = example_padded.pitch *
      major_dimension example_padded.num_rows example_padded.num_cols orientation.row_major ∧
    transpose_index orientation.row_major orientation.row_major 2 2
      (index_of 0 1 (transpose_array2d example_padded
        (array2d.empty : array2d Nat orientation.row_major)).pitch orientation.row_major) = 2 ∧
    index_of 1 0 example_padded.pitch orientation.row_major = 3 ∧
    (transpose_array2d example_padded
      (array2d.empty : array2d Nat orientation.row_major)).get 0 1 = some 9 ∧
    example_padded.get 1 0 = some 3 := by
  decide

/-- C19, the code at padded sources. For the 2×2 row-major array stored with pitch
3 the gather visits the positions 0..5 while the freshly resized destination
buffer has 4 elements, so positions 4 and 5 lie outside it.  For the 0×3
column-major array stored with pitch 2 and a row-major destination the gather
visits six positions and the divisor of the index computation, the number of
columns of the 3×0 destination, is zero. -/
theorem transpose_array2d_padded_range :
    (minor_dimension example_padded.num_rows example_padded.num_cols orientation.row_major ≤
        example_padded.pitch ∧
      example_padded.values.length = example_padded.pitch *
        major_dimension example_padded.num_rows example_padded.num_cols
          orientation.row_major ∧
      transpose_array2d_positions example_padded = [0, 1, 2, 3, 4, 5] ∧
      ((array2d.empty : array2d Nat orientation.row_major).resize example_padded.num_cols
        example_padded.num_rows).values.length = 4) ∧
    (minor_dimension example_padded_empty.num_rows example_padded_empty.num_cols
        orientation.column_major ≤ example_padded_empty.pitch ∧
      example_padded_empty.values.length = example_padded_empty.pitch *
        major_dimension example_padded_empty.num_rows example_padded_empty.num_cols
          orientation.column_major ∧
      transpose_array2d_positions example_padded_empty = [0, 1, 2, 3, 4, 5] ∧
      linear_index_divisor example_padded_empty.num_cols example_padded_empty.num_rows
        orientation.row_major = 0) := by
  decide

/-- C15. Dense2D element addressing: for an `array2d` and an `array2d_view` with
pitch `p`, element access `(i, j)` refers to `values[i·p + j]` when the
orientation is row-major and to `values[j·p + i]` when it is column-major, for
the read-only accessor and for the read/write accessor alike; a value written
through the read/write accessor at a position inside the buffer is the value the
read-only accessor returns. -/
theorem element_addressing {α : Type}
    (Ar : array2d α orientation.row_major) (Ac : array2d α orientation.column_major)
    (Vr : array2d_view α orientation.row_major) (Vc : array2d_view α orientation.column_major)
    (i j : Nat) (v : α) :
    (Ar.get i j = Ar.values[i * Ar.pitch + j]? ∧
      (Ar.set i j v).values = Ar.values.set (i * Ar.pitch + j) v ∧
      (i * Ar.pitch + j < Ar.values.length → (Ar.set i j v).get i j = some v)) ∧
    (Ac.get i j = Ac.values[j * Ac.pitch + i]? ∧
      (Ac.set i j v).values = Ac.values.set (j * Ac.pitch + i) v ∧
      (j * Ac.pitch + i < Ac.values.length → (Ac.set i j v).get i j = some v)) ∧
    (Vr.get i j = Vr.values[i * Vr.pitch + j]? ∧
      (Vr.set i j v).values = Vr.values.set (i * Vr.pitch + j) v ∧
      (i * Vr.pitch + j < Vr.values.length → (Vr.set i j v).get i j = some v)) ∧
    (Vc.get i j = Vc.values[j * Vc.pitch + i]? ∧
      (Vc.set i j v).values = Vc.values.set (j * Vc.pitch + i) v ∧
      (j * Vc.pitch + i < Vc.values.length → (Vc.set i j v).get i j = some v)) := by
  refine ⟨⟨rfl, rfl, ?_⟩, ⟨rfl, rfl, ?_⟩, ⟨rfl, rfl, ?_⟩, ⟨rfl, rfl, ?_⟩⟩
  · intro h
    simp only [array2d.get, array2d.set, index_of]
    rw [List.getElem?_set_self h]
  · intro h
    simp only [array2d.get, array2d.set, index_of]
    rw [List.getElem?_set_self h]
  · intro h
    simp only [array2d_view.get, array2d_view.set, index_of]
    rw [List.getElem?_set_self h]
  · intro h
    simp only [array2d_view.get, array2d_view.set, index_of]
    rw [List.getElem?_set_self h]

/-- Witness of C15: in the 2×3 row-major example, element `(1, 2)` is position
`1·3 + 2 = 5` of the buffer. -/
theorem element_addressing_witness :
    1 * example_2x3.pitch + 2 < example_2x3.values.length ∧
    example_2x3.get 1 2 = some 6 ∧
    (example_2x3.set 1 2 7).values = [1, 2, 3, 4, 5, 7] ∧
    (example_2x3.set 1 2 7).get 1 2 = some 7 :=
  ⟨by decide, by decide, by decide,
    (element_addressing example_2x3 (array2d.empty : array2d Nat orientation.column_major)
      (array2d_view.of_array2d example_2x3)
      (array2d_view.of_array2d (array2d.empty : array2d Nat orientation.column_major))
      1 2 7).1.2.2 (by decide)⟩

/-- C16. Dense2D construction and resize keep the layout invariant: after
`array2d(rows, cols)`, `array2d(rows, cols, fill)` or `resize(rows, cols)`,
whatever the previous state, the pitch is the minor dimension, the shape is
`rows × cols`, `num_entries = rows·cols` and the buffer has length
pitch × major dimension `= rows·cols`; after `resize(rows, cols, p)` the pitch is
`p`, `num_entries = rows·cols` and the buffer has length `p` × major dimension,
so the invariant `pitch ≥ minor dimension` holds exactly when
`p ≥ minor dimension`. -/
theorem construct_resize_layout {α : Type} [Inhabited α] (o : orientation)
    (A : array2d α o) (rows cols p : Nat) (fill : α) :
    ((array2d.construct rows cols : array2d α o).pitch = minor_dimension rows cols o ∧
      (array2d.construct rows cols : array2d α o).num_rows = rows ∧
      (array2d.construct rows cols : array2d α o).num_cols = cols ∧
      (array2d.construct rows cols : array2d α o).num_entries = rows * cols ∧
      (array2d.construct rows cols : array2d α o).values.length =
        (array2d.construct rows cols : array2d α o).pitch * major_dimension rows cols o ∧
      (array2d.construct rows cols : array2d α o).values.length = rows * cols) ∧
    ((array2d.construct_fill rows cols fill : array2d α o).pitch =
        minor_dimension rows cols o ∧
      (array2d.construct_fill rows cols fill : array2d α o).num_rows = rows ∧
      (array2d.construct_fill rows cols fill : array2d α o).num_cols = cols ∧
      (array2d.construct_fill rows cols fill : array2d α o).num_entries = rows * cols ∧
      (array2d.construct_fill rows cols fill : array2d α o).values.length =
        (array2d.construct_fill rows cols fill : array2d α o).pitch *
          major_dimension rows cols o ∧
      (array2d.construct_fill rows cols fill : array2d α o).values.length = rows * cols) ∧
    ((A.resize rows cols).pitch = minor_dimension rows cols o ∧
      (A.resize rows cols).num_rows = rows ∧
      (A.resize rows cols).num_cols = cols ∧
      (A.resize rows cols).num_entries = rows * cols ∧
      (A.resize rows cols).values.length =
        (A.resize rows cols).pitch * major_dimension rows cols o ∧
      (A.resize rows cols).values.length = rows * cols) ∧
    ((A.resize_pitch rows cols p).pitch = p ∧
      (A.resize_pitch rows cols p).num_rows = rows ∧
      (A.resize_pitch rows cols p).num_cols = cols ∧
      (A.resize_pitch rows cols p).num_entries = rows * cols ∧
      (A.resize_pitch rows cols p).values.length = p * major_dimension rows cols o ∧
      (minor_dimension rows cols o ≤ (A.resize_pitch rows cols p).pitch ↔
        minor_dimension rows cols o ≤ p)) := by
  have hmm := minor_mul_major rows cols o
  refine ⟨⟨rfl, rfl, rfl, rfl, ?_, ?_⟩, ⟨rfl, rfl, rfl, rfl, ?_, ?_⟩,
    ⟨rfl, rfl, rfl, rfl, ?_, ?_⟩, ⟨rfl, rfl, rfl, rfl, ?_, Iff.rfl⟩⟩
  · simp [array2d.construct, array2d.construct_fill, hmm]
  · simp [array2d.construct, array2d.construct_fill]
  · simp [array2d.construct_fill, hmm]
  · simp [array2d.construct_fill]
  · rw [length_values_resize]
    simp [array2d.resize, array2d.resize_pitch, hmm]
  · exact length_values_resize A rows cols
  · simp [array2d.resize_pitch, length_array1d_resize]

/-- C20. Dense2D addressing is in bounds and injective: for either orientation,
every shape and every pitch at least the minor dimension, the address of a valid
coordinate is below pitch × major dimension, two valid coordinates with the same
address are the same coordinate, and writing one element leaves every other
element as it was. -/
theorem index_of_in_bounds_injective {α : Type} (o : orientation)
    (rows cols pitch i j i' j' : Nat)
    (hp : minor_dimension rows cols o ≤ pitch)
    (hi : i < rows) (hj : j < cols) (hi' : i' < rows) (hj' : j' < cols) :
    index_of i j pitch o < pitch * major_dimension rows cols o ∧
    (index_of i j pitch o = index_of i' j' pitch o → i = i' ∧ j = j') ∧
    ∀ (A : array2d α o) (v : α), A.pitch = pitch → (i, j) ≠ (i', j') →
      (A.set i j v).get i' j' = A.get i' j' := by
  have hinj : index_of i j pitch o = index_of i' j' pitch o → i = i' ∧ j = j' := by
    cases o
    · simp only [index_of, minor_dimension] at hp ⊢
      intro h
      have hpos : 0 < pitch := by omega
      have h1 : (i * pitch + j) / pitch = i := by
        rw [Nat.add_comm, Nat.add_mul_div_right _ _ hpos, Nat.div_eq_of_lt (by omega)]; simp
      have h2 : (i' * pitch + j') / pitch = i' := by
        rw [Nat.add_comm, Nat.add_mul_div_right _ _ hpos, Nat.div_eq_of_lt (by omega)]; simp
      have hii : i = i' := by rw [← h1, ← h2, h]
      subst hii
      exact ⟨rfl, by omega⟩
    · simp only [index_of, minor_dimension] at hp ⊢
      intro h
      have hpos : 0 < pitch := by omega
      have h1 : (j * pitch + i) / pitch = j := by
        rw [Nat.add_comm, Nat.add_mul_div_right _ _ hpos, Nat.div_eq_of_lt (by omega)]; simp
      have h2 : (j' * pitch + i') / pitch = j' := by
        rw [Nat.add_comm, Nat.add_mul_div_right _ _ hpos, Nat.div_eq_of_lt (by omega)]; simp
      have hjj : j = j' := by rw [← h1, ← h2, h]
      subst hjj
      exact ⟨by omega, rfl⟩
  refine ⟨?_, hinj, ?_⟩
  · cases o
    · simp only [index_of, minor_dimension, major_dimension] at hp ⊢
      calc i * pitch + j < i * pitch + pitch := by omega
        _ = pitch * (i + 1) := by ring
        _ ≤ pitch * rows := Nat.mul_le_mul_left pitch hi
    · simp only [index_of, minor_dimension, major_dimension] at hp ⊢
      calc j * pitch + i < j * pitch + pitch := by omega
        _ = pitch * (j + 1) := by ring
        _ ≤ pitch * cols := Nat.mul_le_mul_left pitch hj
  · intro A v hA hne
    have hidx : index_of i j pitch o ≠ index_of i' j' pitch o := by
      intro h
      obtain ⟨h1, h2⟩ := hinj h
      exact hne (by rw [h1, h2])
    simp only [array2d.get, array2d.set, hA]
    exact List.getElem?_set_ne hidx

/-- Witness of C20: in the padded 2×2 row-major example with pitch 3, the
coordinates `(0, 1)` and `(1, 0)` have the distinct addresses 1 and 3, both below
`3 × 2`, and writing `(0, 1)` leaves `(1, 0)` as it was. -/
theorem index_of_in_bounds_injective_witness :
    minor_dimension 2 2 orientation.row_major ≤ 3 ∧
    index_of 0 1 3 orientation.row_major = 1 ∧
    index_of 1 0 3 orientation.row_major = 3 ∧
    index_of 0 1 3 orientation.row_major < 3 * major_dimension 2 2 orientation.row_major ∧
    (example_padded.set 0 1 7).get 1 0 = example_padded.get 1 0 := by
  obtain ⟨h1, -, h3⟩ := @index_of_in_bounds_injective Nat orientation.row_major 2 2 3 0 1 1 0
    (by decide) (by decide) (by decide) (by decide) (by decide)
  exact ⟨by decide, rfl, rfl, h1, h3 example_padded 7 rfl (by decide)⟩

end cusp

open cusp cusp.detail cusp.detail.host

namespace cusp

/-- For an unpadded source the gather visits exactly the positions of the resized
destination buffer, reads inside the source buffer, and divides by a non-zero
dimension whenever it visits a position. -/
theorem transpose_array2d_unpadded_range {α : Type} [Inhabited α] (so dor : orientation)
    (A : array2d α so) (At : array2d α dor)
    (hv : A.values.length = A.num_rows * A.num_cols) :
    transpose_array2d_positions A =
      List.range (At.resize A.num_cols A.num_rows).values.length ∧
    (∀ s ∈ transpose_array2d_sources so dor A, s < A.values.length) ∧
    (transpose_array2d_positions A ≠ [] →
      linear_index_divisor A.num_cols A.num_rows dor ≠ 0) := by
  refine ⟨?_, ?_, ?_⟩
  · rw [length_values_resize, transpose_array2d_positions, hv, Nat.mul_comm]
  · intro s hs
    simp only [transpose_array2d_sources, transpose_array2d_positions, List.mem_map,
      List.mem_range] at hs
    obtain ⟨l, hl, rfl⟩ := hs
    rw [hv]
    exact transpose_index_lt so dor (by rw [Nat.mul_comm]; rw [hv] at hl; exact hl)
  · intro hne
    have hpos : 0 < A.num_rows * A.num_cols := by
      rw [← hv]
      rcases Nat.eq_zero_or_pos A.values.length with h0 | h0
      · exact absurd (by simp [transpose_array2d_positions, h0]) hne
      · exact h0
    have h1 : 0 < A.num_rows := Nat.pos_of_mul_pos_right hpos
    have h2 : 0 < A.num_cols := Nat.pos_of_mul_pos_left hpos
    cases dor <;> simp only [linear_index_divisor] <;> omega

/-- C17. ELL width equals the longest row: for a CSR matrix accepted by the fill
guard, `convert` into ELL raises nothing and builds the destination by
`csr_to_ell(src, dst, R, alignment)` with `R` the maximum number of entries in any
row: the width handed over is `R` itself, not `R` rounded up to the alignment, so
for a `csr_to_ell` that gives the destination the width it is handed, the
destination has `max_entries_per_row = R`. -/
theorem convert_csr_ell_width {α Dia Ell Hyb : Type} (P : conversions α Dia Ell Hyb)
    (width_of : Ell → Nat) (src : csr_matrix α) (dst : Ell) (max_fill : ℚ) (alignment : Nat)
    (hw : ∀ s d w a, width_of (P.csr_to_ell s d w a) = w)
    (hacc : ¬ spec_fill_guard (P.compute_max_entries_per_row src) src.num_rows
      src.num_entries max_fill) :
    (convert_csr_ell P src dst max_fill alignment).raised = none ∧
    (convert_csr_ell P src dst max_fill alignment).dst =
      P.csr_to_ell src dst (P.compute_max_entries_per_row src) alignment ∧
    width_of (convert_csr_ell P src dst max_fill alignment).dst =
      P.compute_max_entries_per_row src := by
  classical
  rw [convert_csr_ell_eq, if_neg hacc]
  exact ⟨rfl, rfl, hw _ _ _ _⟩

/-- Witness of C17: the CSR matrix with row sizes 1, 3, 2 has `R = 3`, is accepted
under the defaults (`R·num_rows = 9`), and its ELL conversion has
`max_entries_per_row = 3` and 6 real entries. -/
theorem convert_csr_ell_width_witness :
    (∀ (s : csr_matrix Nat) (d : ell_matrix Nat) (w a : Nat),
      (example_ell_conversions.csr_to_ell s d w a).max_entries_per_row = w) ∧
    ¬ spec_fill_guard (example_ell_conversions.compute_max_entries_per_row example_rows_132)
      example_rows_132.num_rows example_rows_132.num_entries 3 ∧
    example_ell_conversions.compute_max_entries_per_row example_rows_132 = 3 ∧
    example_ell_conversions.compute_max_entries_per_row example_rows_132 *
      example_rows_132.num_rows = 9 ∧
    (convert_csr_ell example_ell_conversions example_rows_132 ell_matrix.empty 3 32).raised
      = none ∧
    (convert_csr_ell example_ell_conversions example_rows_132 ell_matrix.empty 3
      32).dst.max_entries_per_row = 3 ∧
    (csr_to_ell example_rows_132 ell_matrix.empty 3 32).real_entries = 6 ∧
    (csr_to_ell example_rows_132 ell_matrix.empty 3 32).column_indices =
      [[0, -1, -1], [0, 1, 2], [1, 2, -1]] := by
  have hw : ∀ (s : csr_matrix Nat) (d : ell_matrix Nat) (w a : Nat),
      (example_ell_conversions.csr_to_ell s d w a).max_entries_per_row = w :=
    fun _ _ _ _ => rfl
  have hR : example_ell_conversions.compute_max_entries_per_row example_rows_132 = 3 := by
    decide
  have hacc : ¬ spec_fill_guard
      (example_ell_conversions.compute_max_entries_per_row example_rows_132)
      example_rows_132.num_rows example_rows_132.num_entries 3 :=
    not_spec_fill_guard_of_le _ _ _ _ (by decide)
  obtain ⟨h1, -, h3⟩ := convert_csr_ell_width example_ell_conversions
    ell_matrix.max_entries_per_row example_rows_132 ell_matrix.empty 3 32 hw hacc
  exact ⟨hw, hacc, hR, by decide, h1, by rw [h3, hR], by decide, by decide⟩

/-- C18. COO transpose output is grouped by destination row and stable: for a COO
matrix whose arrays have length `num_entries`, after `transpose(A, At)` the array
`At.row_indices` is non-decreasing; the permutation is the payload of the stable
sort of `A.column_indices` paired with the identity sequence; and for every
column index `c` the entries of `A` with column `c` appear in `At` in the order
they have in `A`: the positions of `A` with column `c` occur in the permutation
in increasing order, and the entries of `At` in row `c` are the entries of `A`
in column `c`, in the same order. -/
theorem transpose_coo_sorted_stable {α : Type} [Inhabited α] (A At : coo_matrix α)
    (hr : A.row_indices.length = A.num_entries)
    (hc : A.column_indices.length = A.num_entries)
    (hv : A.values.length = A.num_entries) :
    (transpose_coo A At).row_indices.Sorted (· ≤ ·) ∧
    (stable_sort_by_key A.column_indices (sequence A.num_entries)).2 =
      (stable_sort Prod.fst (A.column_indices.zip (List.range A.num_entries))).map Prod.snd ∧
    (∀ c, (stable_sort_by_key A.column_indices (sequence A.num_entries)).2.filter
        (fun k => A.column_indices[k]? = some c) =
      (List.range A.num_entries).filter (fun k => A.column_indices[k]? = some c)) ∧
    (∀ c, (transpose_coo A At).entries.filter (fun e => e.1 = c) =
      (A.column_indices.zip (A.row_indices.zip A.values)).filter (fun e => e.1 = c)) := by
  have hs : A.column_indices.length = (sequence A.num_entries).length := by
    simp [sequence, hc]
  have hkey : ∀ x ∈ A.column_indices.zip (List.range A.num_entries),
      A.column_indices[x.2]? = some x.1 := by
    intro x hx
    obtain ⟨i, hi, rfl⟩ := List.mem_iff_getElem.1 hx
    simp only [List.length_zip, List.length_range] at hi
    simp only [List.getElem_zip, List.getElem_range]
    exact List.getElem?_eq_getElem _
  refine ⟨?_, ?_, ?_, ?_⟩
  · rw [transpose_coo_row_indices, stable_sort_by_key_fst_eq _ _ hs]
    exact sorted_stable_sort_id _
  · rw [stable_sort_by_key_snd _ _ hs]; rfl
  · intro c
    rw [stable_sort_by_key_snd _ _ hs]
    simp only [sequence]
    have hcongr : ∀ (L : List (Nat × Nat)),
        (∀ x ∈ L, A.column_indices[x.2]? = some x.1) →
        (L.map Prod.snd).filter (fun k => A.column_indices[k]? = some c) =
          (L.filter (fun e => e.1 = c)).map Prod.snd := by
      intro L hL
      rw [List.filter_map]
      congr 1
      apply List.filter_congr
      intro x hx
      simp only [Function.comp, hL x hx, Option.some.injEq]
    rw [hcongr _ (fun x hx => hkey x ((perm_stable_sort Prod.fst _).subset hx)),
      filter_stable_sort, ← hcongr _ hkey, List.map_snd_zip _ _ (by simp [hc])]
  · intro c
    rw [entries_transpose_coo A At hr hc hv, filter_stable_sort]

/-- Witness of C18: in the COO matrix with entries `(0,1,5)`, `(1,1,6)`, `(1,0,7)`,
the two entries of column 1 keep their order in row 1 of the transpose. -/
theorem transpose_coo_sorted_stable_witness :
    example_coo_dup.row_indices.length = example_coo_dup.num_entries ∧
    example_coo_dup.column_indices.length = example_coo_dup.num_entries ∧
    example_coo_dup.values.length = example_coo_dup.num_entries ∧
    (transpose_coo example_coo_dup example_coo_dup).entries =
      [(0, 1, 7), (1, 0, 5), (1, 1, 6)] ∧
    (transpose_coo example_coo_dup example_coo_dup).row_indices.Sorted (· ≤ ·) :=
  ⟨rfl, rfl, rfl, by decide,
    (transpose_coo_sorted_stable example_coo_dup example_coo_dup rfl rfl rfl).1⟩

end cusp

open cusp cusp.detail

namespace cusp

/-! ## Rows of the CSR transpose, double COO transpose, opposite orientations -/

/-- Row `j` of the transpose lists the entries of the source with column index
`j`, in storage order, each as (row index, value). -/
theorem row_transpose_csr {α : Type} [Inhabited α] (A At : csr_matrix α) (hA : A.valid)
    (j : Nat) (hj : j < A.num_cols) :
    (transpose_csr A At).row j =
      (A.entries.filter fun e => e.2.1 = j).map fun e => (e.1, e.2.2) := by
  rw [row_eq_filter_entries _ (valid_transpose_csr A At hA) j hj, entries_transpose_csr A At hA,
    filter_stable_sort, List.filter_map, List.map_map]
  rfl

theorem coo_matrix_ext {α : Type} (X Y : coo_matrix α) (h1 : X.num_rows = Y.num_rows)
    (h2 : X.num_cols = Y.num_cols) (h3 : X.num_entries = Y.num_entries)
    (h4 : X.row_indices = Y.row_indices) (h5 : X.column_indices = Y.column_indices)
    (h6 : X.values = Y.values) : X = Y := by
  cases X; cases Y; simp_all

/-- The three arrays of a COO matrix are the components of its entries. -/
theorem arrays_of_entries {α : Type} (A : coo_matrix α)
    (hr : A.row_indices.length = A.num_entries)
    (hc : A.column_indices.length = A.num_entries)
    (hv : A.values.length = A.num_entries) :
    A.row_indices = A.entries.map (fun e => e.1) ∧
    A.column_indices = A.entries.map (fun e => e.2.1) ∧
    A.values = A.entries.map (fun e => e.2.2) := by
  have h1 : A.entries.map Prod.fst = A.row_indices := by
    rw [coo_matrix.entries, List.map_fst_zip]
    simp; omega
  have h2 : A.entries.map Prod.snd = A.column_indices.zip A.values := by
    rw [coo_matrix.entries, List.map_snd_zip]
    simp; omega
  have h3 : (A.column_indices.zip A.values).map Prod.fst = A.column_indices :=
    List.map_fst_zip _ _ (by omega)
  have h4 : (A.column_indices.zip A.values).map Prod.snd = A.values :=
    List.map_snd_zip _ _ (by omega)
  refine ⟨h1.symm, ?_, ?_⟩
  · rw [← h3, ← h2, List.map_map]; rfl
  · rw [← h4, ← h2, List.map_map]; rfl

/-- The entries of the double COO transpose are the entries of the source, stably
sorted by row, then column. -/
theorem entries_transpose_transpose_coo {α : Type} [Inhabited α] (A B C : coo_matrix α)
    (hr : A.row_indices.length = A.num_entries)
    (hc : A.column_indices.length = A.num_entries)
    (hv : A.values.length = A.num_entries) :
    (transpose_coo (transpose_coo A B) C).entries = A.sorted_entries := by
  obtain ⟨hr1, hc1, hv1⟩ := transpose_coo_lengths A B hc
  have hT : (transpose_coo A B).entries =
      (stable_sort (fun e => e.2.1) A.entries).map fun e => (e.2.1, e.1, e.2.2) := by
    rw [entries_transpose_coo A B hr hc hv, ← stable_sort_map_swap, coo_matrix.entries,
      map_swap_zip]
  rw [entries_transpose_coo _ C hr1 hc1 hv1]
  have hswap : (transpose_coo A B).column_indices.zip
      ((transpose_coo A B).row_indices.zip (transpose_coo A B).values) =
      (transpose_coo A B).entries.map fun e => (e.2.1, e.1, e.2.2) := by
    rw [coo_matrix.entries, map_swap_zip]
  rw [hswap, hT, map_swap_swap, coo_matrix.sorted_entries]
  exact stable_sort_stable_sort_eq_lex (fun e => e.1) (fun e => e.2.1) A.entries

/-- C21. The CSR transpose returns column-sorted rows: for every valid CSR matrix
`A`, whatever the order of the column indices inside its rows, every row of the
`At` produced by `transpose(A, At)` has its column indices in non-decreasing
order, and in strictly increasing order when `A` stores no coordinate `(i, j)`
twice. -/
theorem transpose_csr_rows_sorted {α : Type} [Inhabited α] (A At : csr_matrix α)
    (hA : A.valid) (j : Nat) (hj : j < A.num_cols) :
    (((transpose_csr A At).row j).map Prod.fst).Sorted (· ≤ ·) ∧
    (A.coordinates.Nodup → (((transpose_csr A At).row j).map Prod.fst).Sorted (· < ·)) := by
  rw [row_transpose_csr A At hA j hj, List.map_map]
  have hsorted := sorted_entries A hA
  refine ⟨?_, ?_⟩
  · rw [List.Sorted, List.pairwise_map]
    exact hsorted.sublist (List.filter_sublist _)
  · intro hnd
    rw [csr_matrix.coordinates, List.Nodup, List.pairwise_map] at hnd
    rw [List.Sorted, List.pairwise_map]
    have hboth := (hsorted.and hnd).sublist
      (List.filter_sublist (p := fun e => decide (e.2.1 = j)) (l := A.entries))
    refine hboth.imp_of_mem ?_
    intro a b ha hb hab
    have ha' : a.2.1 = j := by simpa using (List.mem_filter.1 ha).2
    have hb' : b.2.1 = j := by simpa using (List.mem_filter.1 hb).2
    simp only [Function.comp]
    have hne : a.1 ≠ b.1 := by
      intro h
      exact hab.2 (Prod.ext h (by simp only; rw [ha', hb']))
    have := hab.1
    omega

/-- Witness of C21: the rows of the transpose of the example with unsorted rows
and a repeated coordinate are non-decreasing, and those of the transpose of the
example with row sizes 1, 3, 2, which repeats no coordinate, are strictly
increasing. -/
theorem transpose_csr_rows_sorted_witness :
    example_csr.valid ∧ example_rows_132.valid ∧ example_rows_132.coordinates.Nodup ∧
    (transpose_csr example_csr example_csr).row 1 = [(2, 30), (2, 40)] ∧
    (((transpose_csr example_csr example_csr).row 1).map Prod.fst).Sorted (· ≤ ·) ∧
    (((transpose_csr example_rows_132 example_csr).row 1).map Prod.fst).Sorted (· < ·) := by
  have h1 : example_csr.valid := ⟨rfl, by decide, rfl, rfl, rfl, rfl, by decide⟩
  have h2 : example_rows_132.valid := ⟨rfl, by decide, rfl, rfl, rfl, rfl, by decide⟩
  have h3 : example_rows_132.coordinates.Nodup := by decide
  exact ⟨h1, h2, h3, by decide,
    (transpose_csr_rows_sorted example_csr example_csr h1 1 (by decide)).1,
    (transpose_csr_rows_sorted example_rows_132 example_csr h2 1 (by decide)).2 h3⟩

/-- C22. Double COO transpose is a canonical reordering: for a COO matrix whose
arrays have length `num_entries`, the arrays of `transpose(transpose(A))` are the
entries of `A` stably sorted by row index, then column index, ties kept in the
order of `A`; so `transpose(transpose(A))` equals `A` array for array if and only
if the entries of `A` are in non-decreasing lexicographic (row, column) order. -/
theorem transpose_coo_twice {α : Type} [Inhabited α] (A B C : coo_matrix α)
    (hr : A.row_indices.length = A.num_entries)
    (hc : A.column_indices.length = A.num_entries)
    (hv : A.values.length = A.num_entries) :
    (transpose_coo (transpose_coo A B) C).entries = A.sorted_entries ∧
    (transpose_coo (transpose_coo A B) C).row_indices =
      A.sorted_entries.map (fun e => e.1) ∧
    (transpose_coo (transpose_coo A B) C).column_indices =
      A.sorted_entries.map (fun e => e.2.1) ∧
    (transpose_coo (transpose_coo A B) C).values =
      A.sorted_entries.map (fun e => e.2.2) ∧
    A.sorted_entries.Pairwise (fun a b => lex_le (a.1, a.2.1) (b.1, b.2.1)) ∧
    A.sorted_entries.Perm A.entries ∧
    (∀ i j, A.sorted_entries.filter (fun e => (e.1, e.2.1) = (i, j)) =
      A.entries.filter (fun e => (e.1, e.2.1) = (i, j))) ∧
    (transpose_coo (transpose_coo A B) C = A ↔ A.lex_sorted) := by
  obtain ⟨hr1, hc1, hv1⟩ := transpose_coo_lengths A B hc
  obtain ⟨hr2, hc2, hv2⟩ := transpose_coo_lengths (transpose_coo A B) C hc1
  have hent := entries_transpose_transpose_coo A B C hr hc hv
  obtain ⟨ha1, ha2, ha3⟩ := arrays_of_entries (transpose_coo (transpose_coo A B) C) hr2 hc2 hv2
  obtain ⟨hb1, hb2, hb3⟩ := arrays_of_entries A hr hc hv
  rw [hent] at ha1 ha2 ha3
  refine ⟨hent, ha1, ha2, ha3, sorted_stable_sort_lex _ _ _, perm_stable_sort_lex _ _ _,
    fun i j => filter_stable_sort_lex _ _ (i, j) _, ?_, ?_⟩
  · intro h
    have hs : A.sorted_entries = A.entries := by rw [← hent, h]
    have := sorted_stable_sort_lex (fun e : Nat × Nat × α => e.1) (fun e => e.2.1) A.entries
    rw [coo_matrix.lex_sorted, ← hs]
    exact this
  · intro h
    have hs : A.sorted_entries = A.entries :=
      stable_sort_lex_of_sorted (fun e : Nat × Nat × α => e.1) (fun e => e.2.1) A.entries h
    rw [hs] at ha1 ha2 ha3
    exact coo_matrix_ext _ _ rfl rfl rfl (ha1.trans hb1.symm) (ha2.trans hb2.symm)
      (ha3.trans hb3.symm)

/-- Witness of C22: the entries `(0,1,5)`, `(1,1,6)`, `(1,0,7)` come back as
`(0,1,5)`, `(1,0,7)`, `(1,1,6)`, and the entries `(0,1,5)`, `(1,0,7)`, already in
order, come back unchanged. -/
theorem transpose_coo_twice_witness :
    example_coo_dup.row_indices.length = example_coo_dup.num_entries ∧
    example_coo_dup.column_indices.length = example_coo_dup.num_entries ∧
    example_coo_dup.values.length = example_coo_dup.num_entries ∧
    example_coo_dup.sorted_entries = [(0, 1, 5), (1, 0, 7), (1, 1, 6)] ∧
    (transpose_coo (transpose_coo example_coo_dup example_coo) example_coo).entries =
      example_coo_dup.sorted_entries ∧
    example_coo.lex_sorted ∧
    transpose_coo (transpose_coo example_coo example_coo_dup) example_coo_dup = example_coo := by
  have hs : example_coo.lex_sorted := by
    unfold coo_matrix.lex_sorted lex_le
    decide
  exact ⟨rfl, rfl, rfl, by decide,
    (transpose_coo_twice example_coo_dup example_coo example_coo rfl rfl rfl).1, hs,
    (transpose_coo_twice example_coo example_coo_dup example_coo_dup rfl rfl
      rfl).2.2.2.2.2.2.2.2 hs⟩

/-- C23. Transposing between opposite orientations is a plain buffer copy: when
the source and destination orientations differ, `transpose_index` maps every
linear position to itself, so for a source whose buffer has `rows × cols`
elements (an unpadded source) the buffer of `At` after `transpose(A, At)` equals
the buffer of `A` element for element. -/
theorem transpose_array2d_opposite {α : Type} [Inhabited α] (so dor : orientation)
    (A : array2d α so) (At : array2d α dor) (hne : so ≠ dor)
    (hv : A.values.length = A.num_rows * A.num_cols) :
    (∀ l, transpose_index so dor A.num_cols A.num_rows l = l) ∧
    (transpose_array2d A At).values = A.values := by
  have hid : ∀ l, transpose_index so dor A.num_cols A.num_rows l = l := by
    intro l
    cases so <;> cases dor
    · exact absurd rfl hne
    · simp only [transpose_index, index_of_dims, index_of, minor_dimension,
        linear_index_to_row_index, linear_index_to_col_index]
      exact Nat.div_add_mod' l A.num_cols
    · simp only [transpose_index, index_of_dims, index_of, minor_dimension,
        linear_index_to_row_index, linear_index_to_col_index]
      exact Nat.div_add_mod' l A.num_rows
    · exact absurd rfl hne
  refine ⟨hid, ?_⟩
  apply List.ext_getElem?
  intro l
  by_cases hl : l < A.num_cols * A.num_rows
  · rw [getElem?_values_transpose_array2d A At l hl hv
      (by rw [hid, Nat.mul_comm]; exact hl), hid]
  · rw [List.getElem?_eq_none, List.getElem?_eq_none]
    · rw [hv, Nat.mul_comm]; omega
    · rw [length_values_transpose_array2d]; omega

/-- Witness of C23: the 2×3 row-major array with buffer `[1,2,3,4,5,6]` transposes
into a column-major array with the same buffer, and the 2×3 column-major array
with buffer `[1,4,2,5,3,6]` into a row-major array with the same buffer. -/
theorem transpose_array2d_opposite_witness :
    orientation.row_major ≠ orientation.column_major ∧
    example_2x3.values.length = example_2x3.num_rows * example_2x3.num_cols ∧
    (transpose_array2d example_2x3
      (array2d.empty : array2d Nat orientation.column_major)).values = [1, 2, 3, 4, 5, 6] ∧
    (transpose_array2d example_2x3_column
      (array2d.empty : array2d Nat orientation.row_major)).values = [1, 4, 2, 5, 3, 6] :=
  ⟨by decide, rfl,
    (transpose_array2d_opposite orientation.row_major orientation.column_major example_2x3
      array2d.empty (by decide) rfl).2,
    (transpose_array2d_opposite orientation.column_major orientation.row_major
      example_2x3_column array2d.empty (by decide) rfl).2⟩

end cusp

